import Mathlib

/-!
# ALFS: a tick-driven CFS-style scheduler

A shallow embedding of `src/alfs_scheduler.cpp` and theorems about it.

Conventions of the embedding.

* `std::unordered_map<string, V>` is a total lookup function `String → Option V`
  (`Map.set` is `m[k] = v`, `Map.erase` is `m.erase(k)`); iteration order is never
  observable in the source, the one loop over a map (`cgroupDelete`) is pointwise.
* `int` and `int64_t` values live in `Int`.  The two places where a 64-bit signed
  result can leave the range (`quanta * 1024` and `vruntime += d`) are reduced with
  `wrap64`, the two's-complement wrap-around; `get<int>()` on a JSON number is
  reduced with `wrap32`.
* `vector<uint8_t>` masks only ever hold 0 or 1 and are `List Bool`.
* A thrown exception (`json::at`, `json::get`) is `none` in `Option`: nothing in
  `applyEvent`, `runTick` or the record loop of `main` around `runTick` catches it.
* Loops are structural recursions on a counter.  The counter is never exhausted
  before the loop exits: a larger one gives the same result (`siftUpLoop_fuel`,
  `siftDownLoop_fuel`, and `pickLoop_fuel` on every state whose runqueue index is
  consistent, `MinHeap.IndexOk`, which all reachable states are).
-/

namespace Alfs

/-! ## Machine integers -/

/-- Two's-complement reduction of an integer into the `int64_t` range. -/
def wrap64 (x : Int) : Int := (x + 2 ^ 63) % 2 ^ 64 - 2 ^ 63

/-- Two's-complement reduction of an integer into the `int` (32 bit) range. -/
def wrap32 (x : Int) : Int := (x + 2 ^ 31) % 2 ^ 32 - 2 ^ 31

/-- Largest `int64_t`. -/
def INT64_MAX : Int := 2 ^ 63 - 1

/-! ## Priority table (lines 22-44) -/

def NICE_0_LOAD : Int := 1024
def NICE_MIN : Int := -20
def NICE_MAX : Int := 19

def NICE_TO_WEIGHT : List Int :=
  [88761, 71755, 56483, 46273, 36291,
   29154, 23254, 18705, 14949, 11916,
   9548, 7620, 6100, 4904, 3906,
   3121, 2501, 1991, 1586, 1277,
   1024, 820, 655, 526, 423,
   335, 272, 215, 172, 137,
   110, 87, 70, 56, 45,
   36, 29, 23, 18, 15]

def clamp_nice (nice : Int) : Int :=
  if nice < NICE_MIN then NICE_MIN
  else if nice > NICE_MAX then NICE_MAX
  else nice

def nice_to_weight (nice : Int) : Int :=
  NICE_TO_WEIGHT.getD (clamp_nice nice - NICE_MIN).toNat 0

/-! ## JSON values

`json.hpp` (nlohmann::json) is a third-party header that is not among the sources. -/

/-- Modelled from the spec: the JSON value type of `json.hpp`, which is not among the
sources.  Numbers are the integer numbers; floating-point numbers are left out.  An
object is the list of its members, a key being looked up at its first entry. -/
inductive Json where
  | null : Json
  | bool (b : Bool) : Json
  | num (n : Int) : Json
  | str (s : String) : Json
  | arr (xs : List Json) : Json
  | obj (kvs : List (String × Json)) : Json

/-- Modelled from the spec: `e.at(key)` of `json.hpp`; it throws (here `none`) when `e`
is not an object or has no such key (the spec's "exception-style parse failures"). -/
def Json.at (e : Json) (key : String) : Option Json :=
  match e with
  | .obj kvs => kvs.lookup key
  | _ => none

/-- Modelled from the spec: `e.contains(key)` of `json.hpp`. -/
def Json.contains (e : Json) (key : String) : Bool :=
  match e with
  | .obj kvs => (kvs.lookup key).isSome
  | _ => false

/-- Modelled from the spec: `e[key]` of `json.hpp` on a constant object; the source only
evaluates it behind `e.contains(key)`. -/
def Json.idx (e : Json) (key : String) : Json :=
  match e with
  | .obj kvs => (kvs.lookup key).getD .null
  | _ => .null

/-- Modelled from the spec: `v.is_null()` of `json.hpp`. -/
def Json.is_null (v : Json) : Bool :=
  match v with
  | .null => true
  | _ => false

/-- Modelled from the spec: `v.get<string>()` of `json.hpp`; a type mismatch throws. -/
def Json.getString (v : Json) : Option String :=
  match v with
  | .str s => some s
  | _ => none

/-- Modelled from the spec: `v.get<int>()` of `json.hpp`; numbers are narrowed to `int`,
booleans convert to 0 or 1, every other type throws. -/
def Json.getInt (v : Json) : Option Int :=
  match v with
  | .num n => some (wrap32 n)
  | .bool b => some (if b then 1 else 0)
  | _ => none

/-- Modelled from the spec: the values a range-`for` over a `json.hpp` value visits: the
elements of an array, the values of an object, nothing for null, the value itself
for any other type. -/
def Json.elems (v : Json) : List Json :=
  match v with
  | .arr xs => xs
  | .obj kvs => kvs.map Prod.snd
  | .null => []
  | other => [other]

/-- The pattern `if (e.contains(k) && !e[k].is_null()) x = e[k].get<int>();` with `x`
holding `dflt` before. -/
def optInt (e : Json) (key : String) (dflt : Int) : Option Int :=
  if e.contains key && !(e.idx key).is_null then (e.idx key).getInt else some dflt

/-! ## CPU masks (lines 46-66) -/

def maskAll (cpuCount : Nat) : List Bool := List.replicate cpuCount true

/-- The loop body of `maskFromJson`, over the values still to visit. -/
def maskFromJsonLoop (cpuCount : Nat) : List Json → List Bool → Option (List Bool)
  | [], m => some m
  | v :: rest, m =>
    match v.getInt with
    | none => none
    | some cpu =>
      maskFromJsonLoop cpuCount rest
        (if 0 ≤ cpu ∧ cpu < (cpuCount : Int) then m.set cpu.toNat true else m)

def maskFromJson (cpuCount : Nat) (arr : Json) : Option (List Bool) :=
  maskFromJsonLoop cpuCount arr.elems (List.replicate cpuCount false)

def isCpuAllowed (m : List Bool) (cpu : Nat) : Bool :=
  if cpu ≥ m.length then false else m.getD cpu false

def isAnyCpuAvailable (m : List Bool) : Bool := m.any (fun x => x)

/-! ## Records (lines 68-93) -/

inductive TaskState where
  | RUNNABLE : TaskState
  | BLOCKED : TaskState
  | EXITED : TaskState
  deriving DecidableEq, Repr

structure Cgroup where
  id : String
  cpuShares : Int
  cpuQuotaUs : Int
  cpuPeriodUs : Int
  cpuMask : List Bool
  deriving DecidableEq, Repr

/-- The value of `Cgroup()`: the member initialisers of the struct. -/
def Cgroup.dflt : Cgroup :=
  { id := "", cpuShares := 1024, cpuQuotaUs := -1, cpuPeriodUs := 100000, cpuMask := [] }

structure Task where
  id : String
  nice : Int
  weight : Int
  cgroupId : String
  state : TaskState
  vruntime : Int
  affinityMask : List Bool
  lastCpu : Int
  burstRemaining : Int
  deriving DecidableEq, Repr

/-- The value of `Task()`: the member initialisers of the struct. -/
def Task.dflt : Task :=
  { id := "", nice := 0, weight := NICE_0_LOAD, cgroupId := "0", state := .RUNNABLE,
    vruntime := 0, affinityMask := [], lastCpu := -1, burstRemaining := 0 }

/-! ## Maps -/

/-- The assignment `m[k] = v` on a map. -/
def Map.set {V : Type} (m : String → Option V) (k : String) (v : V) : String → Option V :=
  fun x => if x = k then some v else m x

/-- The call `m.erase(k)` on a map. -/
def Map.erase {V : Type} (m : String → Option V) (k : String) : String → Option V :=
  fun x => if x = k then none else m x

/-- The empty map. -/
def Map.empty {V : Type} : String → Option V := fun _ => none

/-! ## Runqueue: binary heap with a position index (lines 96-192) -/

structure MinHeap where
  a : List String
  pos : String → Option Nat

namespace MinHeap

def contains (h : MinHeap) (id : String) : Bool := (h.pos id).isSome

def empty (h : MinHeap) : Bool := h.a.isEmpty

def size (h : MinHeap) : Nat := h.a.length

/-- The slot `a[i]`; the source only reads slots below `a.size()`. -/
def slot (h : MinHeap) (i : Nat) : String := h.a.getD i ""

/-- The key `tasks->at(x).vruntime`.  `at` throws for an id without a task; every queued
id has one (`Scheduler.QueuedHaveTasks`), so the fallback is never read. -/
def keyOf (tasks : String → Option Task) (x : String) : Int :=
  match tasks x with
  | some t => t.vruntime
  | none => 0

/-- The comparison `x < y` of `std::string`: lexicographic on the characters. -/
def strLt (x y : String) : Bool := decide (x.data < y.data)

def lessId (tasks : String → Option Task) (x y : String) : Bool :=
  if keyOf tasks x ≠ keyOf tasks y then decide (keyOf tasks x < keyOf tasks y)
  else strLt x y

def swapAt (h : MinHeap) (i j : Nat) : MinHeap :=
  let tmp := h.slot i
  let a1 := h.a.set i (h.slot j)
  let a2 := a1.set j tmp
  let pos1 := Map.set h.pos (a2.getD i "") i
  let pos2 := Map.set pos1 (a2.getD j "") j
  { a := a2, pos := pos2 }

/-- The loop of `siftUp`; `fuel` bounds the iterations and `i` strictly decreases, so
`fuel = i` is never exhausted before the loop exits. -/
def siftUpLoop (tasks : String → Option Task) : Nat → MinHeap → Nat → MinHeap
  | 0, h, _ => h
  | fuel + 1, h, i =>
    if i > 0 then
      let p := (i - 1) / 2
      if lessId tasks (h.slot i) (h.slot p) then siftUpLoop tasks fuel (h.swapAt i p) p
      else h
    else h

def siftUp (tasks : String → Option Task) (h : MinHeap) (i : Nat) : MinHeap :=
  siftUpLoop tasks i h i

/-- The index `smallest` computed by one iteration of `siftDown`. -/
def smallestOf (tasks : String → Option Task) (h : MinHeap) (i : Nat) : Nat :=
  let n := h.a.length
  let l := 2 * i + 1
  let r := 2 * i + 2
  let s1 := if l < n ∧ lessId tasks (h.slot l) (h.slot i) then l else i
  if r < n ∧ lessId tasks (h.slot r) (h.slot s1) then r else s1

/-- The loop of `siftDown`; `i` strictly increases and stays below `a.size()` while the
loop runs, so `fuel = a.size()` is never exhausted before the loop exits. -/
def siftDownLoop (tasks : String → Option Task) : Nat → MinHeap → Nat → MinHeap
  | 0, h, _ => h
  | fuel + 1, h, i =>
    let smallest := smallestOf tasks h i
    if smallest ≠ i then siftDownLoop tasks fuel (h.swapAt i smallest) smallest
    else h

def siftDown (tasks : String → Option Task) (h : MinHeap) (i : Nat) : MinHeap :=
  siftDownLoop tasks h.a.length h i

def push (tasks : String → Option Task) (h : MinHeap) (id : String) : MinHeap :=
  if h.contains id then h
  else
    let a1 := h.a ++ [id]
    let i := a1.length - 1
    siftUp tasks { a := a1, pos := Map.set h.pos id i } i

def remove (tasks : String → Option Task) (h : MinHeap) (id : String) : MinHeap :=
  match h.pos id with
  | none => h
  | some i =>
    let n := h.a.length
    let pos1 := Map.erase h.pos id
    if i + 1 = n then { a := h.a.dropLast, pos := pos1 }
    else
      let a1 := (h.a.set i (h.slot (n - 1))).dropLast
      let h1 : MinHeap := { a := a1, pos := Map.set pos1 (a1.getD i "") i }
      siftDown tasks (siftUp tasks h1 i) i

def popMin (tasks : String → Option Task) (h : MinHeap) : String × MinHeap :=
  if h.a.isEmpty then ("", h)
  else
    let out := h.slot 0
    (out, h.remove tasks out)

def fixKey (tasks : String → Option Task) (h : MinHeap) (id : String) : MinHeap :=
  match h.pos id with
  | none => h
  | some i => siftDown tasks (siftUp tasks h i) i

end MinHeap

/-! ## Scheduler state and helpers (lines 259-336) -/

structure Scheduler where
  cpuCount : Nat
  quanta : Int
  tasks : String → Option Task
  cgroups : String → Option Cgroup
  rq : MinHeap
  maxVruntime : Int
  lastSchedule : List String

/-- The record `runTick` returns: `vtime`, `schedule`, `meta.preemptions`,
`meta.migrations`. -/
structure TickOut where
  vtime : Int
  schedule : List String
  preemptions : Int
  migrations : Int
  deriving DecidableEq, Repr

namespace Scheduler

/-- The root cgroup the constructor builds. -/
def rootCgroup (cpuCount : Nat) : Cgroup :=
  { id := "0", cpuShares := 1024, cpuQuotaUs := -1, cpuPeriodUs := 100000,
    cpuMask := maskAll cpuCount }

/-- The constructor `Scheduler(cpuCount_, quanta_)`; `main` passes `cpuCount ≥ 1` and
`quanta ≥ 1`. -/
def new (cpuCount : Nat) (quanta : Int) : Scheduler :=
  { cpuCount := cpuCount
    quanta := quanta
    tasks := Map.empty
    cgroups := Map.set Map.empty "0" (rootCgroup cpuCount)
    rq := { a := [], pos := Map.empty }
    maxVruntime := 0
    lastSchedule := List.replicate cpuCount "idle" }

def taskExists (s : Scheduler) (id : String) : Bool := (s.tasks id).isSome

/-- The expression `(cgIt != cgroups.end()) ? cgIt->second : cgroups["0"]` for the cgroup
`id`: the cgroup read, and the state after it (`cgroups["0"]` inserts `Cgroup()` when
the root is absent). -/
def cgroupOrRoot (s : Scheduler) (id : String) : Cgroup × Scheduler :=
  match s.cgroups id with
  | some cg => (cg, s)
  | none =>
    match s.cgroups "0" with
    | some root => (root, s)
    | none => (Cgroup.dflt, { s with cgroups := Map.set s.cgroups "0" Cgroup.dflt })

def canTaskRunOnCPU (s : Scheduler) (t : Task) (cpu : Nat) : Bool × Scheduler :=
  if t.state ≠ TaskState.RUNNABLE then (false, s)
  else if !isCpuAllowed t.affinityMask cpu then (false, s)
  else
    let r := s.cgroupOrRoot t.cgroupId
    if !isCpuAllowed r.1.cpuMask cpu then (false, r.2)
    else (true, r.2)

/-- The function `effectiveWeight`; both factors are `int`, so their product fits
`int64_t`. -/
def effectiveWeight (s : Scheduler) (t : Task) : Int :=
  let w := t.weight
  let shares :=
    match s.cgroups t.cgroupId with
    | some cg => cg.cpuShares
    | none => 1024
  let ew := Int.tdiv (w * shares) 1024
  let ew := if ew < 1 then 1 else ew
  if ew > 2000000000 then 2000000000 else ew

def vruntimeDelta (s : Scheduler) (t : Task) : Int :=
  let ew := s.effectiveWeight t
  let num := wrap64 (s.quanta * NICE_0_LOAD)
  let d := Int.tdiv num ew
  if d ≤ 0 then 1 else d

def ensureTaskMasks (s : Scheduler) (t : Task) : Task :=
  if t.affinityMask.length ≠ s.cpuCount then { t with affinityMask := maskAll s.cpuCount }
  else t

/-! ## Event handlers (lines 340-551) -/

/-- The expression `e.at(key).get<string>()`. -/
def strField (e : Json) (key : String) : Option String := (e.at key).bind Json.getString

/-- The expression `e.at(key).get<int>()`. -/
def intField (e : Json) (key : String) : Option Int := (e.at key).bind Json.getInt

/-- The pattern `if (e.contains(k) && !e[k].is_null()) x = e[k].get<std::string>();`
with `x` holding `dflt` before. -/
def optStr (e : Json) (key : String) (dflt : String) : Option String :=
  if e.contains key && !(e.idx key).is_null then (e.idx key).getString else some dflt

/-- The pattern `if (e.contains("cpuMask") && !e["cpuMask"].is_null()) m =
maskFromJson(cpuCount, e["cpuMask"]);` with `m` holding `dflt` before. -/
def optMask (cpuCount : Nat) (e : Json) (dflt : List Bool) : Option (List Bool) :=
  if e.contains "cpuMask" && !(e.idx "cpuMask").is_null then
    maskFromJson cpuCount (e.idx "cpuMask")
  else some dflt

def taskCreate (s : Scheduler) (e : Json) : Option Scheduler :=
  (strField e "taskId").bind fun id =>
  if s.taskExists id then some s
  else
    (optInt e "nice" 0).bind fun nice0 =>
    (optStr e "cgroupId" "0").bind fun cg0 =>
    let nice := clamp_nice nice0
    let t : Task :=
      { id := id, nice := nice, weight := nice_to_weight nice,
        cgroupId := if (s.cgroups cg0).isNone then "0" else cg0,
        state := TaskState.RUNNABLE, vruntime := s.maxVruntime,
        affinityMask := maskAll s.cpuCount, lastCpu := -1, burstRemaining := 0 }
    let tasks1 := Map.set s.tasks id t
    some { s with tasks := tasks1, rq := s.rq.push tasks1 id }

def taskExit (s : Scheduler) (e : Json) : Option Scheduler :=
  (strField e "taskId").bind fun id =>
  match s.tasks id with
  | none => some s
  | some t =>
    let rq1 := if s.rq.contains id then s.rq.remove s.tasks id else s.rq
    some { s with tasks := Map.set s.tasks id { t with state := TaskState.EXITED }, rq := rq1 }

def taskBlock (s : Scheduler) (e : Json) : Option Scheduler :=
  (strField e "taskId").bind fun id =>
  match s.tasks id with
  | none => some s
  | some t =>
    if t.state = TaskState.EXITED then some s
    else if t.burstRemaining > 0 then some s
    else
      let rq1 := if s.rq.contains id then s.rq.remove s.tasks id else s.rq
      some { s with tasks := Map.set s.tasks id { t with state := TaskState.BLOCKED },
                    rq := rq1 }

def taskUnblock (s : Scheduler) (e : Json) : Option Scheduler :=
  (strField e "taskId").bind fun id =>
  match s.tasks id with
  | none => some s
  | some t =>
    if t.state = TaskState.EXITED then some s
    else
      let t1 := s.ensureTaskMasks
        { t with vruntime := s.maxVruntime, state := TaskState.RUNNABLE }
      let tasks1 := Map.set s.tasks id t1
      some { s with tasks := tasks1, rq := s.rq.push tasks1 id }

def taskYield (s : Scheduler) (e : Json) : Option Scheduler :=
  (strField e "taskId").bind fun id =>
  match s.tasks id with
  | none => some s
  | some t =>
    if t.state ≠ TaskState.RUNNABLE then some s
    else
      let tasks1 := Map.set s.tasks id { t with vruntime := s.maxVruntime }
      let rq1 := if s.rq.contains id then s.rq.fixKey tasks1 id else s.rq
      some { s with tasks := tasks1, rq := rq1 }

def taskSetnice (s : Scheduler) (e : Json) : Option Scheduler :=
  (strField e "taskId").bind fun id =>
  (intField e "newNice").bind fun nn =>
  match s.tasks id with
  | none => some s
  | some t =>
    if t.state = TaskState.EXITED then some s
    else
      let nice := clamp_nice nn
      let tasks1 := Map.set s.tasks id { t with nice := nice, weight := nice_to_weight nice }
      let rq1 := if s.rq.contains id then s.rq.fixKey tasks1 id else s.rq
      some { s with tasks := tasks1, rq := rq1 }

def taskSetAffinity (s : Scheduler) (e : Json) : Option Scheduler :=
  (strField e "taskId").bind fun id =>
  match s.tasks id with
  | none => some s
  | some t =>
    if t.state = TaskState.EXITED then some s
    else
      (e.at "cpuMask").bind fun arr =>
      (maskFromJson s.cpuCount arr).bind fun m =>
      some { s with tasks := Map.set s.tasks id { t with affinityMask := m } }

def cgroupCreate (s : Scheduler) (e : Json) : Option Scheduler :=
  (strField e "cgroupId").bind fun id =>
  (optInt e "cpuShares" 1024).bind fun shares0 =>
  (optInt e "cpuQuotaUs" (-1)).bind fun quota =>
  (optInt e "cpuPeriodUs" 100000).bind fun period =>
  (optMask s.cpuCount e (maskAll s.cpuCount)).bind fun m =>
  let cg : Cgroup :=
    { id := id, cpuShares := if shares0 < 1 then 1 else shares0, cpuQuotaUs := quota,
      cpuPeriodUs := period, cpuMask := m }
  some { s with cgroups := Map.set s.cgroups id cg }

/-- The handler `cgroupModify`.  An exception from a later field leaves the process, so
the cgroup is written once, after all fields were read. -/
def cgroupModify (s : Scheduler) (e : Json) : Option Scheduler :=
  (strField e "cgroupId").bind fun id =>
  let cg0 : Cgroup :=
    match s.cgroups id with
    | some cg => cg
    | none =>
      { id := id, cpuShares := 1024, cpuQuotaUs := -1, cpuPeriodUs := 100000,
        cpuMask := maskAll s.cpuCount }
  (optInt e "cpuShares" cg0.cpuShares).bind fun shares0 =>
  (optInt e "cpuQuotaUs" cg0.cpuQuotaUs).bind fun quota =>
  (optInt e "cpuPeriodUs" cg0.cpuPeriodUs).bind fun period =>
  (optMask s.cpuCount e cg0.cpuMask).bind fun m =>
  let shares :=
    if e.contains "cpuShares" && !(e.idx "cpuShares").is_null then
      (if shares0 < 1 then 1 else shares0)
    else shares0
  let cg : Cgroup :=
    { cg0 with cpuShares := shares, cpuQuotaUs := quota, cpuPeriodUs := period, cpuMask := m }
  some { s with cgroups := Map.set s.cgroups id cg }

def cgroupDelete (s : Scheduler) (e : Json) : Option Scheduler :=
  (strField e "cgroupId").bind fun id =>
  if id = "0" then some s
  else
    let tasks1 : String → Option Task := fun k =>
      (s.tasks k).map fun t =>
        if t.cgroupId = id ∧ t.state ≠ TaskState.EXITED then { t with cgroupId := "0" } else t
    some { s with tasks := tasks1, cgroups := Map.erase s.cgroups id }

def taskMoveCgroup (s : Scheduler) (e : Json) : Option Scheduler :=
  (strField e "taskId").bind fun tid =>
  (strField e "newCgroupId").bind fun cg =>
  match s.tasks tid with
  | none => some s
  | some t =>
    if t.state = TaskState.EXITED then some s
    else
      let cg1 := if (s.cgroups cg).isNone then "0" else cg
      some { s with tasks := Map.set s.tasks tid { t with cgroupId := cg1 } }

def CpuBurst (s : Scheduler) (e : Json) : Option Scheduler :=
  (strField e "taskId").bind fun tid =>
  (intField e "duration").bind fun dur0 =>
  let dur := if dur0 < 0 then 0 else dur0
  match s.tasks tid with
  | none => some s
  | some t =>
    if t.state = TaskState.EXITED then some s
    else some { s with tasks := Map.set s.tasks tid { t with burstRemaining := dur } }

def applyEvent (s : Scheduler) (e : Json) : Option Scheduler :=
  (strField e "action").bind fun action =>
  if action = "TASK_CREATE" then s.taskCreate e
  else if action = "TASK_EXIT" then s.taskExit e
  else if action = "TASK_BLOCK" then s.taskBlock e
  else if action = "TASK_UNBLOCK" then s.taskUnblock e
  else if action = "TASK_YIELD" then s.taskYield e
  else if action = "TASK_SETNICE" then s.taskSetnice e
  else if action = "TASK_SET_AFFINITY" then s.taskSetAffinity e
  else if action = "CGROUP_CREATE" then s.cgroupCreate e
  else if action = "CGROUP_MODIFY" then s.cgroupModify e
  else if action = "CGROUP_DELETE" then s.cgroupDelete e
  else if action = "TASK_MOVE_CGROUP" then s.taskMoveCgroup e
  else if action = "CPU_BURST" then s.CpuBurst e
  else some s

/-- The loop `for (const auto& e : events) applyEvent(e);` (line 554). -/
def applyEvents (s : Scheduler) : List Json → Option Scheduler
  | [] => some s
  | e :: rest => (s.applyEvent e).bind fun s1 => applyEvents s1 rest

/-! ## The tick procedure (lines 553-653) -/

/-- The loop `while (!rq.empty())` of lines 564-592 for one CPU: the pick (`""` for
none), the state and the stash after it.  Every iteration pops one id, so on a heap
with a consistent index `fuel = rq.size()` iterations empty the runqueue. -/
def pickLoop (cpu : Nat) : Nat → Scheduler → List String → String × Scheduler × List String
  | 0, s, stashed => ("", s, stashed)
  | fuel + 1, s, stashed =>
    if s.rq.empty then ("", s, stashed)
    else
      let popped := s.rq.popMin s.tasks
      let cand := popped.1
      let s1 : Scheduler := { s with rq := popped.2 }
      match s1.tasks cand with
      | none => pickLoop cpu fuel s1 stashed
      | some t =>
        if t.state ≠ TaskState.RUNNABLE then pickLoop cpu fuel s1 stashed
        else if !isAnyCpuAvailable t.affinityMask then pickLoop cpu fuel s1 (stashed ++ [cand])
        else
          let r := s1.cgroupOrRoot t.cgroupId
          if !isAnyCpuAvailable r.1.cpuMask then pickLoop cpu fuel r.2 (stashed ++ [cand])
          else
            let c := r.2.canTaskRunOnCPU t cpu
            if c.1 then (cand, c.2, stashed)
            else pickLoop cpu fuel c.2 (stashed ++ [cand])

/-- The loop `for (const auto& id : stashed) rq.push(id);` (line 601). -/
def pushAll (s : Scheduler) : List String → Scheduler
  | [] => s
  | id :: rest => pushAll { s with rq := s.rq.push s.tasks id } rest

/-- One iteration of the per-CPU selection loop (lines 561-603). -/
def selectCpu (st : Scheduler × List String) (cpu : Nat) : Scheduler × List String :=
  let r := pickLoop cpu st.1.rq.size st.1 []
  let pick := r.1
  let schedule := if pick ≠ "" then st.2.set cpu pick else st.2.set cpu "idle"
  (pushAll r.2.1 r.2.2, schedule)

/-- The selection loop over the CPUs `cpus`, from the schedule `schedule`. -/
def selectLoop (s : Scheduler) (schedule : List String) (cpus : List Nat) :
    Scheduler × List String :=
  cpus.foldl selectCpu (s, schedule)

/-- Lines 556-603: the schedule starts all `"idle"`, then every CPU picks in turn. -/
def selectAll (s : Scheduler) : Scheduler × List String :=
  selectLoop s (List.replicate s.cpuCount "idle") (List.range s.cpuCount)

/-- The state and the two counters threaded through the accounting pass. -/
structure Acct where
  s : Scheduler
  preemptions : Int
  migrations : Int

/-- The task `tasks[cur]` (`operator[]` yields `Task()` for an absent id). -/
def taskAt (s : Scheduler) (cur : String) : Task := (s.tasks cur).getD Task.dflt

/-- The record of the task `cur` after lines 621-631 ran for it on `cpu`: `lastCpu`
set, `vruntime` advanced by its delta, `burstRemaining` counted down. -/
def accountedTask (s : Scheduler) (cur : String) (cpu : Nat) : Task :=
  let t := s.taskAt cur
  let t1 : Task := { t with lastCpu := (cpu : Int) }
  let d := s.vruntimeDelta t1
  let t2 : Task := { t1 with vruntime := wrap64 (t1.vruntime + d) }
  if t2.burstRemaining > 0 then { t2 with burstRemaining := t2.burstRemaining - 1 } else t2

/-- The state after lines 617-636 ran for the task `cur` on `cpu`. -/
def accountTask (s : Scheduler) (cur : String) (cpu : Nat) : Scheduler :=
  let t3 := s.accountedTask cur cpu
  let maxV := if t3.vruntime > s.maxVruntime then t3.vruntime else s.maxVruntime
  let tasks1 := Map.set s.tasks cur t3
  let rq1 :=
    if t3.state = TaskState.RUNNABLE then (s.rq.push tasks1 cur).fixKey tasks1 cur
    else s.rq
  { s with tasks := tasks1, maxVruntime := maxV, rq := rq1 }

/-- One iteration of the accounting loop (lines 608-638) for `cpu`.  `schedule` has
`cpuCount` entries; so has `lastSchedule` (constructor and line 640). -/
def accountCpu (schedule : List String) (ac : Acct) (cpu : Nat) : Acct :=
  let cur := schedule.getD cpu "idle"
  let prev := ac.s.lastSchedule.getD cpu "idle"
  { s := if cur ≠ "idle" then ac.s.accountTask cur cpu else ac.s
    preemptions :=
      if cur ≠ prev then (if prev ≠ "idle" then ac.preemptions + 1 else ac.preemptions)
      else ac.preemptions
    migrations :=
      if cur ≠ "idle" then
        (if (ac.s.taskAt cur).lastCpu ≠ -1 ∧ (ac.s.taskAt cur).lastCpu ≠ (cpu : Int) then
          ac.migrations + 1
        else ac.migrations)
      else ac.migrations }

/-- The accounting loop over the CPUs `cpus`. -/
def accountLoop (schedule : List String) (ac : Acct) (cpus : List Nat) : Acct :=
  cpus.foldl (accountCpu schedule) ac

/-- Lines 605-640: the accounting pass and `lastSchedule = schedule`. -/
def accountAll (s : Scheduler) (schedule : List String) : Acct :=
  let ac := accountLoop schedule { s := s, preemptions := 0, migrations := 0 }
    (List.range s.cpuCount)
  { ac with s := { ac.s with lastSchedule := schedule } }

/-- Lines 556-652 of `runTick`: everything after the events were applied. -/
def dispatch (s : Scheduler) (vtime : Int) : Scheduler × TickOut :=
  let sel := s.selectAll
  let ac := sel.1.accountAll sel.2
  (ac.s, { vtime := vtime, schedule := sel.2, preemptions := ac.preemptions,
           migrations := ac.migrations })

def runTick (s : Scheduler) (vtime : Int) (events : List Json) :
    Option (Scheduler × TickOut) :=
  (s.applyEvents events).bind fun s1 => some (s1.dispatch vtime)

/-- Modelled from the spec: `v.get<int64_t>()` of `json.hpp`. -/
def getInt64 (v : Json) : Option Int :=
  match v with
  | .num n => some (wrap64 n)
  | .bool b => some (if b then 1 else 0)
  | _ => none

/-- The body of the record loop of `main` (lines 719-730) for one parsed record `tf`:
`none` when an exception leaves `main` (the process ends), otherwise the state and
the line written, if any.  The `continue` paths skip the record. -/
def processRecord (s : Scheduler) (tf : Json) : Option (Scheduler × Option TickOut) :=
  if !tf.contains "vtime" || !tf.contains "events" then some (s, none)
  else
    match getInt64 (tf.idx "vtime") with
    | none => some (s, none)
    | some vtime =>
      match tf.idx "events" with
      | .arr events => (s.runTick vtime events).map fun r => (r.1, some r.2)
      | _ => some (s, none)

/-- The ticks for a list of event batches, fed in order with `vtime` 0, 1, 2, ...
from `vtime0`: the final state and the records written. -/
def runTicks (s : Scheduler) (vtime0 : Int) : List (List Json) → Option (Scheduler × List TickOut)
  | [] => some (s, [])
  | batch :: rest =>
    (s.runTick vtime0 batch).bind fun r =>
    (runTicks r.1 (vtime0 + 1) rest).map fun q => (q.1, r.2 :: q.2)

end Scheduler

/-! ## Events as the transport delivers them -/

/-- The event object with the given action and further fields. -/
def mkEvent (action : String) (fields : List (String × Json)) : Json :=
  .obj (("action", .str action) :: fields)

/-- The event `TASK_CREATE` for `id` with default nice and cgroup. -/
def evCreate (id : String) : Json := mkEvent "TASK_CREATE" [("taskId", .str id)]

/-- The event `TASK_CREATE` for `id` with the given nice value. -/
def evCreateNice (id : String) (nice : Int) : Json :=
  mkEvent "TASK_CREATE" [("taskId", .str id), ("nice", .num nice)]

/-- The event `TASK_CREATE` for `id` in the cgroup `cg`. -/
def evCreateIn (id : String) (cg : String) : Json :=
  mkEvent "TASK_CREATE" [("taskId", .str id), ("cgroupId", .str cg)]

/-- An event with the given action that carries only a `taskId`. -/
def evTask (action : String) (id : String) : Json := mkEvent action [("taskId", .str id)]

/-- The event `CGROUP_CREATE` for `cg` with the given shares. -/
def evCgroupShares (cg : String) (shares : Int) : Json :=
  mkEvent "CGROUP_CREATE" [("cgroupId", .str cg), ("cpuShares", .num shares)]

/-- The event `CGROUP_DELETE` for `cg`. -/
def evCgroupDelete (cg : String) : Json := mkEvent "CGROUP_DELETE" [("cgroupId", .str cg)]

/-! ## Invariants and reachable states -/

namespace MinHeap

/-- The position index agrees with the backing array: `pos[id] = i` exactly when
`a[i] = id` (so no id is queued twice and `pos` has no other keys). -/
def IndexOk (h : MinHeap) : Prop := ∀ id i, h.pos id = some i ↔ h.a[i]? = some id

/-- The heap `h'` holds the same ids as the heap `h`, with a consistent index. -/
def Shuffle (h h' : MinHeap) : Prop :=
  h'.IndexOk ∧ h'.a.length = h.a.length ∧ ∀ id, h'.contains id = h.contains id

end MinHeap

namespace Scheduler

/-- The root cgroup "0" is in the cgroup map. -/
def HasRoot (s : Scheduler) : Prop := ∃ cg, s.cgroups "0" = some cg

/-- Every queued id has a task record. -/
def QueuedHaveTasks (s : Scheduler) : Prop :=
  ∀ id, s.rq.contains id = true → ∃ t, s.tasks id = some t

/-- No task has a vruntime above `maxVruntime`. -/
def Ceiling (s : Scheduler) : Prop :=
  ∀ id t, s.tasks id = some t → t.vruntime ≤ s.maxVruntime

/-- The structural invariant of the scheduler state. -/
structure Consistent (s : Scheduler) : Prop where
  indexOk : s.rq.IndexOk
  queued : s.QueuedHaveTasks
  hasRoot : s.HasRoot
  ceiling : s.Ceiling
  lastLen : s.lastSchedule.length = s.cpuCount

/-- The states the scheduler built by `Scheduler(cpuCount, quanta)` can be in: after
the constructor, after any applied event that does not throw, and after the
selection and accounting of a tick. -/
inductive Reachable (cpuCount : Nat) (quanta : Int) : Scheduler → Prop
  | init : Reachable cpuCount quanta (Scheduler.new cpuCount quanta)
  | event {s s' : Scheduler} (e : Json) :
      Reachable cpuCount quanta s → s.applyEvent e = some s' → Reachable cpuCount quanta s'
  | tick {s : Scheduler} (vtime : Int) :
      Reachable cpuCount quanta s → Reachable cpuCount quanta (s.dispatch vtime).1

/-- The task `t` moved to the root cgroup when it is a live member of `id`. -/
def reparent (id : String) (t : Task) : Task :=
  if t.cgroupId = id ∧ t.state ≠ TaskState.EXITED then { t with cgroupId := "0" } else t

/-- The shapes a state change by one applied event can take. -/
inductive Effect (s : Scheduler) : Scheduler → Prop
  | same : Effect s s
  | task (id : String) (t1 : Task) (rq1 : MinHeap) :
      ((s.tasks id = none ∧ t1.vruntime = s.maxVruntime) ∨
        (∃ t, s.tasks id = some t ∧
          (t1.vruntime = t.vruntime ∨ t1.vruntime = s.maxVruntime))) →
      (rq1 = s.rq ∨ rq1 = s.rq.push (Map.set s.tasks id t1) id ∨
        rq1 = s.rq.remove s.tasks id ∨ rq1 = s.rq.fixKey (Map.set s.tasks id t1) id) →
      Effect s { s with tasks := Map.set s.tasks id t1, rq := rq1 }
  | cgroup (id : String) (cg : Cgroup) :
      Effect s { s with cgroups := Map.set s.cgroups id cg }
  | cgroupDel (id : String) : id ≠ "0" →
      Effect s { s with tasks := fun k => (s.tasks k).map (reparent id),
                        cgroups := Map.erase s.cgroups id }

/-- What one run of `pickLoop` from the state `s` guarantees about its result `r`. -/
def PickOk (cpu : Nat) (s : Scheduler) (r : String × Scheduler × List String) : Prop :=
  r.2.1 = { s with rq := r.2.1.rq } ∧
  r.2.1.rq.IndexOk ∧
  (∀ x, r.2.1.rq.contains x = true → s.rq.contains x = true) ∧
  (∀ x ∈ r.2.2, ∃ t, s.tasks x = some t) ∧
  (r.1 ≠ "" → ∃ t, s.tasks r.1 = some t ∧ (s.canTaskRunOnCPU t cpu).1 = true)

/-- What the selection loop guarantees about its result `r`, from the state `s` and the
schedule `schedule`, over the CPUs `cpus`. -/
def SelectOk (s : Scheduler) (schedule : List String) (cpus : List Nat)
    (r : Scheduler × List String) : Prop :=
  r.1 = { s with rq := r.1.rq } ∧ r.1.Consistent ∧ r.2.length = schedule.length ∧
  ∀ c t, r.2[c]? = some t → t ≠ "idle" →
    schedule[c]? = some t ∨
      (c ∈ cpus ∧ ∃ task, s.tasks t = some task ∧ (s.canTaskRunOnCPU task c).1 = true)

/-- The fields of a task record that the accounting pass never writes. -/
def Static (t t1 : Task) : Prop :=
  t1.id = t.id ∧ t1.nice = t.nice ∧ t1.weight = t.weight ∧ t1.cgroupId = t.cgroupId ∧
  t1.state = t.state ∧ t1.affinityMask = t.affinityMask

/-- What the accounting pass guarantees about the state `s1` it leaves, from `s`. -/
def AcctOk (s s1 : Scheduler) : Prop :=
  s1.Consistent ∧ s1.cgroups = s.cgroups ∧ s1.cpuCount = s.cpuCount ∧ s1.quanta = s.quanta ∧
  s1.lastSchedule = s.lastSchedule ∧ s.maxVruntime ≤ s1.maxVruntime ∧
  ∀ id t, s.tasks id = some t → ∃ t1, s1.tasks id = some t1 ∧ Static t t1

/-- The state in which C2 is evaluated: two CPUs, a first tick that creates "A", "B" and
"C", then the event TASK_UNBLOCK for the queued task "C" of the second batch. -/
def c2State : Option Scheduler :=
  ((Scheduler.new 2 1).runTick 0 [evCreate "A", evCreate "B", evCreate "C"]).bind
    fun r => r.1.applyEvents [evTask "TASK_UNBLOCK" "C"]

/-- A reachable sample state: one CPU, quanta 1, after the first tick whose batch
creates "A" and "B". -/
def sampleState : Scheduler :=
  (((Scheduler.new 1 1).runTick 0 [evCreate "A", evCreate "B"]).map Prod.fst).getD
    (Scheduler.new 1 1)

/-- A record whose batch creates "A" and then carries TASK_SETNICE for "A" without the
field `newNice`. -/
def c6Record : Json :=
  .obj [("vtime", .num 0),
        ("events", .arr [evCreate "A", mkEvent "TASK_SETNICE" [("taskId", .str "A")]])]

/-- The record `c6Record` with the malformed event removed. -/
def c6RecordWithout : Json :=
  .obj [("vtime", .num 0), ("events", .arr [evCreate "A"])]

/-- The state in which C10 is applied: a one-CPU scheduler after CGROUP_CREATE "g" and
TASK_CREATE "A" in "g". -/
def c10State : Scheduler :=
  ((Scheduler.new 1 1).applyEvents [evCgroupShares "g" 512, evCreateIn "A" "g"]).getD
    (Scheduler.new 1 1)

/-- The sum `x` lies in the `int64_t` range. -/
def fits64 (x : Int) : Bool := decide (-(2 ^ 63) ≤ x ∧ x ≤ INT64_MAX)

/-- No addition `t.vruntime += d` of the accounting loop over `cpus` leaves the
`int64_t` range. -/
def noWrapLoop (schedule : List String) : Scheduler → List Nat → Bool
  | _, [] => true
  | s, cpu :: rest =>
    let cur := schedule.getD cpu "idle"
    if cur ≠ "idle" then
      fits64 ((s.taskAt cur).vruntime +
          s.vruntimeDelta { s.taskAt cur with lastCpu := (cpu : Int) }) &&
        noWrapLoop schedule (s.accountTask cur cpu) rest
    else noWrapLoop schedule s rest

/-- No addition `t.vruntime += d` of the accounting pass of the tick dispatched from `s`
leaves the `int64_t` range. -/
def dispatchNoWrap (s : Scheduler) : Bool :=
  noWrapLoop s.selectAll.2 s.selectAll.1 (List.range s.cpuCount)

/-- The state in which C4 is evaluated: one CPU, quanta 2^52, after the first tick, whose
batch creates the cgroup "g" with `cpuShares` 1 and the task "A" in it. -/
def c4State : Scheduler :=
  (((Scheduler.new 1 (2 ^ 52)).runTick 0
      [evCgroupShares "g" 1, evCreateIn "A" "g"]).map Prod.fst).getD (Scheduler.new 1 (2 ^ 52))

/-- The state before the wake-up in which C8 is evaluated: one CPU, after TASK_CREATE
"B", TASK_CREATE "A" and TASK_BLOCK "A"; only "B" is queued. -/
def c8Before : Scheduler :=
  ((Scheduler.new 1 1).applyEvents
    [evCreate "B", evCreate "A", evTask "TASK_BLOCK" "A"]).getD (Scheduler.new 1 1)

/-- The state immediately after applying TASK_UNBLOCK "A" in `c8Before`. -/
def c8After : Scheduler :=
  (c8Before.applyEvent (evTask "TASK_UNBLOCK" "A")).getD c8Before

end Scheduler

namespace MinHeap

/-- The empty runqueue. -/
def heap0 : MinHeap := { a := [], pos := Map.empty }

/-- The runqueue that holds only `x`. -/
def heap1 (x : String) : MinHeap := { a := [x], pos := Map.set Map.empty x 0 }

/-- The runqueue with `x` at the root and `y` below it. -/
def heap2 (x y : String) : MinHeap :=
  { a := [x, y], pos := Map.set (Map.set Map.empty x 0) y 1 }

end MinHeap

namespace Scheduler

/-- The record of a task created with nice `n` in the root cgroup of a one-CPU
scheduler, at vruntime `v` and with `lastCpu = lc`. -/
def duoTask (id : String) (n : Int) (v : Int) (lc : Int) : Task :=
  { id := id, nice := n, weight := nice_to_weight n, cgroupId := "0",
    state := TaskState.RUNNABLE, vruntime := v, affinityMask := [true], lastCpu := lc,
    burstRemaining := 0 }

/-- The vruntime delta of a task of nice `n` in the root cgroup, for quanta `q`. -/
def duoDelta (q : Int) (n : Int) : Int :=
  (Scheduler.new 1 q).vruntimeDelta (duoTask "" n 0 (-1))

/-- The runqueue order between the task `id1` at vruntime `a` and the task `id2` at
vruntime `b`. -/
def duoLess (id1 id2 : String) (a b : Int) : Bool :=
  if a ≠ b then decide (a < b) else MinHeap.strLt id1 id2

/-- A one-CPU scheduler with quanta `q` whose runqueue holds exactly the two never
blocked tasks `id1` (nice `n1`, vruntime `a`) and `id2` (nice `n2`, vruntime `b`),
the lesser of the two at the root. -/
structure Duo (q : Int) (id1 id2 : String) (n1 n2 : Int) (a b : Int) (s : Scheduler) :
    Prop where
  cpu : s.cpuCount = 1
  quanta : s.quanta = q
  root : s.cgroups "0" = some (rootCgroup 1)
  first : ∃ lc, s.tasks id1 = some (duoTask id1 n1 a lc)
  second : ∃ lc, s.tasks id2 = some (duoTask id2 n2 b lc)
  rq : (s.rq = MinHeap.heap2 id1 id2 ∧ MinHeap.lessId s.tasks id2 id1 = false) ∨
       (s.rq = MinHeap.heap2 id2 id1 ∧ MinHeap.lessId s.tasks id1 id2 = false)

/-- The two-task run in the abstract: for `k` ticks from the vruntimes `(a, b)`, which
task runs on each tick (`true` for the first task) and the vruntimes at the end. -/
def duoRun (id1 id2 : String) (d1 d2 : Int) : Nat → Int × Int → List Bool × (Int × Int)
  | 0, st => ([], st)
  | k + 1, st =>
    if duoLess id1 id2 st.1 st.2 then
      (true :: (duoRun id1 id2 d1 d2 k (wrap64 (st.1 + d1), st.2)).1,
        (duoRun id1 id2 d1 d2 k (wrap64 (st.1 + d1), st.2)).2)
    else
      (false :: (duoRun id1 id2 d1 d2 k (st.1, wrap64 (st.2 + d2))).1,
        (duoRun id1 id2 d1 d2 k (st.1, wrap64 (st.2 + d2))).2)

/-- The schedule of a one-CPU tick on which the first (`true`) or second task runs. -/
def duoSchedule (id1 id2 : String) (f : Bool) : List String := [if f then id1 else id2]

/-- The number of ticks among `outs` on which the task `id` was scheduled. -/
def ticksOf (id : String) (outs : List TickOut) : Nat :=
  outs.countP (fun o => decide (id ∈ o.schedule))

/-- The batches of the weight-law run for `N` ticks: the first batch creates the task
`id1` with nice `n1` and the task `id2` with nice `n2`, all later batches are empty. -/
def weightBatches (id1 : String) (n1 : Int) (id2 : String) (n2 : Int) : Nat → List (List Json)
  | 0 => []
  | k + 1 => [evCreateNice id1 n1, evCreateNice id2 n2] :: List.replicate k []

/-- The records of the first `N` ticks of the weight-law run on a one-CPU scheduler
with quanta `q`. -/
def weightRun (q : Int) (id1 : String) (n1 : Int) (id2 : String) (n2 : Int) (N : Nat) :
    List TickOut :=
  (((Scheduler.new 1 q).runTicks 0 (weightBatches id1 n1 id2 n2 N)).map Prod.snd).getD []

end Scheduler

namespace Scheduler

/-- The shapes a state change by one applied event can take, with what the handler
guarantees about the task record it writes. -/
inductive Change (s : Scheduler) : Scheduler → Prop
  | same : Change s s
  | create (id : String) (t1 : Task) :
      s.tasks id = none → t1.state = TaskState.RUNNABLE → t1.lastCpu = -1 →
      (t1.cgroupId = "0" ∨ ∃ cg, s.cgroups t1.cgroupId = some cg) →
      Change s { s with tasks := Map.set s.tasks id t1,
                        rq := s.rq.push (Map.set s.tasks id t1) id }
  | leave (id : String) (t : Task) (st : TaskState) :
      s.tasks id = some t → st ≠ TaskState.RUNNABLE →
      (t.state = TaskState.EXITED → st = TaskState.EXITED) →
      Change s { s with tasks := Map.set s.tasks id { t with state := st },
                        rq := if s.rq.contains id then s.rq.remove s.tasks id else s.rq }
  | wake (id : String) (t t1 : Task) :
      s.tasks id = some t → t.state ≠ TaskState.EXITED → t1.state = TaskState.RUNNABLE →
      t1.cgroupId = t.cgroupId → t1.lastCpu = t.lastCpu →
      Change s { s with tasks := Map.set s.tasks id t1,
                        rq := s.rq.push (Map.set s.tasks id t1) id }
  | modify (id : String) (t t1 : Task) (rq1 : MinHeap) :
      s.tasks id = some t → t.state ≠ TaskState.EXITED → t1.state = t.state →
      t1.lastCpu = t.lastCpu →
      (t1.cgroupId = t.cgroupId ∨ t1.cgroupId = "0" ∨ ∃ cg, s.cgroups t1.cgroupId = some cg) →
      (rq1 = s.rq ∨ rq1 = s.rq.fixKey (Map.set s.tasks id t1) id) →
      Change s { s with tasks := Map.set s.tasks id t1, rq := rq1 }
  | cgroup (id : String) (cg : Cgroup) :
      Change s { s with cgroups := Map.set s.cgroups id cg }
  | cgroupDel (id : String) : id ≠ "0" →
      Change s { s with tasks := fun k => (s.tasks k).map (reparent id),
                        cgroups := Map.erase s.cgroups id }

/-- Every queued id has a task record in state RUNNABLE. -/
def QueuedRunnable (s : Scheduler) : Prop :=
  ∀ id, s.rq.contains id = true → ∃ t, s.tasks id = some t ∧ t.state = TaskState.RUNNABLE

/-- Every task that is not EXITED names a cgroup that is in the cgroup map. -/
def LiveCgroupRefs (s : Scheduler) : Prop :=
  ∀ id t, s.tasks id = some t → t.state ≠ TaskState.EXITED →
    ∃ cg, s.cgroups t.cgroupId = some cg

/-- No task has a `lastCpu` below -1: it is -1 or a CPU index. -/
def LastCpuOk (s : Scheduler) : Prop :=
  ∀ id t, s.tasks id = some t → -1 ≤ t.lastCpu

/-- The lifecycle invariant of the scheduler state. -/
structure Sound (s : Scheduler) : Prop where
  consistent : s.Consistent
  queuedRunnable : s.QueuedRunnable
  liveRefs : s.LiveCgroupRefs
  lastCpuOk : s.LastCpuOk

end Scheduler

namespace Scheduler

/-- Where the pick and the stash of one run of `pickLoop` from the state `s` and the
stash `stashed` come from: a pick was queued and is queued no more, and every id
stashed by this run was queued and is not the pick. -/
def PickFrom (s : Scheduler) (stashed : List String) (r : String × Scheduler × List String) :
    Prop :=
  (r.1 ≠ "" → s.rq.contains r.1 = true ∧ r.2.1.rq.contains r.1 = false) ∧
  (∀ x ∈ r.2.2, x ∈ stashed ∨ (s.rq.contains x = true ∧ (r.1 ≠ "" → x ≠ r.1)))

/-- Where the entries of the schedule `r.2` come from, after the selection loop ran over
the CPUs `cpus` from the state `s` and the schedule `schedule`: the runqueue only
lost ids, an entry other than "idle" was there before or was queued in `s` and is
queued no more, and no id was placed on two CPUs. -/
def SelectFrom (s : Scheduler) (schedule : List String) (cpus : List Nat)
    (r : Scheduler × List String) : Prop :=
  (∀ x, r.1.rq.contains x = true → s.rq.contains x = true) ∧
  (∀ c t, r.2[c]? = some t → t ≠ "idle" →
    schedule[c]? = some t ∨
      (c ∈ cpus ∧ s.rq.contains t = true ∧ r.1.rq.contains t = false)) ∧
  (∀ (c1 c2 : Nat) (t : String), c1 ≠ c2 → r.2[c1]? = some t → r.2[c2]? = some t → t ≠ "idle" →
    schedule[c1]? = some t ∨ schedule[c2]? = some t)

end Scheduler

namespace Scheduler

/-- The batch in which C11 is evaluated: CGROUP_CREATE "g", TASK_CREATE "A" in "g",
TASK_EXIT "A", CGROUP_DELETE "g". -/
def c11Events : List Json :=
  [evCgroupShares "g" 512, evCreateIn "A" "g", evTask "TASK_EXIT" "A", evCgroupDelete "g"]

/-- The actions of the task-targeted events. -/
def taskActions : List String :=
  ["TASK_CREATE", "TASK_EXIT", "TASK_BLOCK", "TASK_UNBLOCK", "TASK_YIELD", "TASK_SETNICE",
   "TASK_SET_AFFINITY", "TASK_MOVE_CGROUP", "CPU_BURST"]

/-- The event `e` with action `action` carries the fields its handler reads before it
looks at the task: `newNice` (TASK_SETNICE), `newCgroupId` (TASK_MOVE_CGROUP),
`duration` (CPU_BURST), each of the type the handler converts it to. -/
def fieldsPresent (action : String) (e : Json) : Prop :=
  (action = "TASK_SETNICE" → (intField e "newNice").isSome = true) ∧
  (action = "TASK_MOVE_CGROUP" → (strField e "newCgroupId").isSome = true) ∧
  (action = "CPU_BURST" → (intField e "duration").isSome = true)

/-- The state in which C12 is applied: one CPU, after TASK_CREATE "A" and TASK_EXIT "A". -/
def c12State : Scheduler :=
  ((Scheduler.new 1 1).applyEvents [evCreate "A", evTask "TASK_EXIT" "A"]).getD
    (Scheduler.new 1 1)

end Scheduler

namespace Scheduler

/-- The cgroup shares `effectiveWeight` uses for the task `t`: those of its cgroup, and
1024 when that cgroup is not in the cgroup map. -/
def sharesOf (s : Scheduler) (t : Task) : Int :=
  match s.cgroups t.cgroupId with
  | some cg => cg.cpuShares
  | none => 1024

end Scheduler

/-- The event `TASK_SET_AFFINITY` for `id` with the CPU indices `cpus`. -/
def evAffinity (id : String) (cpus : List Int) : Json :=
  mkEvent "TASK_SET_AFFINITY" [("taskId", .str id), ("cpuMask", .arr (cpus.map Json.num))]

namespace MinHeap

/-- The binary min-heap property of the array under `lessId`: no slot is less than its
parent slot (so no element is greater than its children). -/
def Ordered (tasks : String → Option Task) (h : MinHeap) : Prop :=
  ∀ i, 0 < i → i < h.a.length → lessId tasks (h.slot i) (h.slot ((i - 1) / 2)) = false

end MinHeap

namespace Scheduler

/-- The test of line 612-613 for the CPU `c`: its entry differs from the one in `last`
and the one in `last` is not "idle". -/
def preemptedAt (schedule last : List String) (c : Nat) : Bool :=
  decide (schedule.getD c "idle" ≠ last.getD c "idle" ∧ last.getD c "idle" ≠ "idle")

/-- The test of lines 616-619 for the CPU `c` in the state `s`: its entry is a task whose
`lastCpu` is neither -1 nor `c`. -/
def movedAt (s : Scheduler) (schedule : List String) (c : Nat) : Bool :=
  decide (schedule.getD c "idle" ≠ "idle" ∧
    (s.taskAt (schedule.getD c "idle")).lastCpu ≠ -1 ∧
    (s.taskAt (schedule.getD c "idle")).lastCpu ≠ (c : Int))

/-- No task id is the entry of two of the CPUs `cpus`. -/
def DistinctOn (schedule : List String) (cpus : List Nat) : Prop :=
  ∀ c1 ∈ cpus, ∀ c2 ∈ cpus, c1 ≠ c2 → schedule.getD c1 "idle" = schedule.getD c2 "idle" →
    schedule.getD c1 "idle" = "idle"

end Scheduler

namespace Scheduler

/-- What the events of a batch leave alone, from the state `s` to the state `s1`: the
parameters, `lastSchedule`, the `lastCpu` of every task that was there, and a task
that was not there has `lastCpu = -1`. -/
def EventFrame (s s1 : Scheduler) : Prop :=
  s1.cpuCount = s.cpuCount ∧ s1.quanta = s.quanta ∧ s1.lastSchedule = s.lastSchedule ∧
  (∀ id t, s.tasks id = some t → ∃ t1, s1.tasks id = some t1 ∧ t1.lastCpu = t.lastCpu) ∧
  (∀ id t1, s1.tasks id = some t1 → s.tasks id = none → t1.lastCpu = -1)

end Scheduler

namespace Scheduler

/-- The task `id` is RUNNABLE and some CPU of the scheduler is allowed both by its
affinity mask and by the cpuMask of its cgroup. -/
def Feasible (s : Scheduler) (id : String) : Prop :=
  ∃ t, s.tasks id = some t ∧ t.state = TaskState.RUNNABLE ∧
    ∃ c, c < s.cpuCount ∧ isCpuAllowed t.affinityMask c = true ∧
      isCpuAllowed (s.cgroupOrRoot t.cgroupId).1.cpuMask c = true

/-- The number of entries of a schedule other than "idle". -/
def nonIdle (schedule : List String) : Nat :=
  schedule.countP (fun x => decide (x ≠ "idle"))

/-- The state in which C14, C16 and C20 are applied: one CPU, quanta 1, after the event
TASK_CREATE "A" (nice 0) on a fresh scheduler. -/
def oneTaskState : Scheduler :=
  { Scheduler.new 1 1 with
    tasks := Map.set (Scheduler.new 1 1).tasks "A" (duoTask "A" 0 0 (-1))
    rq := MinHeap.heap1 "A" }

end Scheduler

namespace Scheduler

/-- The number of CPUs `c` below `n` with `schedule[c] ≠ last[c]` and `last[c] ≠ "idle"`. -/
def preemptionCount (schedule last : List String) (n : Nat) : Nat :=
  (List.range n).countP (preemptedAt schedule last)

/-- The test "the task assigned to the CPU `c` had `lastCpu ≥ 0` and `lastCpu ≠ c`", on
the task map `tasks` of the state before the tick (a task that was not there yet
had never run). -/
def migratedAt (tasks : String → Option Task) (schedule : List String) (c : Nat) : Bool :=
  match tasks (schedule.getD c "idle") with
  | some t => decide (schedule.getD c "idle" ≠ "idle" ∧ 0 ≤ t.lastCpu ∧ t.lastCpu ≠ (c : Int))
  | none => false

/-- The number of CPUs below `n` whose assigned task had `lastCpu ≥ 0` and
`lastCpu ≠ c` in the task map `tasks`. -/
def migrationCount (tasks : String → Option Task) (schedule : List String) (n : Nat) : Nat :=
  (List.range n).countP (migratedAt tasks schedule)

end Scheduler

namespace Scheduler

/-- The batches of the alternation run for `N` ticks: the first batch creates "A" then
"B" (default nice, root cgroup), all later batches are empty. -/
def altBatches : Nat → List (List Json)
  | 0 => []
  | k + 1 => [evCreate "A", evCreate "B"] :: List.replicate k []

/-- The record the claim expects of the tick with index `k`: "A" on even and "B" on odd
ticks, no preemption on tick 0 and one on every later tick, no migration. -/
def altOut (k : Nat) (vtime : Int) : TickOut :=
  { vtime := vtime
    schedule := [if k % 2 = 0 then "A" else "B"]
    preemptions := if k = 0 then 0 else 1
    migrations := 0 }

/-- The state of the alternation run with quanta `q` before the tick with index `k`:
"A" has run on (k + 1) / 2 ticks and "B" on k / 2, the last schedule is that of the
tick before, and no task ran on a CPU other than 0. -/
def AltInv (q : Int) (k : Nat) (s : Scheduler) : Prop :=
  Duo q "A" "B" 0 0 ((((k + 1) / 2 : Nat) : Int) * q) (((k / 2 : Nat) : Int) * q) s ∧
  s.lastSchedule = [if k = 0 then "idle" else if k % 2 = 1 then "A" else "B"] ∧
  ∀ id t, s.tasks id = some t → t.lastCpu = -1 ∨ t.lastCpu = 0

end Scheduler

namespace MinHeap

/-- The ordering key of the id `x`: its vruntime, then the id itself. -/
def key (tasks : String → Option Task) (x : String) : Lex (Int × List Char) :=
  toLex (keyOf tasks x, x.data)

/-- The ordering key of the id in slot `i`. -/
def keyAt (tasks : String → Option Task) (h : MinHeap) (i : Nat) : Lex (Int × List Char) :=
  key tasks (h.slot i)

/-- The state of the array while `siftUp` runs at slot `i`: every slot other than `i` is
at least its parent, and the children of `i` are at least the parent of `i`. -/
def UpInv (tasks : String → Option Task) (h : MinHeap) (i : Nat) : Prop :=
  (∀ j, 0 < j → j < h.a.length → j ≠ i → keyAt tasks h ((j - 1) / 2) ≤ keyAt tasks h j) ∧
  (∀ j, 0 < j → j < h.a.length → (j - 1) / 2 = i → 0 < i →
    keyAt tasks h ((i - 1) / 2) ≤ keyAt tasks h j)

/-- The state of the array while `siftDown` runs at slot `i`: every slot that is not a
child of `i` is at least its parent, and the children of `i` are at least the parent
of `i`. -/
def DownInv (tasks : String → Option Task) (h : MinHeap) (i : Nat) : Prop :=
  (∀ j, 0 < j → j < h.a.length → (j - 1) / 2 ≠ i →
    keyAt tasks h ((j - 1) / 2) ≤ keyAt tasks h j) ∧
  (∀ j, 0 < j → j < h.a.length → (j - 1) / 2 = i → 0 < i →
    keyAt tasks h ((i - 1) / 2) ≤ keyAt tasks h j)

/-- A well-formed runqueue over the task map `tasks`: min-heap order under `lessId`,
`pos[a[i]] = i` with no other keys in `pos`, no id twice, and a task record for every
queued id (`lessId` reads it with `tasks->at`). -/
def WellFormed (tasks : String → Option Task) (h : MinHeap) : Prop :=
  h.Ordered tasks ∧ h.IndexOk ∧ h.a.Nodup ∧ ∀ x, h.contains x = true → ∃ t, tasks x = some t

end MinHeap

/-- The event `TASK_CREATE` for `id` with the given nice value, in the cgroup `cg`. -/
def evCreateFull (id : String) (nice : Int) (cg : String) : Json :=
  mkEvent "TASK_CREATE" [("taskId", .str id), ("nice", .num nice), ("cgroupId", .str cg)]

namespace Scheduler

/-- What the two-task run keeps of a task record `t`, in the state `s`: the task is
RUNNABLE, allowed on the one CPU, not in a burst, at vruntime `v`, its delta is `d`,
and its cgroup is in the cgroup map and allows the one CPU. -/
def PairTask (s : Scheduler) (t : Task) (d v : Int) : Prop :=
  t.state = TaskState.RUNNABLE ∧ t.affinityMask = [true] ∧ t.burstRemaining = 0 ∧
  t.vruntime = v ∧ s.vruntimeDelta t = d ∧
  ∃ cg, s.cgroups t.cgroupId = some cg ∧ cg.cpuMask = [true]

/-- A one-CPU scheduler whose runqueue holds exactly the two never blocked tasks `id1`
(delta `d1`, vruntime `a`) and `id2` (delta `d2`, vruntime `b`), of any weight and
in any cgroups, the lesser of the two at the root. -/
structure Pair (id1 id2 : String) (d1 d2 a b : Int) (s : Scheduler) : Prop where
  cpu : s.cpuCount = 1
  first : ∃ t, s.tasks id1 = some t ∧ PairTask s t d1 a
  second : ∃ t, s.tasks id2 = some t ∧ PairTask s t d2 b
  rq : (s.rq = MinHeap.heap2 id1 id2 ∧ MinHeap.lessId s.tasks id2 id1 = false) ∨
       (s.rq = MinHeap.heap2 id2 id1 ∧ MinHeap.lessId s.tasks id1 id2 = false)

end Scheduler

namespace Scheduler

/-- The first batch of the two-competitor run: CGROUP_CREATE `g1` with shares `sh1`,
CGROUP_CREATE `g2` with shares `sh2`, TASK_CREATE `id1` with nice `n1` in `g1`,
TASK_CREATE `id2` with nice `n2` in `g2`. -/
def lagBatch (g1 : String) (sh1 : Int) (g2 : String) (sh2 : Int) (id1 : String) (n1 : Int)
    (id2 : String) (n2 : Int) : List Json :=
  [evCgroupShares g1 sh1, evCgroupShares g2 sh2, evCreateFull id1 n1 g1, evCreateFull id2 n2 g2]

/-- The vruntime delta of the task `id` right after the events `batch` were applied to
the fresh one-CPU scheduler with quanta `q`. -/
def startDelta (q : Int) (batch : List Json) (id : String) : Int :=
  match (Scheduler.new 1 q).applyEvents batch with
  | some s0 => s0.vruntimeDelta (s0.taskAt id)
  | none => 1

/-- The cgroup that CGROUP_CREATE `g` with `cpuShares` `sh` builds on `cpuCount` CPUs. -/
def createdCgroup (cpuCount : Nat) (g : String) (sh : Int) : Cgroup :=
  { id := g, cpuShares := if wrap32 sh < 1 then 1 else wrap32 sh, cpuQuotaUs := -1,
    cpuPeriodUs := 100000, cpuMask := maskAll cpuCount }

/-- The task that TASK_CREATE `id` with nice `n` in the existing cgroup `g` builds in
the state `s`. -/
def createdTask (s : Scheduler) (id : String) (n : Int) (g : String) : Task :=
  { id := id, nice := clamp_nice (wrap32 n), weight := nice_to_weight (clamp_nice (wrap32 n)),
    cgroupId := g, state := TaskState.RUNNABLE, vruntime := s.maxVruntime,
    affinityMask := maskAll s.cpuCount, lastCpu := -1, burstRemaining := 0 }

/-- The cgroup map after the two CGROUP_CREATE events of `lagBatch` on the fresh one-CPU
scheduler. -/
def lagCgroups (q : Int) (g1 : String) (sh1 : Int) (g2 : String) (sh2 : Int) :
    String → Option Cgroup :=
  Map.set (Map.set (Scheduler.new 1 q).cgroups g1 (createdCgroup 1 g1 sh1)) g2
    (createdCgroup 1 g2 sh2)

/-- The state after the two CGROUP_CREATE events of `lagBatch`. -/
def lagStateA (q : Int) (g1 : String) (sh1 : Int) (g2 : String) (sh2 : Int) : Scheduler :=
  { Scheduler.new 1 q with cgroups := lagCgroups q g1 sh1 g2 sh2 }

/-- The state after the first TASK_CREATE event of `lagBatch`. -/
def lagStateB (q : Int) (g1 : String) (sh1 : Int) (g2 : String) (sh2 : Int) (id1 : String)
    (n1 : Int) : Scheduler :=
  { lagStateA q g1 sh1 g2 sh2 with
    tasks := Map.set (lagStateA q g1 sh1 g2 sh2).tasks id1
      ((lagStateA q g1 sh1 g2 sh2).createdTask id1 n1 g1)
    rq := MinHeap.heap1 id1 }

end Scheduler

namespace Scheduler

/-- The pre-wake state in which the dispatch clause of C8 is evaluated: one CPU, quanta
1, after a first tick whose batch creates "A", "B" and "C". -/
def c8Queued : Option Scheduler :=
  ((Scheduler.new 1 1).runTick 0 [evCreate "A", evCreate "B", evCreate "C"]).map Prod.fst

/-- The state immediately after applying TASK_UNBLOCK "B" in `c8Queued`. -/
def c8Woken : Option Scheduler :=
  c8Queued.bind fun s => s.applyEvent (evTask "TASK_UNBLOCK" "B")

end Scheduler

end Alfs

/-! # Theorems -/

namespace Alfs

/-! ## Maps -/

theorem Map.set_apply {V : Type} (m : String → Option V) (k : String) (v : V) (x : String) :
    Map.set m k v x = if x = k then some v else m x := rfl

theorem Map.erase_apply {V : Type} (m : String → Option V) (k : String) (x : String) :
    Map.erase m k x = if x = k then none else m x := rfl

theorem Map.set_same {V : Type} (m : String → Option V) (k : String) (v : V) :
    Map.set m k v k = some v := by simp [Map.set]

theorem Map.set_other {V : Type} (m : String → Option V) {k x : String} (v : V) (h : x ≠ k) :
    Map.set m k v x = m x := by simp [Map.set, h]

/-! ## Runqueue index -/

namespace MinHeap

theorem slot_eq_of_lt (h : MinHeap) {i : Nat} (hi : i < h.a.length) :
    h.a[i]? = some (h.slot i) := by
  simp [slot, List.getD_eq_getElem?_getD, List.getElem?_eq_getElem hi]

theorem swapAt_a (h : MinHeap) (i j : Nat) :
    (h.swapAt i j).a = (h.a.set i (h.slot j)).set j (h.slot i) := rfl

theorem swapAt_length (h : MinHeap) (i j : Nat) : (h.swapAt i j).a.length = h.a.length := by
  simp [swapAt_a]

theorem IndexOk.lt {h : MinHeap} (hOk : h.IndexOk) {id : String} {i : Nat}
    (hp : h.pos id = some i) : i < h.a.length := by
  have := (hOk id i).1 hp
  by_contra hn
  rw [List.getElem?_eq_none (by omega)] at this
  cases this

theorem IndexOk.idx_unique {h : MinHeap} (hOk : h.IndexOk) {id : String} {i k : Nat}
    (hi : h.a[i]? = some id) (hk : h.a[k]? = some id) : i = k := by
  have h1 := (hOk id i).2 hi
  have h2 := (hOk id k).2 hk
  rw [h1] at h2
  exact Option.some.inj h2

theorem swapAt_getElem? (h : MinHeap) {i j : Nat} (hi : i < h.a.length) (hj : j < h.a.length)
    (k : Nat) :
    (h.swapAt i j).a[k]? =
      if k = j then some (h.slot i) else if k = i then some (h.slot j) else h.a[k]? := by
  rw [swapAt_a, List.getElem?_set, List.getElem?_set]
  simp only [List.length_set, hi, hj, if_true]
  by_cases h1 : k = j
  · simp [h1]
  · by_cases h2 : k = i
    · subst h2
      simp [h1, Ne.symm h1]
    · simp [h1, h2, Ne.symm h1, Ne.symm h2]

theorem swapAt_pos (h : MinHeap) {i j : Nat} (hi : i < h.a.length) (hj : j < h.a.length)
    (hij : i ≠ j) (id : String) :
    (h.swapAt i j).pos id =
      if id = h.slot i then some j else if id = h.slot j then some i else h.pos id := by
  have e1 : ((h.a.set i (h.slot j)).set j (h.slot i)).getD i "" = h.slot j := by
    simp [List.getD_eq_getElem?_getD, List.getElem?_set, hi, hj, Ne.symm hij]
  have e2 : ((h.a.set i (h.slot j)).set j (h.slot i)).getD j "" = h.slot i := by
    simp [List.getD_eq_getElem?_getD, List.getElem?_set, hi, hj]
  simp only [MinHeap.swapAt, e1, e2, Map.set_apply]

theorem IndexOk.swapAt_ok {h : MinHeap} (hOk : h.IndexOk) {i j : Nat} (hi : i < h.a.length)
    (hj : j < h.a.length) (hij : i ≠ j) : (h.swapAt i j).IndexOk := by
  intro id k
  have hxi := slot_eq_of_lt h hi
  have hxj := slot_eq_of_lt h hj
  have hxy : h.slot i ≠ h.slot j := by
    intro he
    rw [he] at hxi
    exact hij (hOk.idx_unique hxi hxj)
  rw [swapAt_pos h hi hj hij, swapAt_getElem? h hi hj]
  by_cases c1 : id = h.slot i
  · subst c1
    simp only [if_true]
    by_cases k1 : k = j
    · simp [k1]
    · by_cases k2 : k = i
      · simp [k1, k2, Ne.symm k1, Ne.symm hxy]
        exact eq_comm
      · simp only [k1, k2, if_false]
        constructor
        · intro he; exact absurd (Option.some.inj he).symm k1
        · intro he; exact absurd (hOk.idx_unique he hxi) k2
  · by_cases c2 : id = h.slot j
    · subst c2
      simp only [c1, if_false, if_true]
      by_cases k1 : k = j
      · simp [k1, hxy, Ne.symm hij]
        exact hij
      · by_cases k2 : k = i
        · simp [k1, k2]
          intro he; exact absurd he hij
        · simp only [k1, k2, if_false]
          constructor
          · intro he; exact absurd (Option.some.inj he).symm k2
          · intro he; exact absurd (hOk.idx_unique he hxj) k1
    · simp only [c1, c2, if_false]
      by_cases k1 : k = j
      · subst k1
        simp [Ne.symm c1]
        intro hp
        have := (hOk id k).1 hp
        rw [hxj] at this
        exact c2 (Option.some.inj this).symm
      · by_cases k2 : k = i
        · subst k2
          simp [k1, Ne.symm c2]
          intro hp
          have := (hOk id k).1 hp
          rw [hxi] at this
          exact c1 (Option.some.inj this).symm
        · simp only [k1, k2, if_false]
          exact hOk id k

theorem Shuffle.same {h : MinHeap} (hOk : h.IndexOk) : Shuffle h h := ⟨hOk, rfl, fun _ => rfl⟩

theorem Shuffle.comp {h1 h2 h3 : MinHeap} (h12 : Shuffle h1 h2) (h23 : Shuffle h2 h3) :
    Shuffle h1 h3 :=
  ⟨h23.1, h23.2.1.trans h12.2.1, fun id => (h23.2.2 id).trans (h12.2.2 id)⟩

theorem IndexOk.pos_slot {h : MinHeap} (hOk : h.IndexOk) {i : Nat} (hi : i < h.a.length) :
    h.pos (h.slot i) = some i := (hOk _ _).2 (slot_eq_of_lt h hi)

theorem Shuffle.of_swapAt {h : MinHeap} (hOk : h.IndexOk) {i j : Nat} (hi : i < h.a.length)
    (hj : j < h.a.length) (hij : i ≠ j) : Shuffle h (h.swapAt i j) := by
  refine ⟨hOk.swapAt_ok hi hj hij, swapAt_length h i j, fun id => ?_⟩
  simp only [contains, swapAt_pos h hi hj hij]
  by_cases c1 : id = h.slot i
  · simp [c1, hOk.pos_slot hi]
  · by_cases c2 : id = h.slot j
    · have c3 : h.slot j ≠ h.slot i := fun he => c1 (c2.trans he)
      simp [c2, c3, hOk.pos_slot hj]
    · simp [c1, c2]

theorem Shuffle.siftUpLoop (tasks : String → Option Task) (fuel : Nat) :
    ∀ (h : MinHeap) (i : Nat), h.IndexOk → i < h.a.length →
      Shuffle h (siftUpLoop tasks fuel h i) := by
  induction fuel with
  | zero => intro h i hOk _; exact Shuffle.same hOk
  | succ f ih =>
    intro h i hOk hi
    unfold MinHeap.siftUpLoop
    dsimp only
    split
    · rename_i hpos
      have hp : (i - 1) / 2 < i := by omega
      split
      · have hs := Shuffle.of_swapAt hOk hi (lt_trans hp hi) (Nat.ne_of_gt hp)
        exact hs.comp (ih _ _ hs.1 (by rw [hs.2.1]; exact lt_trans hp hi))
      · exact Shuffle.same hOk
    · exact Shuffle.same hOk

theorem smallestOf_cases (tasks : String → Option Task) (h : MinHeap) (i : Nat) :
    smallestOf tasks h i = i ∨ (i < smallestOf tasks h i ∧ smallestOf tasks h i < h.a.length) := by
  unfold smallestOf
  dsimp only
  split_ifs with h1 h2 h3
  · right; have := h2.1; omega
  · right; have := h1.1; omega
  · right; have := h3.1; omega
  · left; rfl

theorem Shuffle.siftDownLoop (tasks : String → Option Task) (fuel : Nat) :
    ∀ (h : MinHeap) (i : Nat), h.IndexOk → i < h.a.length →
      Shuffle h (siftDownLoop tasks fuel h i) := by
  induction fuel with
  | zero => intro h i hOk _; exact Shuffle.same hOk
  | succ f ih =>
    intro h i hOk hi
    unfold MinHeap.siftDownLoop
    simp only
    split
    · rename_i hne
      rcases smallestOf_cases tasks h i with he | ⟨h1, h2⟩
      · exact absurd he hne
      · have hs := Shuffle.of_swapAt hOk hi h2 (Nat.ne_of_lt h1)
        exact hs.comp (ih _ _ hs.1 (by rw [hs.2.1]; exact h2))
    · exact Shuffle.same hOk

theorem Shuffle.siftUp (tasks : String → Option Task) {h : MinHeap} (hOk : h.IndexOk)
    {i : Nat} (hi : i < h.a.length) : Shuffle h (h.siftUp tasks i) :=
  Shuffle.siftUpLoop tasks i h i hOk hi

theorem Shuffle.siftDown (tasks : String → Option Task) {h : MinHeap} (hOk : h.IndexOk)
    {i : Nat} (hi : i < h.a.length) : Shuffle h (h.siftDown tasks i) :=
  Shuffle.siftDownLoop tasks _ h i hOk hi

theorem Shuffle.fixKey (tasks : String → Option Task) {h : MinHeap} (hOk : h.IndexOk)
    (id : String) : Shuffle h (h.fixKey tasks id) := by
  unfold MinHeap.fixKey
  split
  · exact Shuffle.same hOk
  · rename_i i hp
    have hi := hOk.lt hp
    have h1 := Shuffle.siftUp tasks hOk hi
    exact h1.comp (Shuffle.siftDown tasks h1.1 (by rw [h1.2.1]; exact hi))

theorem IndexOk.not_contains {h : MinHeap} (hOk : h.IndexOk) {id : String}
    (hc : h.contains id = false) (k : Nat) : h.a[k]? ≠ some id := by
  intro hk
  have := (hOk id k).2 hk
  simp [contains, this] at hc

theorem push_spec (tasks : String → Option Task) {h : MinHeap} (hOk : h.IndexOk) (id : String) :
    (h.push tasks id).IndexOk ∧
    (∀ x, (h.push tasks id).contains x = (h.contains x || decide (x = id))) ∧
    (h.push tasks id).a.length = if h.contains id then h.a.length else h.a.length + 1 := by
  unfold MinHeap.push
  by_cases hc : h.contains id = true
  · simp only [hc, if_true]
    refine ⟨hOk, fun x => ?_, trivial⟩
    by_cases hx : x = id
    · simp [hx, hc]
    · simp [hx]
  · have hc' : h.contains id = false := by simpa using hc
    simp only [hc', Bool.false_eq_true, if_false]
    have hnone : h.pos id = none := by simpa [contains] using hc'
    have hOk0 : IndexOk { a := h.a ++ [id], pos := Map.set h.pos id ((h.a ++ [id]).length - 1) } := by
      intro x k
      simp only [Map.set_apply, List.length_append, List.length_singleton, Nat.add_sub_cancel]
      by_cases hx : x = id
      · subst hx
        simp only [if_true]
        by_cases hk : k < h.a.length
        · rw [List.getElem?_append_left hk]
          constructor
          · intro he; have := Option.some.inj he; omega
          · intro he; exact absurd he (hOk.not_contains hc' k)
        · rw [List.getElem?_append_right (by omega)]
          by_cases hk2 : k = h.a.length
          · simp [hk2]
          · have : k - h.a.length ≠ 0 := by omega
            constructor
            · intro he; exact absurd (Option.some.inj he).symm hk2
            · intro he
              cases hkk : k - h.a.length with
              | zero => exact absurd hkk this
              | succ m => rw [hkk] at he; simp at he
      · simp only [hx, if_false]
        by_cases hk : k < h.a.length
        · rw [List.getElem?_append_left hk]; exact hOk x k
        · rw [List.getElem?_append_right (by omega)]
          constructor
          · intro he; exact absurd (hOk.lt he) hk
          · intro he
            cases hkk : k - h.a.length with
            | zero => rw [hkk] at he; simp at he; exact absurd he.symm hx
            | succ m => rw [hkk] at he; simp at he
    have hlen : ({ a := h.a ++ [id], pos := Map.set h.pos id ((h.a ++ [id]).length - 1) } : MinHeap).a.length
        = h.a.length + 1 := by simp
    have hs := Shuffle.siftUp tasks hOk0 (i := (h.a ++ [id]).length - 1) (by simp)
    refine ⟨hs.1, fun x => ?_, by rw [hs.2.1, hlen]⟩
    rw [hs.2.2 x]
    simp only [contains, Map.set_apply]
    by_cases hx : x = id
    · simp [hx]
    · simp [hx]

theorem remove_spec (tasks : String → Option Task) {h : MinHeap} (hOk : h.IndexOk) (id : String) :
    (h.remove tasks id).IndexOk ∧
    (∀ x, (h.remove tasks id).contains x = (h.contains x && !decide (x = id))) ∧
    (h.remove tasks id).a.length = if h.contains id then h.a.length - 1 else h.a.length := by
  unfold MinHeap.remove
  split
  · rename_i hnone
    have hc : h.contains id = false := by simp [contains, hnone]
    refine ⟨hOk, fun x => ?_, by simp [hc]⟩
    by_cases hx : x = id
    · simp [hx, hc]
    · simp [hx]
  · rename_i i hp
    have hi := hOk.lt hp
    have hai := (hOk id i).1 hp
    have hc : h.contains id = true := by simp [contains, hp]
    dsimp only
    split
    · rename_i hlast
      refine ⟨?_, fun x => ?_, by simp [hc]⟩
      · intro x k
        simp only [Map.erase_apply, List.getElem?_dropLast]
        by_cases hx : x = id
        · subst hx
          simp only [if_true]
          constructor
          · intro he; cases he
          · intro he
            split at he
            · have := hOk.idx_unique he hai; omega
            · cases he
        · simp only [hx, if_false]
          constructor
          · intro he
            have hk := hOk.lt he
            have hk2 : k ≠ i := by
              rintro rfl
              rw [hp] at *
              have := (hOk x k).1 he
              rw [hai] at this
              exact hx (Option.some.inj this).symm
            rw [if_pos (by omega)]
            exact (hOk x k).1 he
          · intro he
            split at he
            · exact (hOk x k).2 he
            · cases he
      · simp only [contains, Map.erase_apply]
        by_cases hx : x = id
        · simp [hx]
        · simp [hx]
    · rename_i hnl
      have hi2 : i < h.a.length - 1 := by omega
      have hl : h.a.length - 1 < h.a.length := by omega
      have hal := slot_eq_of_lt h hl
      have hlid : h.slot (h.a.length - 1) ≠ id := by
        intro he
        rw [he] at hal
        have := hOk.idx_unique hal hai
        omega
      have e1 : ((h.a.set i (h.slot (h.a.length - 1))).dropLast).getD i "" = h.slot (h.a.length - 1) := by
        simp [List.getD_eq_getElem?_getD, List.getElem?_dropLast, List.getElem?_set, hi2, hi]
      rw [e1]
      have hOk1 : IndexOk { a := (h.a.set i (h.slot (h.a.length - 1))).dropLast,
                            pos := Map.set (Map.erase h.pos id) (h.slot (h.a.length - 1)) i } := by
        intro x k
        simp only [Map.set_apply, Map.erase_apply, List.getElem?_dropLast, List.getElem?_set,
          List.length_set, hi, if_true]
        by_cases hx1 : x = h.slot (h.a.length - 1)
        · subst hx1
          simp only [if_true]
          by_cases hk : k < h.a.length - 1
          · simp only [hk, if_true]
            by_cases hki : i = k
            · simp [hki]
            · simp only [hki, if_false]
              constructor
              · intro he; exact absurd (Option.some.inj he) hki
              · intro he; have := hOk.idx_unique he hal; omega
          · simp only [hk, if_false]
            constructor
            · intro he; have := Option.some.inj he; omega
            · intro he; cases he
        · simp only [hx1, if_false]
          by_cases hx2 : x = id
          · subst hx2
            simp only [if_true]
            constructor
            · intro he; cases he
            · intro he
              split at he
              · split at he
                · exact absurd (Option.some.inj he) (Ne.symm hx1)
                · rename_i hki; exact absurd (hOk.idx_unique hai he) hki
              · cases he
          · simp only [hx2, if_false]
            constructor
            · intro he
              have hk := hOk.lt he
              have hak := (hOk x k).1 he
              have hk1 : k ≠ h.a.length - 1 := by
                intro hh; rw [hh, hal] at hak; exact hx1 (Option.some.inj hak).symm
              have hk2 : i ≠ k := by
                intro hh; rw [← hh, hai] at hak; exact hx2 (Option.some.inj hak).symm
              rw [if_pos (by omega), if_neg hk2]; exact hak
            · intro he
              split at he
              · split at he
                · exact absurd (Option.some.inj he).symm hx1
                · exact (hOk x k).2 he
              · cases he
      have hlen1 : ({ a := (h.a.set i (h.slot (h.a.length - 1))).dropLast,
                      pos := Map.set (Map.erase h.pos id) (h.slot (h.a.length - 1)) i } : MinHeap).a.length
          = h.a.length - 1 := by simp
      have hs1 := Shuffle.siftUp tasks hOk1 (i := i) (by rw [hlen1]; exact hi2)
      have hs2 := Shuffle.siftDown tasks hs1.1 (i := i) (by rw [hs1.2.1, hlen1]; exact hi2)
      have hs := hs1.comp hs2
      refine ⟨hs.1, fun x => ?_, by rw [hs.2.1, hlen1]⟩
      rw [hs.2.2 x]
      simp only [contains, Map.set_apply, Map.erase_apply]
      by_cases hx1 : x = h.slot (h.a.length - 1)
      · subst hx1
        simp [hlid, hOk.pos_slot hl]
      · by_cases hx2 : x = id
        · subst hx2
          simp [hx1]
        · simp [hx1, hx2]

end MinHeap
namespace Scheduler

theorem taskCreate_effect {s s' : Scheduler} {e : Json} (h : s.taskCreate e = some s') :
    Effect s s' := by
  simp only [taskCreate, Option.bind_eq_some] at h
  obtain ⟨id, -, h⟩ := h
  split at h
  · cases h; exact Effect.same
  · rename_i hex
    simp only [Option.bind_eq_some] at h
    obtain ⟨nice0, -, cg0, -, h⟩ := h
    cases h
    refine Effect.task id _ _ (Or.inl ⟨?_, rfl⟩) (Or.inr (Or.inl rfl))
    simpa [taskExists] using hex

theorem taskExit_effect {s s' : Scheduler} {e : Json} (h : s.taskExit e = some s') :
    Effect s s' := by
  simp only [taskExit, Option.bind_eq_some] at h
  obtain ⟨id, -, h⟩ := h
  split at h
  · cases h; exact Effect.same
  · rename_i t ht
    cases h
    refine Effect.task id _ _ (Or.inr ⟨t, ht, Or.inl rfl⟩) ?_
    split
    · exact Or.inr (Or.inr (Or.inl rfl))
    · exact Or.inl rfl

theorem taskBlock_effect {s s' : Scheduler} {e : Json} (h : s.taskBlock e = some s') :
    Effect s s' := by
  simp only [taskBlock, Option.bind_eq_some] at h
  obtain ⟨id, -, h⟩ := h
  split at h
  · cases h; exact Effect.same
  · rename_i t ht
    split_ifs at h
    · cases h; exact Effect.same
    · cases h; exact Effect.same
    · cases h
      exact Effect.task id _ _ (Or.inr ⟨t, ht, Or.inl rfl⟩) (Or.inr (Or.inr (Or.inl rfl)))
    · cases h
      exact Effect.task id _ _ (Or.inr ⟨t, ht, Or.inl rfl⟩) (Or.inl rfl)

theorem ensureTaskMasks_vruntime (s : Scheduler) (t : Task) :
    (s.ensureTaskMasks t).vruntime = t.vruntime := by
  unfold ensureTaskMasks; split <;> rfl

theorem taskUnblock_effect {s s' : Scheduler} {e : Json} (h : s.taskUnblock e = some s') :
    Effect s s' := by
  simp only [taskUnblock, Option.bind_eq_some] at h
  obtain ⟨id, -, h⟩ := h
  split at h
  · cases h; exact Effect.same
  · rename_i t ht
    split_ifs at h
    · cases h; exact Effect.same
    · cases h
      exact Effect.task id _ _
        (Or.inr ⟨t, ht, Or.inr (ensureTaskMasks_vruntime s _)⟩) (Or.inr (Or.inl rfl))

theorem taskYield_effect {s s' : Scheduler} {e : Json} (h : s.taskYield e = some s') :
    Effect s s' := by
  simp only [taskYield, Option.bind_eq_some] at h
  obtain ⟨id, -, h⟩ := h
  split at h
  · cases h; exact Effect.same
  · rename_i t ht
    split_ifs at h
    · cases h; exact Effect.same
    · cases h
      exact Effect.task id _ _ (Or.inr ⟨t, ht, Or.inr rfl⟩) (Or.inr (Or.inr (Or.inr rfl)))
    · cases h
      exact Effect.task id _ _ (Or.inr ⟨t, ht, Or.inr rfl⟩) (Or.inl rfl)

theorem taskSetnice_effect {s s' : Scheduler} {e : Json} (h : s.taskSetnice e = some s') :
    Effect s s' := by
  simp only [taskSetnice, Option.bind_eq_some] at h
  obtain ⟨id, -, nn, -, h⟩ := h
  split at h
  · cases h; exact Effect.same
  · rename_i t ht
    split_ifs at h
    · cases h; exact Effect.same
    · cases h
      exact Effect.task id _ _ (Or.inr ⟨t, ht, Or.inl rfl⟩) (Or.inr (Or.inr (Or.inr rfl)))
    · cases h
      exact Effect.task id _ _ (Or.inr ⟨t, ht, Or.inl rfl⟩) (Or.inl rfl)

theorem taskSetAffinity_effect {s s' : Scheduler} {e : Json}
    (h : s.taskSetAffinity e = some s') : Effect s s' := by
  simp only [taskSetAffinity, Option.bind_eq_some] at h
  obtain ⟨id, -, h⟩ := h
  split at h
  · cases h; exact Effect.same
  · rename_i t ht
    split_ifs at h
    · cases h; exact Effect.same
    · simp only [Option.bind_eq_some] at h
      obtain ⟨arr, -, m, -, h⟩ := h
      cases h
      exact Effect.task id _ _ (Or.inr ⟨t, ht, Or.inl rfl⟩) (Or.inl rfl)

theorem cgroupCreate_effect {s s' : Scheduler} {e : Json} (h : s.cgroupCreate e = some s') :
    Effect s s' := by
  simp only [cgroupCreate, Option.bind_eq_some] at h
  obtain ⟨id, -, sh, -, q, -, p, -, m, -, h⟩ := h
  cases h
  exact Effect.cgroup id _

theorem cgroupModify_effect {s s' : Scheduler} {e : Json} (h : s.cgroupModify e = some s') :
    Effect s s' := by
  simp only [cgroupModify, Option.bind_eq_some] at h
  obtain ⟨id, -, sh, -, q, -, p, -, m, -, h⟩ := h
  cases h
  exact Effect.cgroup id _

theorem cgroupDelete_effect {s s' : Scheduler} {e : Json} (h : s.cgroupDelete e = some s') :
    Effect s s' := by
  simp only [cgroupDelete, Option.bind_eq_some] at h
  obtain ⟨id, -, h⟩ := h
  split_ifs at h with h0
  · cases h; exact Effect.same
  · cases h
    exact Effect.cgroupDel id h0

theorem taskMoveCgroup_effect {s s' : Scheduler} {e : Json}
    (h : s.taskMoveCgroup e = some s') : Effect s s' := by
  simp only [taskMoveCgroup, Option.bind_eq_some] at h
  obtain ⟨id, -, cg, -, h⟩ := h
  split at h
  · cases h; exact Effect.same
  · rename_i t ht
    split_ifs at h
    all_goals cases h
    all_goals first
      | exact Effect.same
      | exact Effect.task id _ _ (Or.inr ⟨t, ht, Or.inl rfl⟩) (Or.inl rfl)

theorem CpuBurst_effect {s s' : Scheduler} {e : Json} (h : s.CpuBurst e = some s') :
    Effect s s' := by
  simp only [CpuBurst, Option.bind_eq_some] at h
  obtain ⟨id, -, dur, -, h⟩ := h
  split at h
  · cases h; exact Effect.same
  · rename_i t ht
    split_ifs at h
    all_goals cases h
    all_goals first
      | exact Effect.same
      | exact Effect.task id _ _ (Or.inr ⟨t, ht, Or.inl rfl⟩) (Or.inl rfl)

theorem applyEvent_effect {s s' : Scheduler} {e : Json} (h : s.applyEvent e = some s') :
    Effect s s' := by
  unfold applyEvent at h
  obtain ⟨action, -, h⟩ := Option.bind_eq_some.mp h
  by_cases c1 : action = "TASK_CREATE"
  · rw [if_pos c1] at h; exact taskCreate_effect h
  rw [if_neg c1] at h
  by_cases c2 : action = "TASK_EXIT"
  · rw [if_pos c2] at h; exact taskExit_effect h
  rw [if_neg c2] at h
  by_cases c3 : action = "TASK_BLOCK"
  · rw [if_pos c3] at h; exact taskBlock_effect h
  rw [if_neg c3] at h
  by_cases c4 : action = "TASK_UNBLOCK"
  · rw [if_pos c4] at h; exact taskUnblock_effect h
  rw [if_neg c4] at h
  by_cases c5 : action = "TASK_YIELD"
  · rw [if_pos c5] at h; exact taskYield_effect h
  rw [if_neg c5] at h
  by_cases c6 : action = "TASK_SETNICE"
  · rw [if_pos c6] at h; exact taskSetnice_effect h
  rw [if_neg c6] at h
  by_cases c7 : action = "TASK_SET_AFFINITY"
  · rw [if_pos c7] at h; exact taskSetAffinity_effect h
  rw [if_neg c7] at h
  by_cases c8 : action = "CGROUP_CREATE"
  · rw [if_pos c8] at h; exact cgroupCreate_effect h
  rw [if_neg c8] at h
  by_cases c9 : action = "CGROUP_MODIFY"
  · rw [if_pos c9] at h; exact cgroupModify_effect h
  rw [if_neg c9] at h
  by_cases c10 : action = "CGROUP_DELETE"
  · rw [if_pos c10] at h; exact cgroupDelete_effect h
  rw [if_neg c10] at h
  by_cases c11 : action = "TASK_MOVE_CGROUP"
  · rw [if_pos c11] at h; exact taskMoveCgroup_effect h
  rw [if_neg c11] at h
  by_cases c12 : action = "CPU_BURST"
  · rw [if_pos c12] at h; exact CpuBurst_effect h
  rw [if_neg c12] at h
  cases h; exact Effect.same

theorem reparent_vruntime (id : String) (t : Task) : (reparent id t).vruntime = t.vruntime := by
  unfold reparent; split <;> rfl

theorem new_consistent (cpuCount : Nat) (quanta : Int) :
    (Scheduler.new cpuCount quanta).Consistent where
  indexOk := by
    intro id i
    simp [Scheduler.new, Map.empty]
  queued := by
    intro id h
    simp [Scheduler.new, MinHeap.contains, Map.empty] at h
  hasRoot := ⟨rootCgroup cpuCount, by simp [Scheduler.new, Map.set]⟩
  ceiling := by
    intro id t h
    simp [Scheduler.new, Map.empty] at h
  lastLen := by simp [Scheduler.new]

theorem Effect.rq_contains {s : Scheduler} (hC : s.Consistent) {id : String} {t1 : Task}
    {rq1 : MinHeap}
    (hrq : rq1 = s.rq ∨ rq1 = s.rq.push (Map.set s.tasks id t1) id ∨
        rq1 = s.rq.remove s.tasks id ∨ rq1 = s.rq.fixKey (Map.set s.tasks id t1) id) :
    rq1.IndexOk ∧ ∀ x, rq1.contains x = true → s.rq.contains x = true ∨ x = id := by
  rcases hrq with h | h | h | h
  · subst h; exact ⟨hC.indexOk, fun x hx => Or.inl hx⟩
  · subst h
    have hp := MinHeap.push_spec (Map.set s.tasks id t1) hC.indexOk id
    refine ⟨hp.1, fun x hx => ?_⟩
    rw [hp.2.1 x] at hx
    simpa using hx
  · subst h
    have hp := MinHeap.remove_spec s.tasks hC.indexOk id
    refine ⟨hp.1, fun x hx => ?_⟩
    rw [hp.2.1 x] at hx
    simp only [Bool.and_eq_true] at hx
    exact Or.inl hx.1
  · subst h
    have hp := MinHeap.Shuffle.fixKey (Map.set s.tasks id t1) hC.indexOk id
    refine ⟨hp.1, fun x hx => ?_⟩
    rw [hp.2.2 x] at hx
    exact Or.inl hx

theorem Effect.keeps_consistent {s s' : Scheduler} (hC : s.Consistent) (hE : Effect s s') :
    s'.Consistent := by
  cases hE with
  | same => exact hC
  | task id t1 rq1 hv hrq =>
    have hq := Effect.rq_contains hC hrq
    refine ⟨hq.1, ?_, hC.hasRoot, ?_, hC.lastLen⟩
    · intro x hx
      by_cases hxi : x = id
      · exact ⟨t1, by simp [Map.set, hxi]⟩
      · rcases hq.2 x hx with h | h
        · obtain ⟨t, ht⟩ := hC.queued x h
          exact ⟨t, by simp [Map.set, hxi, ht]⟩
        · exact absurd h hxi
    · intro x t hx
      by_cases hxi : x = id
      · subst hxi
        simp only [Map.set_same] at hx
        cases hx
        rcases hv with ⟨_, h⟩ | ⟨t0, ht0, h | h⟩
        · exact le_of_eq h
        · rw [h]; exact hC.ceiling x t0 ht0
        · exact le_of_eq h
      · simp only [Map.set_other _ _ hxi] at hx
        exact hC.ceiling x t hx
  | cgroup id cg =>
    refine ⟨hC.indexOk, hC.queued, ?_, hC.ceiling, hC.lastLen⟩
    obtain ⟨r, hr⟩ := hC.hasRoot
    by_cases h0 : "0" = id
    · exact ⟨cg, by simp [Map.set, h0]⟩
    · exact ⟨r, by simp [Map.set, h0, hr]⟩
  | cgroupDel id hne =>
    refine ⟨hC.indexOk, ?_, ?_, ?_, hC.lastLen⟩
    · intro x hx
      obtain ⟨t, ht⟩ := hC.queued x hx
      exact ⟨reparent id t, by simp [ht]⟩
    · obtain ⟨r, hr⟩ := hC.hasRoot
      exact ⟨r, by simp [Map.erase, Ne.symm hne, hr]⟩
    · intro x t hx
      simp only [Option.map_eq_some'] at hx
      obtain ⟨t0, ht0, rfl⟩ := hx
      rw [reparent_vruntime]
      exact hC.ceiling x t0 ht0

theorem cgroupOrRoot_snd {s : Scheduler} (hR : s.HasRoot) (id : String) :
    (s.cgroupOrRoot id).2 = s := by
  obtain ⟨r, hr⟩ := hR
  unfold cgroupOrRoot
  split
  · rfl
  · simp [hr]

theorem canTaskRunOnCPU_snd {s : Scheduler} (hR : s.HasRoot) (t : Task) (cpu : Nat) :
    (s.canTaskRunOnCPU t cpu).2 = s := by
  unfold canTaskRunOnCPU
  dsimp only
  split_ifs <;> first | rfl | exact cgroupOrRoot_snd hR _

theorem cgroupOrRoot_fst_congr {s s1 : Scheduler} (h : s1.cgroups = s.cgroups) (id : String) :
    (s1.cgroupOrRoot id).1 = (s.cgroupOrRoot id).1 := by
  unfold cgroupOrRoot
  rw [h]
  split
  · rfl
  · split <;> rfl

theorem canTaskRunOnCPU_fst_congr {s s1 : Scheduler} (h : s1.cgroups = s.cgroups) (t : Task)
    (cpu : Nat) : (s1.canTaskRunOnCPU t cpu).1 = (s.canTaskRunOnCPU t cpu).1 := by
  unfold canTaskRunOnCPU
  dsimp only
  rw [cgroupOrRoot_fst_congr h]
  split_ifs <;> rfl

theorem Consistent.withRq {s : Scheduler} (hC : s.Consistent) {rq1 : MinHeap}
    (hOk : rq1.IndexOk) (hq : ∀ x, rq1.contains x = true → ∃ t, s.tasks x = some t) :
    ({ s with rq := rq1 } : Scheduler).Consistent :=
  ⟨hOk, hq, hC.hasRoot, hC.ceiling, hC.lastLen⟩

theorem popMin_spec (tasks : String → Option Task) {h : MinHeap} (hOk : h.IndexOk)
    (hne : h.a.isEmpty = false) :
    (h.popMin tasks).2.IndexOk ∧
    (∀ x, (h.popMin tasks).2.contains x = (h.contains x && !decide (x = (h.popMin tasks).1))) ∧
    h.contains (h.popMin tasks).1 = true ∧
    (h.popMin tasks).2.a.length + 1 = h.a.length := by
  have hlen : 0 < h.a.length := by
    cases hh : h.a with
    | nil => simp [hh] at hne
    | cons x xs => simp
  have hc : h.contains (h.slot 0) = true := by
    simp [MinHeap.contains, hOk.pos_slot hlen]
  have hr := MinHeap.remove_spec tasks hOk (h.slot 0)
  unfold MinHeap.popMin
  simp only [hne, Bool.false_eq_true, if_false]
  refine ⟨hr.1, hr.2.1, hc, ?_⟩
  rw [hr.2.2, if_pos hc]
  omega

theorem PickOk.lift {cpu : Nat} {s : Scheduler} {rq1 : MinHeap}
    {r : String × Scheduler × List String}
    (hsub : ∀ x, rq1.contains x = true → s.rq.contains x = true)
    (h : PickOk cpu { s with rq := rq1 } r) : PickOk cpu s r := by
  obtain ⟨h1, h2, h3, h4, h5⟩ := h
  refine ⟨?_, h2, fun x hx => hsub x (h3 x hx), h4, ?_⟩
  · rw [h1]
  · intro hne
    obtain ⟨t, ht, hrun⟩ := h5 hne
    refine ⟨t, ht, ?_⟩
    rw [← hrun]
    exact (@canTaskRunOnCPU_fst_congr s { s with rq := rq1 } rfl t cpu).symm

theorem pickLoop_spec (cpu : Nat) : ∀ (fuel : Nat) (s : Scheduler) (stashed : List String),
    s.Consistent → (∀ x ∈ stashed, ∃ t, s.tasks x = some t) →
    PickOk cpu s (pickLoop cpu fuel s stashed) := by
  intro fuel
  induction fuel with
  | zero =>
    intro s stashed hC hst
    exact ⟨rfl, hC.indexOk, fun x hx => hx, hst, fun h => absurd rfl h⟩
  | succ f ih =>
    intro s stashed hC hst
    unfold pickLoop
    by_cases hemp : s.rq.empty = true
    · rw [if_pos hemp]
      exact ⟨rfl, hC.indexOk, fun x hx => hx, hst, fun h => absurd rfl h⟩
    · have hemp' : s.rq.a.isEmpty = false := by simpa [MinHeap.empty] using hemp
      rw [if_neg hemp]
      have hp := popMin_spec s.tasks hC.indexOk hemp'
      have hsub : ∀ x, (s.rq.popMin s.tasks).2.contains x = true → s.rq.contains x = true := by
        intro x hx
        rw [hp.2.1 x] at hx
        simp only [Bool.and_eq_true] at hx
        exact hx.1
      have hC1 : ({ s with rq := (s.rq.popMin s.tasks).2 } : Scheduler).Consistent :=
        hC.withRq hp.1 (fun x hx => hC.queued x (hsub x hx))
      have key : ∀ st : List String, (∀ x ∈ st, ∃ t, s.tasks x = some t) →
          PickOk cpu s (pickLoop cpu f { s with rq := (s.rq.popMin s.tasks).2 } st) :=
        fun st hst' => PickOk.lift hsub (ih _ st hC1 hst')
      have hst2 : ∀ t, s.tasks (s.rq.popMin s.tasks).1 = some t →
          ∀ x ∈ stashed ++ [(s.rq.popMin s.tasks).1], ∃ t, s.tasks x = some t := by
        intro t ht x hx
        rcases List.mem_append.1 hx with h | h
        · exact hst x h
        · rw [List.mem_singleton.1 h]; exact ⟨t, ht⟩
      have hR1 : ({ s with rq := (s.rq.popMin s.tasks).2 } : Scheduler).HasRoot := hC.hasRoot
      dsimp only
      cases hT : s.tasks (s.rq.popMin s.tasks).1 with
      | none => exact key stashed hst
      | some t =>
        dsimp only
        rw [cgroupOrRoot_snd hR1, canTaskRunOnCPU_snd hR1]
        split_ifs with c1 c2 c3 c4
        · exact key stashed hst
        · exact key _ (hst2 t hT)
        · exact key _ (hst2 t hT)
        · refine ⟨rfl, hp.1, hsub, hst, fun _ => ⟨t, hT, ?_⟩⟩
          rw [← c4]
          exact (@canTaskRunOnCPU_fst_congr s { s with rq := (s.rq.popMin s.tasks).2 }
            rfl t cpu).symm
        · exact key _ (hst2 t hT)

theorem pushAll_spec : ∀ (ids : List String) (s : Scheduler), s.Consistent →
    (∀ x ∈ ids, ∃ t, s.tasks x = some t) →
    pushAll s ids = { s with rq := (pushAll s ids).rq } ∧ (pushAll s ids).Consistent := by
  intro ids
  induction ids with
  | nil => intro s hC _; exact ⟨rfl, hC⟩
  | cons id rest ih =>
    intro s hC hids
    unfold pushAll
    have hp := MinHeap.push_spec s.tasks hC.indexOk id
    have hC1 : ({ s with rq := s.rq.push s.tasks id } : Scheduler).Consistent := by
      refine hC.withRq hp.1 (fun x hx => ?_)
      rw [hp.2.1 x] at hx
      simp only [Bool.or_eq_true, decide_eq_true_eq] at hx
      rcases hx with h | h
      · exact hC.queued x h
      · rw [h]; exact hids id (List.mem_cons_self _ _)
    have := ih { s with rq := s.rq.push s.tasks id } hC1
      (fun x hx => hids x (List.mem_cons_of_mem _ hx))
    refine ⟨?_, this.2⟩
    rw [this.1]

theorem selectCpu_spec (s : Scheduler) (schedule : List String) (cpu : Nat)
    (hC : s.Consistent) : SelectOk s schedule [cpu] (selectCpu (s, schedule) cpu) := by
  have hp := pickLoop_spec cpu s.rq.size s [] hC (fun x hx => by cases hx)
  obtain ⟨h1, h2, h3, h4, h5⟩ := hp
  have hC1 : (pickLoop cpu s.rq.size s []).2.1.Consistent := by
    rw [h1]
    exact hC.withRq h2 (fun x hx => hC.queued x (h3 x hx))
  have hids : ∀ x ∈ (pickLoop cpu s.rq.size s []).2.2,
      ∃ t, (pickLoop cpu s.rq.size s []).2.1.tasks x = some t := by
    intro x hx
    rw [h1]
    exact h4 x hx
  have hpa := pushAll_spec _ _ hC1 hids
  unfold selectCpu
  dsimp only
  refine ⟨?_, hpa.2, ?_, ?_⟩
  · rw [hpa.1, h1]
  · split_ifs <;> simp
  · intro c t hc hne
    by_cases hcc : cpu = c
    · subst hcc
      right
      refine ⟨List.mem_singleton_self _, ?_⟩
      split_ifs at hc with hpk
      · rw [List.getElem?_set] at hc
        simp only [if_true] at hc
        split_ifs at hc
        cases hc
        exact h5 hpk
      · rw [List.getElem?_set] at hc
        simp only [if_true] at hc
        split_ifs at hc
        cases hc
        exact absurd rfl hne
    · left
      split_ifs at hc
      · rwa [List.getElem?_set_ne hcc] at hc
      · rwa [List.getElem?_set_ne hcc] at hc

theorem selectLoop_spec : ∀ (cpus : List Nat) (s : Scheduler) (schedule : List String),
    s.Consistent → SelectOk s schedule cpus (selectLoop s schedule cpus) := by
  intro cpus
  induction cpus with
  | nil =>
    intro s schedule hC
    exact ⟨rfl, hC, rfl, fun c t hc _ => Or.inl hc⟩
  | cons cpu rest ih =>
    intro s schedule hC
    have h1 := selectCpu_spec s schedule cpu hC
    have h2 := ih (selectCpu (s, schedule) cpu).1 (selectCpu (s, schedule) cpu).2 h1.2.1
    have hfold : selectLoop s schedule (cpu :: rest) =
        selectLoop (selectCpu (s, schedule) cpu).1 (selectCpu (s, schedule) cpu).2 rest := rfl
    rw [hfold]
    obtain ⟨a1, a2, a3, a4⟩ := h1
    obtain ⟨b1, b2, b3, b4⟩ := h2
    refine ⟨?_, b2, b3.trans a3, ?_⟩
    · rw [b1, a1]
    · intro c t hc hne
      rcases b4 c t hc hne with h | ⟨hm, task, ht, hrun⟩
      · rcases a4 c t h hne with h' | ⟨hm, task, ht, hrun⟩
        · exact Or.inl h'
        · rw [List.mem_singleton] at hm
          exact Or.inr ⟨by rw [hm]; exact List.mem_cons_self _ _, task, ht, hrun⟩
      · refine Or.inr ⟨List.mem_cons_of_mem _ hm, task, ?_, ?_⟩
        · rw [a1] at ht; exact ht
        · rw [← hrun]
          exact (@canTaskRunOnCPU_fst_congr s (selectCpu (s, schedule) cpu).1
            (by rw [a1]) task c).symm

theorem selectAll_spec (s : Scheduler) (hC : s.Consistent) :
    s.selectAll.1 = { s with rq := s.selectAll.1.rq } ∧ s.selectAll.1.Consistent ∧
    s.selectAll.2.length = s.cpuCount ∧
    ∀ c t, s.selectAll.2[c]? = some t → t ≠ "idle" →
      c < s.cpuCount ∧ ∃ task, s.tasks t = some task ∧ (s.canTaskRunOnCPU task c).1 = true := by
  have h := selectLoop_spec (List.range s.cpuCount) s (List.replicate s.cpuCount "idle") hC
  obtain ⟨h1, h2, h3, h4⟩ := h
  refine ⟨h1, h2, by rw [selectAll, h3]; simp, ?_⟩
  intro c t hc hne
  rcases h4 c t hc hne with h | ⟨hm, hrest⟩
  · rw [List.getElem?_replicate] at h
    split_ifs at h
    cases h
    exact absurd rfl hne
  · exact ⟨List.mem_range.1 hm, hrest⟩

theorem Static.same_task (t : Task) : Static t t := ⟨rfl, rfl, rfl, rfl, rfl, rfl⟩

theorem Static.chain {t t1 t2 : Task} (h1 : Static t t1) (h2 : Static t1 t2) : Static t t2 :=
  ⟨h2.1.trans h1.1, h2.2.1.trans h1.2.1, h2.2.2.1.trans h1.2.2.1,
   h2.2.2.2.1.trans h1.2.2.2.1, h2.2.2.2.2.1.trans h1.2.2.2.2.1,
   h2.2.2.2.2.2.trans h1.2.2.2.2.2⟩

theorem AcctOk.start {s : Scheduler} (hC : s.Consistent) : AcctOk s s :=
  ⟨hC, rfl, rfl, rfl, rfl, le_refl _, fun _ t ht => ⟨t, ht, Static.same_task t⟩⟩

theorem AcctOk.step {s s1 s2 : Scheduler} (h1 : AcctOk s s1) (h2 : AcctOk s1 s2) :
    AcctOk s s2 := by
  obtain ⟨a1, a2, a3, a4, a5, a6, a7⟩ := h1
  obtain ⟨b1, b2, b3, b4, b5, b6, b7⟩ := h2
  refine ⟨b1, b2.trans a2, b3.trans a3, b4.trans a4, b5.trans a5, le_trans a6 b6, ?_⟩
  intro id t ht
  obtain ⟨t1, ht1, hs1⟩ := a7 id t ht
  obtain ⟨t2, ht2, hs2⟩ := b7 id t1 ht1
  exact ⟨t2, ht2, hs1.chain hs2⟩

theorem accountedTask_static (s : Scheduler) (cur : String) (cpu : Nat) :
    Static (s.taskAt cur) (s.accountedTask cur cpu) := by
  unfold accountedTask
  dsimp only
  split <;> exact ⟨rfl, rfl, rfl, rfl, rfl, rfl⟩

theorem accountedTask_vruntime (s : Scheduler) (cur : String) (cpu : Nat) :
    (s.accountedTask cur cpu).vruntime =
      wrap64 ((s.taskAt cur).vruntime +
        s.vruntimeDelta { s.taskAt cur with lastCpu := (cpu : Int) }) := by
  unfold accountedTask
  dsimp only
  split <;> rfl

theorem accountTask_tasks (s : Scheduler) (cur : String) (cpu : Nat) :
    (s.accountTask cur cpu).tasks = Map.set s.tasks cur (s.accountedTask cur cpu) := rfl

theorem accountTask_maxVruntime (s : Scheduler) (cur : String) (cpu : Nat) :
    (s.accountTask cur cpu).maxVruntime =
      if (s.accountedTask cur cpu).vruntime > s.maxVruntime then
        (s.accountedTask cur cpu).vruntime
      else s.maxVruntime := rfl

theorem accountTask_ok {s : Scheduler} (hC : s.Consistent) (cur : String) (cpu : Nat) :
    AcctOk s (s.accountTask cur cpu) := by
  have hmax : s.maxVruntime ≤ (s.accountTask cur cpu).maxVruntime ∧
      (s.accountedTask cur cpu).vruntime ≤ (s.accountTask cur cpu).maxVruntime := by
    rw [accountTask_maxVruntime]
    split_ifs with h
    · exact ⟨le_of_lt h, le_refl _⟩
    · exact ⟨le_refl _, not_lt.1 h⟩
  have hrq : (s.accountTask cur cpu).rq.IndexOk ∧
      ∀ x, (s.accountTask cur cpu).rq.contains x = true → s.rq.contains x = true ∨ x = cur := by
    unfold accountTask
    dsimp only
    split_ifs
    · have hp := MinHeap.push_spec (Map.set s.tasks cur (s.accountedTask cur cpu)) hC.indexOk cur
      have hf := MinHeap.Shuffle.fixKey (Map.set s.tasks cur (s.accountedTask cur cpu)) hp.1 cur
      refine ⟨hf.1, fun x hx => ?_⟩
      rw [hf.2.2 x, hp.2.1 x] at hx
      simpa using hx
    · exact ⟨hC.indexOk, fun x hx => Or.inl hx⟩
  refine ⟨⟨hrq.1, ?_, hC.hasRoot, ?_, hC.lastLen⟩, rfl, rfl, rfl, rfl, hmax.1, ?_⟩
  · intro x hx
    rw [accountTask_tasks]
    by_cases hxc : x = cur
    · exact ⟨_, by rw [hxc, Map.set_same]⟩
    · rcases hrq.2 x hx with h | h
      · obtain ⟨t, ht⟩ := hC.queued x h
        exact ⟨t, by rw [Map.set_other _ _ hxc]; exact ht⟩
      · exact absurd h hxc
  · intro x t hx
    rw [accountTask_tasks] at hx
    by_cases hxc : x = cur
    · rw [hxc, Map.set_same] at hx
      cases hx
      exact hmax.2
    · rw [Map.set_other _ _ hxc] at hx
      exact le_trans (hC.ceiling x t hx) hmax.1
  · intro id t ht
    rw [accountTask_tasks]
    by_cases hxc : id = cur
    · refine ⟨_, by rw [hxc, Map.set_same], ?_⟩
      have := accountedTask_static s cur cpu
      rw [taskAt, ← hxc, ht] at this
      simpa [hxc] using this
    · exact ⟨t, by rw [Map.set_other _ _ hxc]; exact ht, Static.same_task t⟩

theorem accountCpu_ok (schedule : List String) {ac : Acct} (hC : ac.s.Consistent) (cpu : Nat) :
    AcctOk ac.s (accountCpu schedule ac cpu).s := by
  unfold accountCpu
  dsimp only
  split_ifs
  · exact accountTask_ok hC _ _
  · exact AcctOk.start hC

theorem accountLoop_ok (schedule : List String) : ∀ (cpus : List Nat) (ac : Acct),
    ac.s.Consistent → AcctOk ac.s (accountLoop schedule ac cpus).s := by
  intro cpus
  induction cpus with
  | nil => intro ac hC; exact AcctOk.start hC
  | cons cpu rest ih =>
    intro ac hC
    have h1 := accountCpu_ok schedule hC cpu
    have h2 := ih (accountCpu schedule ac cpu) h1.1
    exact h1.step h2

theorem accountAll_ok {s : Scheduler} (hC : s.Consistent) (schedule : List String)
    (hlen : schedule.length = s.cpuCount) :
    (s.accountAll schedule).s.Consistent ∧
    (s.accountAll schedule).s.cgroups = s.cgroups ∧
    s.maxVruntime ≤ (s.accountAll schedule).s.maxVruntime ∧
    (s.accountAll schedule).s.lastSchedule = schedule ∧
    ∀ id t, s.tasks id = some t →
      ∃ t1, (s.accountAll schedule).s.tasks id = some t1 ∧ Static t t1 := by
  have h := accountLoop_ok schedule (List.range s.cpuCount)
    { s := s, preemptions := 0, migrations := 0 } hC
  obtain ⟨a1, a2, a3, a4, a5, a6, a7⟩ := h
  refine ⟨⟨a1.indexOk, a1.queued, a1.hasRoot, a1.ceiling, ?_⟩, a2, a6, rfl, a7⟩
  show schedule.length = _
  rw [hlen]
  exact a3.symm

theorem dispatch_consistent {s : Scheduler} (hC : s.Consistent) (vtime : Int) :
    (s.dispatch vtime).1.Consistent := by
  have hs := selectAll_spec s hC
  have hlen : s.selectAll.2.length = s.selectAll.1.cpuCount := by
    rw [hs.2.2.1, hs.1]
  exact (accountAll_ok hs.2.1 s.selectAll.2 hlen).1

theorem Reachable.consistent {cpuCount : Nat} {quanta : Int} {s : Scheduler}
    (h : Reachable cpuCount quanta s) : s.Consistent := by
  induction h with
  | init => exact new_consistent cpuCount quanta
  | event e _ he ih => exact (applyEvent_effect he).keeps_consistent ih
  | tick vtime _ ih => exact dispatch_consistent ih vtime

/-! ## C1: runqueue membership -/

set_option maxRecDepth 100000 in
/-- C1 (runqueue membership), evaluated where it fails.  On one CPU, after the tick
whose batch creates the task with the empty id, that task is still RUNNABLE but no
longer in the runqueue, and the CPU is reported idle; the same happens to a task
whose id is "idle". -/
theorem c1_sentinel_id_leaves_runqueue :
    ((Scheduler.new 1 1).runTick 0 [evCreate ""]).map
        (fun r => ((r.1.tasks "").map Task.state, r.1.rq.contains "", r.2.schedule))
      = some (some TaskState.RUNNABLE, false, ["idle"]) ∧
    ((Scheduler.new 1 1).runTick 0 [evCreate "idle"]).map
        (fun r => ((r.1.tasks "idle").map Task.state, r.1.rq.contains "idle", r.2.schedule))
      = some (some TaskState.RUNNABLE, false, ["idle"]) := by
  constructor <;> decide

/-! ## C2: ordering and tie-break -/

set_option maxRecDepth 100000 in
/-- C2 (ordering and tie-break), evaluated where it fails.  At dispatch time of the
second tick "A" and "C" both have vruntime 1, full affinity and the root cgroup, so
("A") comes first in the order, yet the tick puts "C" on CPU 0 and "A" on CPU 1. -/
theorem c2_unblock_breaks_order :
    c2State.map (fun s =>
        ((s.tasks "A").map Task.vruntime, (s.tasks "C").map Task.vruntime,
         MinHeap.lessId s.tasks "A" "C", (s.dispatch 1).2.schedule))
      = some (some 1, some 1, true, ["C", "A"]) ∧
    c2State.map (fun s =>
        ((s.tasks "A").map (fun t => (t.affinityMask, t.cgroupId)),
         (s.tasks "C").map (fun t => (t.affinityMask, t.cgroupId)),
         (s.cgroups "0").map Cgroup.cpuMask))
      = some (some ([true, true], "0"), some ([true, true], "0"), some [true, true]) := by
  constructor <;> decide

theorem Reachable.after_events {cpuCount : Nat} {quanta : Int} :
    ∀ (events : List Json) {s s1 : Scheduler}, Reachable cpuCount quanta s →
      s.applyEvents events = some s1 → Reachable cpuCount quanta s1 := by
  intro events
  induction events with
  | nil =>
    intro s s1 hr h
    simp only [Scheduler.applyEvents, Option.some.injEq] at h
    rw [← h]; exact hr
  | cons e rest ih =>
    intro s s1 hr h
    simp only [Scheduler.applyEvents, Option.bind_eq_some] at h
    obtain ⟨s2, h2, h3⟩ := h
    exact ih (Reachable.event e hr h2) h3

theorem Reachable.after_tick {cpuCount : Nat} {quanta : Int} {s : Scheduler}
    (hr : Reachable cpuCount quanta s) {vtime : Int} {events : List Json}
    {r : Scheduler × TickOut} (h : s.runTick vtime events = some r) :
    Reachable cpuCount quanta r.1 := by
  simp only [Scheduler.runTick, Option.bind_eq_some, Option.some.injEq] at h
  obtain ⟨s1, h1, h2⟩ := h
  rw [← h2]
  exact Reachable.tick vtime (Reachable.after_events events hr h1)

theorem canTaskRunOnCPU_true {s : Scheduler} {t : Task} {cpu : Nat}
    (h : (s.canTaskRunOnCPU t cpu).1 = true) :
    t.state = TaskState.RUNNABLE ∧ isCpuAllowed t.affinityMask cpu = true ∧
      isCpuAllowed (s.cgroupOrRoot t.cgroupId).1.cpuMask cpu = true := by
  unfold canTaskRunOnCPU at h
  dsimp only at h
  split_ifs at h with h1 h2 h3
  refine ⟨not_not.1 h1, ?_, ?_⟩
  · simpa using h2
  · simpa using h3

/-! ## C3: affinity respect -/

/-- C3 (affinity respect).  From every reachable state, for every tick that returns and
every CPU `c` whose entry of the returned schedule is a task id `t` other than
"idle": the task `t` exists after the tick, it is RUNNABLE, `c` is allowed by its
affinity mask, and `c` is allowed by the cpuMask of its cgroup (of the root cgroup
"0" when that cgroup is absent). -/
theorem c3_affinity_respect (cpuCount : Nat) (quanta : Int) (s : Scheduler)
    (hr : Reachable cpuCount quanta s) (vtime : Int) (events : List Json)
    (s1 : Scheduler) (out : TickOut) (hrun : s.runTick vtime events = some (s1, out))
    (c : Nat) (t : String) (hc : out.schedule[c]? = some t) (hne : t ≠ "idle") :
    ∃ task, s1.tasks t = some task ∧ task.state = TaskState.RUNNABLE ∧
      isCpuAllowed task.affinityMask c = true ∧
      isCpuAllowed (s1.cgroupOrRoot task.cgroupId).1.cpuMask c = true := by
  simp only [Scheduler.runTick, Option.bind_eq_some, Option.some.injEq] at hrun
  obtain ⟨s2, hev, hd⟩ := hrun
  have hC := (Reachable.after_events events hr hev).consistent
  have hsel := selectAll_spec s2 hC
  obtain ⟨e1, e2, e3, e4⟩ := hsel
  have hlen : s2.selectAll.2.length = s2.selectAll.1.cpuCount := by rw [e3, e1]
  have hacc := accountAll_ok e2 s2.selectAll.2 hlen
  obtain ⟨a1, a2, a3, a4, a5⟩ := hacc
  have hs1 : s1 = (s2.selectAll.1.accountAll s2.selectAll.2).s :=
    (congrArg Prod.fst hd).symm
  have hout : out.schedule = s2.selectAll.2 :=
    (congrArg (fun r => r.2.schedule) hd).symm
  rw [hout] at hc
  obtain ⟨_, task, ht, hrun⟩ := e4 c t hc hne
  have ht2 : s2.selectAll.1.tasks t = some task := by rw [e1]; exact ht
  obtain ⟨task1, ht1, hst⟩ := a5 t task ht2
  obtain ⟨r1, r2, r3⟩ := canTaskRunOnCPU_true hrun
  refine ⟨task1, by rw [hs1]; exact ht1, hst.2.2.2.2.1.trans r1, by rw [hst.2.2.2.2.2]; exact r2, ?_⟩
  rw [hst.2.2.2.1, ← r3, hs1]
  congr 2
  apply cgroupOrRoot_fst_congr
  rw [a2, e1]

set_option maxRecDepth 100000 in
/-- C3 applied to the first tick of a two-CPU scheduler whose batch creates "A". -/
theorem c3_affinity_respect_witness :
    ∃ s1 out, (Scheduler.new 2 1).runTick 0 [evCreate "A"] = some (s1, out) ∧
      out.schedule[0]? = some "A" ∧
      ∃ task, s1.tasks "A" = some task ∧ task.state = TaskState.RUNNABLE ∧
        isCpuAllowed task.affinityMask 0 = true ∧
        isCpuAllowed (s1.cgroupOrRoot task.cgroupId).1.cpuMask 0 = true :=
  ⟨_, _, rfl, by decide,
    c3_affinity_respect 2 1 (Scheduler.new 2 1) Reachable.init 0 [evCreate "A"] _ _ rfl 0 "A"
      (by decide) (by decide)⟩

theorem Effect.maxVruntime_eq {s s1 : Scheduler} (hE : Effect s s1) :
    s1.maxVruntime = s.maxVruntime := by
  cases hE <;> rfl

theorem dispatch_maxVruntime_le {s : Scheduler} (hC : s.Consistent) (vtime : Int) :
    s.maxVruntime ≤ (s.dispatch vtime).1.maxVruntime := by
  have hs := selectAll_spec s hC
  have hlen : s.selectAll.2.length = s.selectAll.1.cpuCount := by rw [hs.2.2.1, hs.1]
  have ha := (accountAll_ok hs.2.1 s.selectAll.2 hlen).2.2.1
  have h0 : s.selectAll.1.maxVruntime = s.maxVruntime := by rw [hs.1]
  rw [h0] at ha
  exact ha

theorem sampleState_reachable : Reachable 1 1 sampleState :=
  Reachable.tick 0 (Reachable.event (evCreate "B")
    (Reachable.event (evCreate "A") Reachable.init rfl) rfl)

/-! ## C5: the maxVruntime ceiling -/

/-- C5 (maxVruntime ceiling).  In every reachable state (that is, after the
constructor, after every applied event and at every tick end) `maxVruntime` is at
least the vruntime of every task in the map; and no step decreases `maxVruntime`:
neither an applied event nor the selection and accounting of a tick. -/
theorem c5_max_vruntime_ceiling (cpuCount : Nat) (quanta : Int) (s : Scheduler)
    (hr : Reachable cpuCount quanta s) :
    (∀ id t, s.tasks id = some t → t.vruntime ≤ s.maxVruntime) ∧
    (∀ e s1, s.applyEvent e = some s1 → s.maxVruntime ≤ s1.maxVruntime) ∧
    (∀ vtime, s.maxVruntime ≤ (s.dispatch vtime).1.maxVruntime) := by
  refine ⟨hr.consistent.ceiling, ?_, ?_⟩
  · intro e s1 h
    exact le_of_eq (applyEvent_effect h).maxVruntime_eq.symm
  · intro vtime
    exact dispatch_maxVruntime_le hr.consistent vtime

/-- C5 applied to the sample state (one CPU, after the first tick that creates "A" and
"B"). -/
theorem c5_max_vruntime_ceiling_witness :
    (∀ id t, sampleState.tasks id = some t → t.vruntime ≤ sampleState.maxVruntime) ∧
    (∀ e s1, sampleState.applyEvent e = some s1 →
        sampleState.maxVruntime ≤ s1.maxVruntime) ∧
    (∀ vtime, sampleState.maxVruntime ≤ (sampleState.dispatch vtime).1.maxVruntime) :=
  c5_max_vruntime_ceiling 1 1 sampleState sampleState_reachable

/-! ## C6: malformed events -/

set_option maxRecDepth 100000 in
/-- C6 (silent skip of malformed events), evaluated where it fails.  A TASK_SETNICE
without `newNice` makes `runTick` throw, and so does an event without `action`:
the exception leaves `main`, no record is written and there is no resulting state,
whereas the same batch without that event is processed and schedules "A". -/
theorem c6_malformed_event_aborts :
    ((Scheduler.new 1 1).runTick 0
        [evCreate "A", mkEvent "TASK_SETNICE" [("taskId", .str "A")]]).isNone = true ∧
    ((Scheduler.new 1 1).runTick 0 [evCreate "A", .obj []]).isNone = true ∧
    ((Scheduler.new 1 1).processRecord c6Record).isNone = true ∧
    ((Scheduler.new 1 1).processRecord c6RecordWithout).map (fun r => r.2.map TickOut.schedule)
      = some (some ["A"]) := by
  decide

theorem applyEvent_block (s : Scheduler) (e : Json)
    (h : strField e "action" = some "TASK_BLOCK") : s.applyEvent e = s.taskBlock e := by
  unfold applyEvent
  rw [h, Option.some_bind, if_neg (by decide), if_neg (by decide), if_pos rfl]

theorem applyEvent_cgroupDelete (s : Scheduler) (e : Json)
    (h : strField e "action" = some "CGROUP_DELETE") : s.applyEvent e = s.cgroupDelete e := by
  unfold applyEvent
  rw [h, Option.some_bind, if_neg (by decide), if_neg (by decide), if_neg (by decide),
    if_neg (by decide), if_neg (by decide), if_neg (by decide), if_neg (by decide),
    if_neg (by decide), if_neg (by decide), if_pos rfl]

/-! ## C9: burst shield -/

/-- C9 (burst shield).  For every state and every existing task `t` that is not EXITED,
applying TASK_BLOCK for it: when `burstRemaining > 0` the whole state is unchanged
(so a RUNNABLE task stays RUNNABLE and queued); when `burstRemaining = 0` the task
becomes BLOCKED, nothing else of its record changes, and (the runqueue index being
consistent, as in every reachable state) it is no longer in the runqueue. -/
theorem c9_burst_shield (s : Scheduler) (e : Json) (id : String) (t : Task)
    (hact : strField e "action" = some "TASK_BLOCK")
    (hid : strField e "taskId" = some id)
    (ht : s.tasks id = some t) (hlive : t.state ≠ TaskState.EXITED) :
    (0 < t.burstRemaining → s.applyEvent e = some s) ∧
    (t.burstRemaining = 0 → s.rq.IndexOk →
      ∃ s1, s.applyEvent e = some s1 ∧
        s1.tasks id = some { t with state := TaskState.BLOCKED } ∧
        s1.rq.contains id = false) := by
  rw [applyEvent_block s e hact]
  unfold taskBlock
  rw [hid, Option.some_bind]
  simp only [ht]
  constructor
  · intro hb
    rw [if_neg hlive, if_pos hb]
  · intro hb hOk
    have hb' : ¬ t.burstRemaining > 0 := by rw [hb]; decide
    rw [if_neg hlive, if_neg hb']
    refine ⟨_, rfl, Map.set_same _ _ _, ?_⟩
    show (if s.rq.contains id = true then s.rq.remove s.tasks id else s.rq).contains id = false
    by_cases hc : s.rq.contains id = true
    · rw [if_pos hc, (MinHeap.remove_spec s.tasks hOk id).2.1 id]
      simp
    · rw [if_neg hc]
      simpa using hc

set_option maxRecDepth 100000 in
/-- C9 applied to the sample state and its queued task "A", whose `burstRemaining`
is 0: TASK_BLOCK leaves it BLOCKED and out of the runqueue. -/
theorem c9_burst_shield_witness :
    ∃ s1, sampleState.applyEvent (evTask "TASK_BLOCK" "A") = some s1 ∧
      s1.tasks "A" = some
        { id := "A", nice := 0, weight := 1024, cgroupId := "0",
          state := TaskState.BLOCKED, vruntime := 1, affinityMask := [true], lastCpu := 0,
          burstRemaining := 0 } ∧
      s1.rq.contains "A" = false :=
  (c9_burst_shield sampleState (evTask "TASK_BLOCK" "A") "A"
    { id := "A", nice := 0, weight := 1024, cgroupId := "0", state := TaskState.RUNNABLE,
      vruntime := 1, affinityMask := [true], lastCpu := 0, burstRemaining := 0 }
    (by decide) (by decide) (by decide) (by decide)).2 rfl
    sampleState_reachable.consistent.indexOk

/-! ## C10: reparent on delete -/

/-- C10 (reparent on delete).  For every state and every cgroup id `g`, applying
CGROUP_DELETE `g`: when `g` is not "0", every task that was a non-EXITED member of
`g` has `cgroupId = "0"` afterwards and is otherwise unchanged, every other task
record (EXITED members included) is unchanged and no task appears or disappears, so
no non-EXITED task has `cgroupId = g`; `g` is absent from the cgroup map and every
other cgroup is unchanged; the runqueue, `maxVruntime`, `lastSchedule`, `cpuCount`
and `quanta` are unchanged.  When `g` is "0" the state is unchanged.  In both cases
a root cgroup that exists before still exists after. -/
theorem c10_reparent_on_delete (s : Scheduler) (e : Json) (g : String)
    (hact : strField e "action" = some "CGROUP_DELETE")
    (hid : strField e "cgroupId" = some g) :
    (g ≠ "0" →
      ∃ s1, s.applyEvent e = some s1 ∧
        (∀ id t1, s1.tasks id = some t1 → t1.state ≠ TaskState.EXITED → t1.cgroupId ≠ g) ∧
        (∀ id t, s.tasks id = some t → t.cgroupId = g → t.state ≠ TaskState.EXITED →
          s1.tasks id = some { t with cgroupId := "0" }) ∧
        (∀ id t, s.tasks id = some t → ¬ (t.cgroupId = g ∧ t.state ≠ TaskState.EXITED) →
          s1.tasks id = some t) ∧
        (∀ id, s.tasks id = none → s1.tasks id = none) ∧
        s1.cgroups g = none ∧
        (∀ g1, g1 ≠ g → s1.cgroups g1 = s.cgroups g1) ∧
        s1.rq = s.rq ∧ s1.maxVruntime = s.maxVruntime ∧ s1.lastSchedule = s.lastSchedule ∧
        s1.cpuCount = s.cpuCount ∧ s1.quanta = s.quanta) ∧
    (g = "0" → s.applyEvent e = some s) ∧
    (∀ s1, s.applyEvent e = some s1 → s.HasRoot → s1.HasRoot) := by
  rw [applyEvent_cgroupDelete s e hact]
  unfold cgroupDelete
  rw [hid, Option.some_bind]
  refine ⟨?_, ?_, ?_⟩
  · intro hg
    rw [if_neg hg]
    refine ⟨_, rfl, ?_, ?_, ?_, ?_, ?_, ?_, rfl, rfl, rfl, rfl, rfl⟩
    · intro id t1 h1 hlive
      simp only [Option.map_eq_some'] at h1
      obtain ⟨t, _, rfl⟩ := h1
      split_ifs with hc
      · exact fun h0 => hg h0.symm
      · intro hcg
        rw [if_neg hc] at hlive
        exact hc ⟨hcg, hlive⟩
    · intro id t h1 hcg hlive
      simp only [h1, Option.map_some', if_pos (And.intro hcg hlive)]
    · intro id t h1 hn
      simp only [h1, Option.map_some', if_neg hn]
    · intro id h1
      simp only [h1, Option.map_none']
    · simp [Map.erase]
    · intro g1 hg1
      simp [Map.erase, hg1]
  · intro hg
    rw [if_pos hg]
  · intro s1 h1 hroot
    split_ifs at h1 with hg
    · cases h1; exact hroot
    · cases h1
      obtain ⟨r, hr⟩ := hroot
      exact ⟨r, by simp [Map.erase, Ne.symm hg, hr]⟩

set_option maxRecDepth 100000 in
/-- C10 applied to CGROUP_DELETE "g" in a state where the task "A" is a member of "g":
afterwards "A" is in the root cgroup and "g" is gone. -/
theorem c10_reparent_on_delete_witness :
    ((c10State.tasks "A").map Task.cgroupId = some "g") ∧
    ∃ s1, c10State.applyEvent (evCgroupDelete "g") = some s1 ∧
      (s1.tasks "A").map Task.cgroupId = some "0" ∧ s1.cgroups "g" = none := by
  refine ⟨by decide, ?_⟩
  obtain ⟨s1, h1, -, h3, -, -, h6, -⟩ :=
    (c10_reparent_on_delete c10State (evCgroupDelete "g") "g" (by decide) (by decide)).1
      (by decide)
  refine ⟨s1, h1, ?_, h6⟩
  rw [h3 "A"
    { id := "A", nice := 0, weight := 1024, cgroupId := "g", state := TaskState.RUNNABLE,
      vruntime := 0, affinityMask := [true], lastCpu := -1, burstRemaining := 0 }
    (by decide) rfl (by decide)]
  rfl

theorem wrap64_of_fits {x : Int} (h : fits64 x = true) : wrap64 x = x := by
  simp only [fits64, INT64_MAX, decide_eq_true_eq] at h
  unfold wrap64
  rw [Int.emod_eq_of_lt (by omega) (by omega)]
  omega

theorem vruntimeDelta_pos (s : Scheduler) (t : Task) : 1 ≤ s.vruntimeDelta t := by
  unfold vruntimeDelta
  dsimp only
  split_ifs with h
  · exact le_refl _
  · omega

theorem Effect.vruntime_le {s s1 : Scheduler} (hC : s.Consistent) (hE : Effect s s1)
    {id : String} {t : Task} (ht : s.tasks id = some t) :
    ∃ t1, s1.tasks id = some t1 ∧ t.vruntime ≤ t1.vruntime := by
  cases hE with
  | same => exact ⟨t, ht, le_refl _⟩
  | task id1 t1 rq1 hv hrq =>
    by_cases hid : id = id1
    · subst hid
      refine ⟨t1, Map.set_same _ _ _, ?_⟩
      rcases hv with ⟨hn, _⟩ | ⟨t0, ht0, h | h⟩
      · rw [ht] at hn; cases hn
      · rw [ht] at ht0; cases ht0; exact le_of_eq h.symm
      · rw [h]; exact hC.ceiling id t ht
    · exact ⟨t, (Map.set_other _ _ hid).trans ht, le_refl _⟩
  | cgroup id1 cg => exact ⟨t, ht, le_refl _⟩
  | cgroupDel id1 hne =>
    refine ⟨reparent id1 t, by simp [ht], ?_⟩
    rw [reparent_vruntime]

theorem accountLoop_cons (schedule : List String) (ac : Acct) (cpu : Nat) (rest : List Nat) :
    accountLoop schedule ac (cpu :: rest) = accountLoop schedule (accountCpu schedule ac cpu) rest :=
  rfl

theorem accountCpu_s (schedule : List String) (ac : Acct) (cpu : Nat) :
    (accountCpu schedule ac cpu).s =
      if schedule.getD cpu "idle" ≠ "idle" then
        ac.s.accountTask (schedule.getD cpu "idle") cpu
      else ac.s := rfl

theorem accountLoop_vruntime_le (schedule : List String) : ∀ (cpus : List Nat) (ac : Acct),
    noWrapLoop schedule ac.s cpus = true → ∀ id t, ac.s.tasks id = some t →
      ∃ t1, (accountLoop schedule ac cpus).s.tasks id = some t1 ∧ t.vruntime ≤ t1.vruntime := by
  intro cpus
  induction cpus with
  | nil => intro ac _ id t ht; exact ⟨t, ht, le_refl _⟩
  | cons cpu rest ih =>
    intro ac hw id t ht
    rw [accountLoop_cons]
    unfold noWrapLoop at hw
    dsimp only at hw
    by_cases hcur : schedule.getD cpu "idle" ≠ "idle"
    · rw [if_pos hcur, Bool.and_eq_true] at hw
      have hs : (accountCpu schedule ac cpu).s =
          ac.s.accountTask (schedule.getD cpu "idle") cpu := by
        rw [accountCpu_s, if_pos hcur]
      have hstep : ∃ t1, (accountCpu schedule ac cpu).s.tasks id = some t1 ∧
          t.vruntime ≤ t1.vruntime := by
        rw [hs, accountTask_tasks]
        by_cases hid : id = schedule.getD cpu "idle"
        · refine ⟨_, by rw [hid, Map.set_same], ?_⟩
          rw [accountedTask_vruntime, wrap64_of_fits hw.1]
          have htA : ac.s.taskAt (schedule.getD cpu "idle") = t := by
            rw [taskAt, ← hid, ht]; rfl
          rw [htA]
          have := vruntimeDelta_pos ac.s { t with lastCpu := (cpu : Int) }
          omega
        · exact ⟨t, by rw [Map.set_other _ _ hid]; exact ht, le_refl _⟩
      obtain ⟨t1, ht1, hle1⟩ := hstep
      obtain ⟨t2, ht2, hle2⟩ := ih (accountCpu schedule ac cpu) (by rw [hs]; exact hw.2) id t1 ht1
      exact ⟨t2, ht2, le_trans hle1 hle2⟩
    · rw [if_neg hcur] at hw
      have hs : (accountCpu schedule ac cpu).s = ac.s := by
        rw [accountCpu_s, if_neg hcur]
      exact ih (accountCpu schedule ac cpu) (by rw [hs]; exact hw) id t (by rw [hs]; exact ht)

/-! ## C4: monotone vruntime -/

theorem c4State_reachable : Reachable 1 (2 ^ 52) c4State :=
  Reachable.tick 0 (Reachable.event (evCreateIn "A" "g")
    (Reachable.event (evCgroupShares "g" 1) Reachable.init rfl) rfl)

set_option maxRecDepth 100000 in
/-- C4 as stated fails: with quanta 2^52 and the task "A" in a cgroup of `cpuShares` 1,
the reachable state after the first tick has "A" at vruntime 2^62, and the
accounting pass of the next tick adds 2^62 again, which leaves the `int64_t` range:
the vruntime of "A" goes down to -2^63. -/
theorem c4_vruntime_wraps :
    Reachable 1 (2 ^ 52) c4State ∧
    (c4State.tasks "A").map Task.vruntime = some (2 ^ 62) ∧
    ((c4State.dispatch 1).1.tasks "A").map Task.vruntime = some (-(2 ^ 63)) ∧
    c4State.dispatchNoWrap = false :=
  ⟨c4State_reachable, by decide, by decide, by decide⟩

/-- C4, amended (monotone vruntime).  In every reachable state, for every task: applying
any one event leaves the task in the map with a vruntime that is not smaller (wake
and yield set it to `maxVruntime`, which is at least the old value); and so does
the selection and accounting pass of a tick, provided that none of the additions
`vruntime += d` of that pass leaves the signed 64-bit range. -/
theorem c4_vruntime_monotone (cpuCount : Nat) (quanta : Int) (s : Scheduler)
    (hr : Reachable cpuCount quanta s) (id : String) (t : Task) (ht : s.tasks id = some t) :
    (∀ e s1, s.applyEvent e = some s1 →
      ∃ t1, s1.tasks id = some t1 ∧ t.vruntime ≤ t1.vruntime) ∧
    (∀ vtime, s.dispatchNoWrap = true →
      ∃ t1, (s.dispatch vtime).1.tasks id = some t1 ∧ t.vruntime ≤ t1.vruntime) := by
  have hC := hr.consistent
  refine ⟨fun e s1 h => (applyEvent_effect h).vruntime_le hC ht, ?_⟩
  intro vtime hw
  have hs := selectAll_spec s hC
  have ht2 : s.selectAll.1.tasks id = some t := by rw [hs.1]; exact ht
  have hcpu : s.selectAll.1.cpuCount = s.cpuCount := by rw [hs.1]
  have := accountLoop_vruntime_le s.selectAll.2 (List.range s.cpuCount)
    { s := s.selectAll.1, preemptions := 0, migrations := 0 } hw id t ht2
  obtain ⟨t1, ht1, hle⟩ := this
  refine ⟨t1, ?_, hle⟩
  show (s.selectAll.1.accountAll s.selectAll.2).s.tasks id = some t1
  unfold accountAll
  dsimp only
  rw [hcpu]
  exact ht1

set_option maxRecDepth 100000 in
/-- C4 (amended) applied to the sample state and its task "A": the event TASK_YIELD and
the next tick, whose accounting does not wrap, do not decrease its vruntime. -/
theorem c4_vruntime_monotone_witness :
    sampleState.dispatchNoWrap = true ∧
    (∀ e s1, sampleState.applyEvent e = some s1 →
      ∃ t1, s1.tasks "A" = some t1 ∧ (1 : Int) ≤ t1.vruntime) ∧
    (∀ vtime, sampleState.dispatchNoWrap = true →
      ∃ t1, (sampleState.dispatch vtime).1.tasks "A" = some t1 ∧ (1 : Int) ≤ t1.vruntime) :=
  ⟨by decide,
    c4_vruntime_monotone 1 1 sampleState sampleState_reachable "A"
      { id := "A", nice := 0, weight := 1024, cgroupId := "0", state := TaskState.RUNNABLE,
        vruntime := 1, affinityMask := [true], lastCpu := 0, burstRemaining := 0 }
      (by decide)⟩

theorem applyEvent_create (s : Scheduler) (e : Json)
    (h : strField e "action" = some "TASK_CREATE") : s.applyEvent e = s.taskCreate e := by
  unfold applyEvent
  rw [h, Option.some_bind, if_pos rfl]

theorem applyEvent_unblock (s : Scheduler) (e : Json)
    (h : strField e "action" = some "TASK_UNBLOCK") : s.applyEvent e = s.taskUnblock e := by
  unfold applyEvent
  rw [h, Option.some_bind, if_neg (by decide), if_neg (by decide), if_neg (by decide),
    if_pos rfl]

theorem applyEvent_yield (s : Scheduler) (e : Json)
    (h : strField e "action" = some "TASK_YIELD") : s.applyEvent e = s.taskYield e := by
  unfold applyEvent
  rw [h, Option.some_bind, if_neg (by decide), if_neg (by decide), if_neg (by decide),
    if_neg (by decide), if_pos rfl]

theorem wake_sets_ceiling {s s1 : Scheduler} {e : Json} {a id : String}
    (hact : strField e "action" = some a) (hid : strField e "taskId" = some id)
    (hpre : (a = "TASK_UNBLOCK" ∧ ∃ t, s.tasks id = some t ∧ t.state ≠ TaskState.EXITED) ∨
      (a = "TASK_YIELD" ∧ ∃ t, s.tasks id = some t ∧ t.state = TaskState.RUNNABLE) ∨
      (a = "TASK_CREATE" ∧ s.tasks id = none))
    (hs1 : s.applyEvent e = some s1) :
    ∃ t1, s1.tasks id = some t1 ∧ t1.vruntime = s1.maxVruntime := by
  rcases hpre with ⟨ha, t, ht, hst⟩ | ⟨ha, t, ht, hst⟩ | ⟨ha, ht⟩
  · subst ha
    rw [applyEvent_unblock s e hact] at hs1
    unfold taskUnblock at hs1
    rw [hid, Option.some_bind] at hs1
    simp only [ht, if_neg hst, Option.some.injEq] at hs1
    subst hs1
    exact ⟨_, Map.set_same _ _ _, ensureTaskMasks_vruntime s _⟩
  · subst ha
    rw [applyEvent_yield s e hact] at hs1
    unfold taskYield at hs1
    rw [hid, Option.some_bind] at hs1
    simp only [ht, hst, ne_eq, not_true_eq_false, if_false, Option.some.injEq] at hs1
    subst hs1
    exact ⟨_, Map.set_same _ _ _, rfl⟩
  · subst ha
    rw [applyEvent_create s e hact] at hs1
    unfold taskCreate at hs1
    rw [hid, Option.some_bind] at hs1
    have hex : s.taskExists id = false := by simp [taskExists, ht]
    simp only [hex, Bool.false_eq_true, if_false, Option.bind_eq_some, Option.some.injEq] at hs1
    obtain ⟨n0, -, cg0, -, hs1⟩ := hs1
    subst hs1
    exact ⟨_, Map.set_same _ _ _, rfl⟩

/-! ## C8: wake and yield placement -/

set_option maxRecDepth 100000 in
/-- Wake placement on a vruntime tie, a design point beside the failure of C8.  In
`c8Before` the task "B" is queued and "A" is not; immediately after TASK_UNBLOCK "A"
the task "A" has vruntime 0 = `maxVruntime`,
"B" is still queued with the same vruntime, and ("A") comes before ("B") in the
runqueue order: the next dispatch selects "A" ahead of "B".  And the handlers have
guards: TASK_CREATE for the existing task "B" of the sample state leaves its
vruntime at 0, below `maxVruntime` = 1. -/
theorem c8_wake_precedes_on_tie :
    c8Before.rq.contains "B" = true ∧ c8Before.rq.contains "A" = false ∧
    (c8After.tasks "A").map Task.vruntime = some c8After.maxVruntime ∧
    (c8After.tasks "B").map Task.vruntime = some c8After.maxVruntime ∧
    c8After.rq.contains "B" = true ∧
    MinHeap.lessId c8After.tasks "A" "B" = true ∧
    (c8After.dispatch 0).2.schedule = ["A"] ∧
    (sampleState.applyEvent (evCreate "B")).map
        (fun s => ((s.tasks "B").map Task.vruntime, s.maxVruntime)) = some (some 0, 1) := by
  decide

/-- The key comparisons of C8 (wake and yield placement) that hold; they say nothing
about the position in the runqueue array.  In every reachable state, immediately after
applying TASK_UNBLOCK for an existing task that is not EXITED, TASK_YIELD for a
RUNNABLE task, or TASK_CREATE for a new id: the task's vruntime equals
`maxVruntime`, no task has a larger vruntime, and the task comes before another
task `u` in the runqueue order only on a tie, when `u` has the same vruntime and a
greater id. -/
theorem c8_wake_placement (cpuCount : Nat) (quanta : Int) (s : Scheduler)
    (hr : Reachable cpuCount quanta s) (e : Json) (a id : String)
    (hact : strField e "action" = some a) (hid : strField e "taskId" = some id)
    (hpre : (a = "TASK_UNBLOCK" ∧ ∃ t, s.tasks id = some t ∧ t.state ≠ TaskState.EXITED) ∨
      (a = "TASK_YIELD" ∧ ∃ t, s.tasks id = some t ∧ t.state = TaskState.RUNNABLE) ∨
      (a = "TASK_CREATE" ∧ s.tasks id = none))
    (s1 : Scheduler) (hs1 : s.applyEvent e = some s1) :
    ∃ t1, s1.tasks id = some t1 ∧ t1.vruntime = s1.maxVruntime ∧
      ∀ u tu, s1.tasks u = some tu →
        tu.vruntime ≤ t1.vruntime ∧
        (MinHeap.lessId s1.tasks id u = true →
          tu.vruntime = t1.vruntime ∧ MinHeap.strLt id u = true) := by
  obtain ⟨t1, ht1, hv⟩ := wake_sets_ceiling hact hid hpre hs1
  have hC1 := (Reachable.event e hr hs1).consistent
  refine ⟨t1, ht1, hv, fun u tu hu => ?_⟩
  have hle : tu.vruntime ≤ t1.vruntime := by rw [hv]; exact hC1.ceiling u tu hu
  refine ⟨hle, fun hless => ?_⟩
  unfold MinHeap.lessId MinHeap.keyOf at hless
  simp only [ht1, hu] at hless
  split_ifs at hless with hne
  · simp only [decide_eq_true_eq] at hless
    omega
  · exact ⟨(not_not.1 hne).symm, hless⟩

set_option maxRecDepth 100000 in
/-- The key comparisons of C8 at TASK_UNBLOCK "A" in the state `c8Before`. -/
theorem c8_wake_placement_witness :
    ∃ t1, c8After.tasks "A" = some t1 ∧ t1.vruntime = c8After.maxVruntime ∧
      ∀ u tu, c8After.tasks u = some tu →
        tu.vruntime ≤ t1.vruntime ∧
        (MinHeap.lessId c8After.tasks "A" u = true →
          tu.vruntime = t1.vruntime ∧ MinHeap.strLt "A" u = true) :=
  c8_wake_placement 1 1 c8Before
    (Reachable.event (evTask "TASK_BLOCK" "A")
      (Reachable.event (evCreate "A")
        (Reachable.event (evCreate "B") Reachable.init rfl) rfl) rfl)
    (evTask "TASK_UNBLOCK" "A") "TASK_UNBLOCK" "A" (by decide) (by decide)
    (Or.inl ⟨rfl,
      { id := "A", nice := 0, weight := 1024, cgroupId := "0", state := TaskState.BLOCKED,
        vruntime := 0, affinityMask := [true], lastCpu := -1, burstRemaining := 0 },
      by decide, by decide⟩)
    c8After rfl

end Scheduler
namespace MinHeap

theorem ext_heap {h1 h2 : MinHeap} (ha : h1.a = h2.a) (hp : ∀ z, h1.pos z = h2.pos z) :
    h1 = h2 := by
  cases h1; cases h2
  simp only at ha hp
  subst ha
  congr
  exact funext hp

theorem popMin_heap2 (tasks : String → Option Task) {x y : String} (hxy : x ≠ y) :
    (heap2 x y).popMin tasks = (x, heap1 y) := by
  have hpos : (heap2 x y).pos x = some 0 := by simp [heap2, Map.set, hxy]
  unfold popMin
  simp only [heap2, List.isEmpty_cons, Bool.false_eq_true, if_false, slot, List.getD_cons_zero]
  congr 1
  unfold remove
  simp only [heap2] at hpos
  simp only [hpos]
  simp [slot, siftUp, siftUpLoop, siftDown, siftDownLoop, smallestOf]
  apply ext_heap
  · rfl
  · intro z
    simp only [heap1, Map.set, Map.erase, Map.empty]
    by_cases hzy : z = y
    · simp [hzy]
    · by_cases hzx : z = x
      · simp [hzx, hxy]
      · simp [hzy, hzx]

theorem push_heap1 (tasks : String → Option Task) {x y : String} (hxy : x ≠ y) :
    (heap1 y).push tasks x = if lessId tasks x y then heap2 x y else heap2 y x := by
  have hc : (heap1 y).contains x = false := by simp [heap1, contains, Map.set, Map.empty, hxy]
  unfold push
  simp only [hc, Bool.false_eq_true, if_false]
  simp only [heap1, List.singleton_append, List.length_cons, List.length_nil, Nat.add_sub_cancel,
    siftUp, siftUpLoop, Nat.zero_lt_one, if_true, gt_iff_lt, Nat.lt_add_one, slot,
    List.getD_cons_succ, List.getD_cons_zero, Nat.sub_self, Nat.zero_div,
    Nat.reduceAdd, Nat.reduceSub, Nat.reduceDiv]
  split_ifs with hl
  · apply ext_heap
    · simp [swapAt, slot, heap2]
    · intro z
      simp only [swapAt, slot, heap2, Map.set, Map.empty]
      by_cases hzy : z = y
      · simp [hzy, Ne.symm hxy]
      · by_cases hzx : z = x
        · simp [hzx, hxy]
        · simp [hzy, hzx]
  · rfl

theorem fixKey_heap2 (tasks : String → Option Task) {x y : String} (hxy : x ≠ y)
    (hord : lessId tasks y x = false) (z : String) :
    (heap2 x y).fixKey tasks z = heap2 x y := by
  unfold fixKey
  by_cases hzy : z = y
  · have hpos : (heap2 x y).pos z = some 1 := by simp [heap2, Map.set, hzy]
    simp only [hpos]
    simp [heap2, siftUp, siftUpLoop, siftDown, siftDownLoop, smallestOf, slot, hord]
  · by_cases hzx : z = x
    · have hpos : (heap2 x y).pos z = some 0 := by simp [heap2, Map.set, hzx, hxy]
      simp only [hpos]
      simp [heap2, siftUp, siftUpLoop, siftDown, siftDownLoop, smallestOf, slot, hord]
    · have hpos : (heap2 x y).pos z = none := by simp [heap2, Map.set, Map.empty, hzx, hzy]
      simp only [hpos]

theorem lessId_asymm (tasks : String → Option Task) {x y : String}
    (h : lessId tasks x y = true) : lessId tasks y x = false := by
  unfold lessId at h ⊢
  split_ifs at h with h1
  · rw [if_pos (Ne.symm h1)]
    simp only [decide_eq_true_eq] at h
    simp only [decide_eq_false_iff_not, not_lt]
    exact le_of_lt h
  · rw [if_neg (by rw [not_not] at h1 ⊢; exact h1.symm)]
    unfold strLt at h ⊢
    simp only [decide_eq_true_eq] at h
    simp only [decide_eq_false_iff_not]
    exact lt_asymm h

end MinHeap

namespace Scheduler

theorem pickLoop_heap2 {s : Scheduler} {x y : String} {tx : Task}
    (hroot : s.cgroups "0" = some (rootCgroup 1)) (hrq : s.rq = MinHeap.heap2 x y)
    (hxy : x ≠ y) (htx : s.tasks x = some tx) (hst : tx.state = TaskState.RUNNABLE)
    (haff : tx.affinityMask = [true]) (hcg : tx.cgroupId = "0") :
    pickLoop 0 2 s [] = (x, { s with rq := MinHeap.heap1 y }, []) := by
  have hne : s.rq.empty = false := by rw [hrq]; rfl
  have hpop : s.rq.popMin s.tasks = (x, MinHeap.heap1 y) := by
    rw [hrq]; exact MinHeap.popMin_heap2 s.tasks hxy
  unfold pickLoop
  simp only [hne, Bool.false_eq_true, if_false, hpop, htx, hst, ne_eq, not_true_eq_false, haff,
    isAnyCpuAvailable, List.any_cons, List.any_nil, Bool.or_false, Bool.not_true, hcg,
    cgroupOrRoot, hroot, rootCgroup, maskAll, List.replicate, canTaskRunOnCPU, isCpuAllowed,
    List.length_cons, List.length_nil, List.getD_cons_zero]
  simp

theorem selectAll_heap2 {s : Scheduler} {x y : String} {tx : Task}
    (hcpu : s.cpuCount = 1)
    (hroot : s.cgroups "0" = some (rootCgroup 1)) (hrq : s.rq = MinHeap.heap2 x y)
    (hxy : x ≠ y) (hx0 : x ≠ "") (htx : s.tasks x = some tx)
    (hst : tx.state = TaskState.RUNNABLE)
    (haff : tx.affinityMask = [true]) (hcg : tx.cgroupId = "0") :
    s.selectAll = ({ s with rq := MinHeap.heap1 y }, [x]) := by
  have hsz : s.rq.size = 2 := by rw [hrq]; rfl
  unfold selectAll selectLoop
  rw [hcpu]
  simp only [List.range_succ, List.range_zero, List.nil_append, List.foldl_cons, List.foldl_nil,
    selectCpu, hsz, pickLoop_heap2 hroot hrq hxy htx hst haff hcg, pushAll, ne_eq, hx0,
    not_false_eq_true, if_true, List.replicate, List.set_cons_zero]
  rw [hcpu]

theorem accountAll_heap1 {s : Scheduler} {x y : String} {tx : Task}
    (hcpu : s.cpuCount = 1) (hrq : s.rq = MinHeap.heap1 y)
    (hxy : x ≠ y) (hxi : x ≠ "idle") (htx : s.tasks x = some tx)
    (hst : tx.state = TaskState.RUNNABLE) (hb : tx.burstRemaining = 0) :
    (s.accountAll [x]).s =
      { s with
        tasks := Map.set s.tasks x
          { tx with lastCpu := 0, vruntime := wrap64 (tx.vruntime + s.vruntimeDelta tx) }
        maxVruntime :=
          if wrap64 (tx.vruntime + s.vruntimeDelta tx) > s.maxVruntime then
            wrap64 (tx.vruntime + s.vruntimeDelta tx)
          else s.maxVruntime
        rq :=
          if MinHeap.lessId (Map.set s.tasks x
              { tx with lastCpu := 0, vruntime := wrap64 (tx.vruntime + s.vruntimeDelta tx) })
              x y then MinHeap.heap2 x y
          else MinHeap.heap2 y x
        lastSchedule := [x] } := by
  have hd : s.vruntimeDelta { tx with lastCpu := ((0 : Nat) : Int) } = s.vruntimeDelta tx := rfl
  have hacc : s.accountedTask x 0 =
      { tx with lastCpu := 0, vruntime := wrap64 (tx.vruntime + s.vruntimeDelta tx) } := by
    unfold accountedTask taskAt
    simp only [htx, Option.getD_some, hd, hb, gt_iff_lt, lt_self_iff_false, if_false]
    rfl
  unfold accountAll accountLoop
  rw [hcpu]
  simp only [List.range_succ, List.range_zero, List.nil_append, List.foldl_cons, List.foldl_nil,
    accountCpu, List.getD_cons_zero, ne_eq, hxi, not_false_eq_true, if_true]
  unfold accountTask
  simp only [hacc, hst, if_true, hrq, MinHeap.push_heap1 _ hxy]
  congr 1
  split_ifs with hl
  · exact MinHeap.fixKey_heap2 _ hxy (MinHeap.lessId_asymm _ hl) x
  · exact MinHeap.fixKey_heap2 _ (Ne.symm hxy) (by simpa using hl) x

end Scheduler
namespace MinHeap

theorem strLt_total {x y : String} (hxy : x ≠ y) (h : strLt x y = false) : strLt y x = true := by
  unfold strLt at h ⊢
  simp only [decide_eq_false_iff_not] at h
  simp only [decide_eq_true_eq]
  have hd : x.data ≠ y.data := fun he => hxy (String.ext he)
  rcases lt_trichotomy x.data y.data with h1 | h1 | h1
  · exact absurd h1 h
  · exact absurd h1 hd
  · exact h1

theorem lessId_total (tasks : String → Option Task) {x y : String} (hxy : x ≠ y)
    (h : lessId tasks x y = false) : lessId tasks y x = true := by
  unfold lessId at h ⊢
  split_ifs at h with h1
  · rw [if_pos (Ne.symm h1)]
    simp only [decide_eq_false_iff_not, not_lt] at h
    simp only [decide_eq_true_eq]
    exact lt_of_le_of_ne h (Ne.symm h1)
  · rw [if_neg (by rw [not_not] at h1 ⊢; exact h1.symm)]
    exact strLt_total hxy h

end MinHeap

namespace Scheduler

theorem dispatch_heap2 {s : Scheduler} {x y : String} {tx : Task}
    (hcpu : s.cpuCount = 1)
    (hroot : s.cgroups "0" = some (rootCgroup 1)) (hrq : s.rq = MinHeap.heap2 x y)
    (hxy : x ≠ y) (hx0 : x ≠ "") (hxi : x ≠ "idle") (htx : s.tasks x = some tx)
    (hst : tx.state = TaskState.RUNNABLE)
    (haff : tx.affinityMask = [true]) (hcg : tx.cgroupId = "0")
    (hb : tx.burstRemaining = 0) (vtime : Int) :
    (s.dispatch vtime).2.schedule = [x] ∧
    (s.dispatch vtime).1 =
      { s with
        tasks := Map.set s.tasks x
          { tx with lastCpu := 0, vruntime := wrap64 (tx.vruntime + s.vruntimeDelta tx) }
        maxVruntime :=
          if wrap64 (tx.vruntime + s.vruntimeDelta tx) > s.maxVruntime then
            wrap64 (tx.vruntime + s.vruntimeDelta tx)
          else s.maxVruntime
        rq :=
          if MinHeap.lessId (Map.set s.tasks x
              { tx with lastCpu := 0, vruntime := wrap64 (tx.vruntime + s.vruntimeDelta tx) })
              x y then MinHeap.heap2 x y
          else MinHeap.heap2 y x
        lastSchedule := [x] } := by
  have hsel := selectAll_heap2 hcpu hroot hrq hxy hx0 htx hst haff hcg
  have hacc := @accountAll_heap1 { s with rq := MinHeap.heap1 y } x y tx hcpu rfl hxy hxi htx
    hst hb
  unfold dispatch
  simp only [hsel]
  exact ⟨trivial, hacc⟩

theorem duoTask_delta {s : Scheduler} {q : Int} (hq : s.quanta = q)
    (hroot : s.cgroups "0" = some (rootCgroup 1)) (id : String) (n v lc : Int) :
    s.vruntimeDelta (duoTask id n v lc) = duoDelta q n := by
  unfold duoDelta vruntimeDelta effectiveWeight
  simp only [duoTask, hroot, hq, Scheduler.new, Map.set, if_true, rootCgroup]

theorem duo_lessId {s : Scheduler} {x y : String} {tx ty : Task}
    (hx : s.tasks x = some tx) (hy : s.tasks y = some ty) :
    MinHeap.lessId s.tasks x y = duoLess x y tx.vruntime ty.vruntime := by
  unfold MinHeap.lessId MinHeap.keyOf duoLess
  simp only [hx, hy]

theorem Duo.swap {q : Int} {id1 id2 : String} {n1 n2 a b : Int} {s : Scheduler}
    (h : Duo q id1 id2 n1 n2 a b s) : Duo q id2 id1 n2 n1 b a s :=
  ⟨h.cpu, h.quanta, h.root, h.second, h.first, h.rq.symm⟩

theorem Duo.root_step {q : Int} {x y : String} {nx ny a b : Int} {s : Scheduler}
    (h : Duo q x y nx ny a b s) (hrq : s.rq = MinHeap.heap2 x y) (hxy : x ≠ y)
    (hx0 : x ≠ "") (hxi : x ≠ "idle") (vtime : Int) :
    (s.dispatch vtime).2.schedule = [x] ∧
      Duo q x y nx ny (wrap64 (a + duoDelta q nx)) b (s.dispatch vtime).1 := by
  obtain ⟨lc1, h1⟩ := h.first
  obtain ⟨lc2, h2⟩ := h.second
  have hd := dispatch_heap2 h.cpu h.root hrq hxy hx0 hxi h1 rfl rfl rfl rfl vtime
  rw [duoTask_delta h.quanta h.root] at hd
  refine ⟨hd.1, ?_⟩
  rw [hd.2]
  have hy : (Map.set s.tasks x
      { duoTask x nx a lc1 with
        lastCpu := 0, vruntime := wrap64 ((duoTask x nx a lc1).vruntime + duoDelta q nx) }) y
      = some (duoTask y ny b lc2) := by
    rw [Map.set_other _ _ (Ne.symm hxy)]; exact h2
  refine ⟨h.cpu, h.quanta, h.root, ⟨0, Map.set_same _ _ _⟩, ⟨lc2, hy⟩, ?_⟩
  dsimp only
  split_ifs with hl
  · exact Or.inl ⟨rfl, MinHeap.lessId_asymm _ hl⟩
  · exact Or.inr ⟨rfl, by simpa using hl⟩

theorem Duo.tick_step {q : Int} {id1 id2 : String} {n1 n2 a b : Int} {s : Scheduler}
    (h : Duo q id1 id2 n1 n2 a b s) (hne : id1 ≠ id2)
    (h10 : id1 ≠ "") (h1i : id1 ≠ "idle") (h20 : id2 ≠ "") (h2i : id2 ≠ "idle")
    (vtime : Int) :
    (duoLess id1 id2 a b = true →
      (s.dispatch vtime).2.schedule = [id1] ∧
        Duo q id1 id2 n1 n2 (wrap64 (a + duoDelta q n1)) b (s.dispatch vtime).1) ∧
    (duoLess id1 id2 a b = false →
      (s.dispatch vtime).2.schedule = [id2] ∧
        Duo q id1 id2 n1 n2 a (wrap64 (b + duoDelta q n2)) (s.dispatch vtime).1) := by
  obtain ⟨lc1, h1⟩ := h.first
  obtain ⟨lc2, h2⟩ := h.second
  have hl12 : MinHeap.lessId s.tasks id1 id2 = duoLess id1 id2 a b := duo_lessId h1 h2
  rcases h.rq with ⟨hrq, hord⟩ | ⟨hrq, hord⟩
  · have ht : duoLess id1 id2 a b = true := by
      rw [← hl12]; exact MinHeap.lessId_total _ (Ne.symm hne) hord
    refine ⟨fun _ => h.root_step hrq hne h10 h1i vtime, fun hf => ?_⟩
    rw [ht] at hf; cases hf
  · have hf : duoLess id1 id2 a b = false := by rw [← hl12]; exact hord
    refine ⟨fun ht => ?_, fun _ => ?_⟩
    · rw [hf] at ht; cases ht
    · have := h.swap.root_step hrq (Ne.symm hne) h20 h2i vtime
      exact ⟨this.1, this.2.swap⟩

theorem runTick_nil (s : Scheduler) (vtime : Int) :
    s.runTick vtime [] = some (s.dispatch vtime) := rfl

theorem Duo.run_ticks {q : Int} {id1 id2 : String} {n1 n2 : Int} (hne : id1 ≠ id2)
    (h10 : id1 ≠ "") (h1i : id1 ≠ "idle") (h20 : id2 ≠ "") (h2i : id2 ≠ "idle") :
    ∀ (k : Nat) (a b : Int) (s : Scheduler) (vtime : Int), Duo q id1 id2 n1 n2 a b s →
      ∃ s1 outs, s.runTicks vtime (List.replicate k []) = some (s1, outs) ∧
        outs.map TickOut.schedule =
          (duoRun id1 id2 (duoDelta q n1) (duoDelta q n2) k (a, b)).1.map
            (duoSchedule id1 id2) ∧
        Duo q id1 id2 n1 n2 (duoRun id1 id2 (duoDelta q n1) (duoDelta q n2) k (a, b)).2.1
          (duoRun id1 id2 (duoDelta q n1) (duoDelta q n2) k (a, b)).2.2 s1 := by
  intro k
  induction k with
  | zero =>
    intro a b s vtime h
    exact ⟨s, [], rfl, rfl, h⟩
  | succ k ih =>
    intro a b s vtime h
    have hstep := h.tick_step hne h10 h1i h20 h2i vtime
    simp only [List.replicate_succ, runTicks, runTick_nil, Option.some_bind]
    unfold duoRun
    by_cases hl : duoLess id1 id2 a b = true
    · obtain ⟨hsch, hduo⟩ := hstep.1 hl
      obtain ⟨s1, outs, hrun, hmap, hfin⟩ := ih _ _ _ (vtime + 1) hduo
      refine ⟨s1, (s.dispatch vtime).2 :: outs, ?_, ?_, ?_⟩
      · rw [hrun]; rfl
      · simp only [hl, if_true, List.map_cons, hmap, hsch, duoSchedule]
      · simp only [hl, if_true]; exact hfin
    · have hl' : duoLess id1 id2 a b = false := by simpa using hl
      obtain ⟨hsch, hduo⟩ := hstep.2 hl'
      obtain ⟨s1, outs, hrun, hmap, hfin⟩ := ih _ _ _ (vtime + 1) hduo
      refine ⟨s1, (s.dispatch vtime).2 :: outs, ?_, ?_, ?_⟩
      · rw [hrun]; rfl
      · simp only [hl', Bool.false_eq_true, if_false, List.map_cons, hmap, hsch, duoSchedule]
      · simp only [hl', Bool.false_eq_true, if_false]; exact hfin

end Scheduler
namespace MinHeap

theorem push_heap0 (tasks : String → Option Task) (x : String) :
    heap0.push tasks x = heap1 x := by
  unfold push
  simp [heap0, heap1, contains, Map.empty, siftUp, siftUpLoop]

end MinHeap

namespace Scheduler

theorem wrap32_small {n : Int} (h1 : -20 ≤ n) (h2 : n ≤ 19) : wrap32 n = n := by
  unfold wrap32
  rw [Int.emod_eq_of_lt (by omega) (by omega)]
  omega

theorem clamp_nice_small {n : Int} (h1 : -20 ≤ n) (h2 : n ≤ 19) : clamp_nice n = n := by
  unfold clamp_nice NICE_MIN NICE_MAX
  rw [if_neg (by omega), if_neg (by omega)]

theorem taskCreate_nice (s : Scheduler) (id : String) (n : Int) (h1 : -20 ≤ n) (h2 : n ≤ 19)
    (hroot : ∃ cg, s.cgroups "0" = some cg) (hnew : s.tasks id = none)
    (hcpu : s.cpuCount = 1) :
    s.applyEvent (evCreateNice id n) =
      some { s with tasks := Map.set s.tasks id (duoTask id n s.maxVruntime (-1)),
                    rq := s.rq.push (Map.set s.tasks id (duoTask id n s.maxVruntime (-1))) id } := by
  have ha : strField (evCreateNice id n) "action" = some "TASK_CREATE" := rfl
  have hi : strField (evCreateNice id n) "taskId" = some id := rfl
  have hn : optInt (evCreateNice id n) "nice" 0 = some (wrap32 n) := rfl
  have hc : optStr (evCreateNice id n) "cgroupId" "0" = some "0" := rfl
  obtain ⟨cg, hcg⟩ := hroot
  have hex : s.taskExists id = false := by simp [taskExists, hnew]
  rw [applyEvent_create s _ ha]
  unfold taskCreate
  simp only [hi, Option.some_bind, hex, Bool.false_eq_true, if_false, hn, hc, hcg,
    Option.isNone_some, wrap32_small h1 h2, clamp_nice_small h1 h2, hcpu]
  rfl

theorem Duo.initial (q : Int) {id1 id2 : String} (n1 n2 : Int) (hne : id1 ≠ id2)
    (h11 : -20 ≤ n1) (h12 : n1 ≤ 19) (h21 : -20 ≤ n2) (h22 : n2 ≤ 19) :
    ∃ s, (Scheduler.new 1 q).applyEvents [evCreateNice id1 n1, evCreateNice id2 n2] = some s ∧
      Duo q id1 id2 n1 n2 0 0 s := by
  have hr0 : (Scheduler.new 1 q).cgroups "0" = some (rootCgroup 1) := by
    simp [Scheduler.new, Map.set]
  have e1 := taskCreate_nice (Scheduler.new 1 q) id1 n1 h11 h12 ⟨_, hr0⟩ rfl rfl
  have hp0 : (Scheduler.new 1 q).rq = MinHeap.heap0 := rfl
  rw [hp0, MinHeap.push_heap0] at e1
  have e2 := taskCreate_nice
    { Scheduler.new 1 q with
      tasks := Map.set (Scheduler.new 1 q).tasks id1 (duoTask id1 n1 (Scheduler.new 1 q).maxVruntime (-1)),
      rq := MinHeap.heap1 id1 } id2 n2 h21 h22
    ⟨_, hr0⟩
    (by simp [Scheduler.new, Map.set, Map.empty, Ne.symm hne]) rfl
  dsimp only at e2
  rw [MinHeap.push_heap1 _ (Ne.symm hne)] at e2
  have hev : (Scheduler.new 1 q).applyEvents [evCreateNice id1 n1, evCreateNice id2 n2] =
      some { Scheduler.new 1 q with
        tasks := Map.set (Map.set (Scheduler.new 1 q).tasks id1 (duoTask id1 n1 0 (-1))) id2
          (duoTask id2 n2 0 (-1)),
        rq :=
          if MinHeap.lessId (Map.set (Map.set (Scheduler.new 1 q).tasks id1
              (duoTask id1 n1 0 (-1))) id2 (duoTask id2 n2 0 (-1))) id2 id1 then
            MinHeap.heap2 id2 id1
          else MinHeap.heap2 id1 id2 } := by
    simp only [applyEvents, e1, Option.some_bind, e2]
    rfl
  refine ⟨_, hev, ?_⟩
  refine ⟨rfl, rfl, hr0, ⟨-1, ?_⟩, ⟨-1, ?_⟩, ?_⟩
  · simp [Map.set, hne, Scheduler.new]
  · simp [Map.set, Scheduler.new]
  · dsimp only
    split_ifs with hl
    · exact Or.inr ⟨rfl, MinHeap.lessId_asymm _ hl⟩
    · exact Or.inl ⟨rfl, by simpa using hl⟩

theorem wrap64_range (x : Int) : -(2 ^ 63) ≤ wrap64 x ∧ wrap64 x ≤ INT64_MAX := by
  unfold wrap64 INT64_MAX
  have h1 := Int.emod_nonneg (x + 2 ^ 63) (show (2 : Int) ^ 64 ≠ 0 by norm_num)
  have h2 := Int.emod_lt_of_pos (x + 2 ^ 63) (show (0 : Int) < 2 ^ 64 by norm_num)
  constructor <;> omega

theorem wrap64_id {x : Int} (h1 : -(2 ^ 63) ≤ x) (h2 : x ≤ INT64_MAX) : wrap64 x = x := by
  unfold INT64_MAX at h2
  unfold wrap64
  rw [Int.emod_eq_of_lt (by omega) (by omega)]
  omega

theorem duoLess_true_le {id1 id2 : String} {a b : Int} (h : duoLess id1 id2 a b = true) :
    a ≤ b := by
  unfold duoLess at h
  split_ifs at h with h1
  · simp only [decide_eq_true_eq] at h; exact le_of_lt h
  · rw [not_not] at h1; exact le_of_eq h1

theorem duoLess_false_le {id1 id2 : String} {a b : Int} (h : duoLess id1 id2 a b = false) :
    b ≤ a := by
  unfold duoLess at h
  split_ifs at h with h1
  · simp only [decide_eq_false_iff_not, not_lt] at h; exact h
  · rw [not_not] at h1; exact le_of_eq h1.symm

theorem duoRun_length (id1 id2 : String) (d1 d2 : Int) : ∀ (k : Nat) (st : Int × Int),
    (duoRun id1 id2 d1 d2 k st).1.length = k := by
  intro k
  induction k with
  | zero => intro st; rfl
  | succ k ih =>
    intro st
    unfold duoRun
    split_ifs
    · simp [ih]
    · simp [ih]

theorem duoRun_count (id1 id2 : String) (d1 d2 : Int) (k : Nat) (st : Int × Int) :
    (duoRun id1 id2 d1 d2 k st).1.count true + (duoRun id1 id2 d1 d2 k st).1.count false = k := by
  have h := duoRun_length id1 id2 d1 d2 k st
  have := List.count_true_add_count_false (duoRun id1 id2 d1 d2 k st).1
  omega

/-- The two vruntimes stay within `D = max d1 d2` of each other and equal the deltas
times the tick counts, as long as no addition can wrap. -/
theorem duoRun_balance (id1 id2 : String) {d1 d2 D : Int} (hd1 : 1 ≤ d1) (hd2 : 1 ≤ d2)
    (hD1 : d1 ≤ D) (hD2 : d2 ≤ D) : ∀ (k : Nat) (a b : Int),
    0 ≤ a → 0 ≤ b → a + (k : Int) * D ≤ INT64_MAX → b + (k : Int) * D ≤ INT64_MAX →
    |a - b| ≤ D →
    (duoRun id1 id2 d1 d2 k (a, b)).2.1 =
      a + ((duoRun id1 id2 d1 d2 k (a, b)).1.count true : Int) * d1 ∧
    (duoRun id1 id2 d1 d2 k (a, b)).2.2 =
      b + ((duoRun id1 id2 d1 d2 k (a, b)).1.count false : Int) * d2 ∧
    |(duoRun id1 id2 d1 d2 k (a, b)).2.1 - (duoRun id1 id2 d1 d2 k (a, b)).2.2| ≤ D := by
  intro k
  induction k with
  | zero =>
    intro a b _ _ _ _ hab
    simp [duoRun, hab]
  | succ k ih =>
    intro a b ha hb hA hB hab
    have hk : ((k + 1 : Nat) : Int) * D = (k : Int) * D + D := by push_cast; ring
    rw [hk] at hA hB
    have hkD : 0 ≤ (k : Int) * D := mul_nonneg (Int.natCast_nonneg k) (by omega)
    rw [abs_le] at hab
    unfold duoRun
    by_cases hl : duoLess id1 id2 a b = true
    · have hle := duoLess_true_le hl
      have hw : wrap64 (a + d1) = a + d1 :=
        wrap64_id (by omega) (by unfold INT64_MAX at hA ⊢; omega)
      simp only [hl, if_true, hw, List.count_cons_self, List.count_cons_of_ne (by decide : true ≠ false)]
      have := ih (a + d1) b (by omega) hb (by omega) (by omega) (by rw [abs_le]; constructor <;> omega)
      obtain ⟨e1, e2, e3⟩ := this
      refine ⟨?_, e2, e3⟩
      rw [e1]; push_cast; ring
    · have hl' : duoLess id1 id2 a b = false := by simpa using hl
      have hle := duoLess_false_le hl'
      have hw : wrap64 (b + d2) = b + d2 :=
        wrap64_id (by omega) (by unfold INT64_MAX at hB ⊢; omega)
      simp only [hl', Bool.false_eq_true, if_false, hw, List.count_cons_self,
        List.count_cons_of_ne (by decide : false ≠ true)]
      have := ih a (b + d2) ha (by omega) (by omega) (by omega) (by rw [abs_le]; constructor <;> omega)
      obtain ⟨e1, e2, e3⟩ := this
      refine ⟨e1, ?_, e3⟩
      rw [e2]; push_cast; ring

theorem ticksOf_flags {id1 id2 : String} (hne : id1 ≠ id2) :
    ∀ (outs : List TickOut) (flags : List Bool),
      outs.map TickOut.schedule = flags.map (duoSchedule id1 id2) →
      ticksOf id1 outs = flags.count true ∧ ticksOf id2 outs = flags.count false := by
  intro outs
  induction outs with
  | nil =>
    intro flags h
    cases flags with
    | nil => exact ⟨rfl, rfl⟩
    | cons f fs => simp at h
  | cons o os ih =>
    intro flags h
    cases flags with
    | nil => simp at h
    | cons f fs =>
      simp only [List.map_cons, List.cons.injEq] at h
      obtain ⟨ho, hos⟩ := h
      obtain ⟨i1, i2⟩ := ih fs hos
      unfold ticksOf at i1 i2 ⊢
      cases f with
      | true =>
        have h1 : decide (id1 ∈ o.schedule) = true := by simp [ho, duoSchedule]
        have h2 : decide (id2 ∈ o.schedule) = false := by
          simp [ho, duoSchedule, Ne.symm hne]
        simp [List.countP_cons, h1, h2, i1, i2]
      | false =>
        have h1 : decide (id1 ∈ o.schedule) = false := by simp [ho, duoSchedule, hne]
        have h2 : decide (id2 ∈ o.schedule) = true := by simp [ho, duoSchedule]
        simp [List.countP_cons, h1, h2, i1, i2]

theorem weightRun_flags (q : Int) {id1 id2 : String} (n1 n2 : Int) (hne : id1 ≠ id2)
    (h10 : id1 ≠ "") (h1i : id1 ≠ "idle") (h20 : id2 ≠ "") (h2i : id2 ≠ "idle")
    (h11 : -20 ≤ n1) (h12 : n1 ≤ 19) (h21 : -20 ≤ n2) (h22 : n2 ≤ 19) (N : Nat) :
    (weightRun q id1 n1 id2 n2 N).map TickOut.schedule =
      (duoRun id1 id2 (duoDelta q n1) (duoDelta q n2) N (0, 0)).1.map (duoSchedule id1 id2) := by
  cases N with
  | zero => rfl
  | succ k =>
    obtain ⟨s0, hev, hduo⟩ := Duo.initial q n1 n2 hne h11 h12 h21 h22
    obtain ⟨s1, outs, hrun, hmap, -⟩ :=
      Duo.run_ticks hne h10 h1i h20 h2i (k + 1) 0 0 s0 0 hduo
    have hsame : (Scheduler.new 1 q).runTicks 0 (weightBatches id1 n1 id2 n2 (k + 1)) =
        s0.runTicks 0 (List.replicate (k + 1) []) := by
      have hrt : (Scheduler.new 1 q).runTick 0 [evCreateNice id1 n1, evCreateNice id2 n2] =
          some (s0.dispatch 0) := by
        unfold runTick; rw [hev]; rfl
      simp only [weightBatches, List.replicate_succ, runTicks, hrt, runTick_nil]
    unfold weightRun
    rw [hsame, hrun]
    exact hmap

theorem nice_to_weight_range {n : Int} (h1 : -20 ≤ n) (h2 : n ≤ 19) :
    15 ≤ nice_to_weight n ∧ nice_to_weight n ≤ 88761 := by
  interval_cases n <;> decide

theorem duoDelta_pos (q n : Int) : 1 ≤ duoDelta q n := vruntimeDelta_pos _ _

theorem duoDelta_eq {q n : Int} (hq1 : 1 ≤ q) (hq2 : q * 1024 ≤ INT64_MAX) (h1 : -20 ≤ n)
    (h2 : n ≤ 19) : duoDelta q n = max 1 (q * 1024 / nice_to_weight n) := by
  obtain ⟨w1, w2⟩ := nice_to_weight_range h1 h2
  have hroot : (Scheduler.new 1 q).cgroups (duoTask "" n 0 (-1)).cgroupId = some (rootCgroup 1) := by
    simp [Scheduler.new, Map.set, duoTask]
  have hew : (Scheduler.new 1 q).effectiveWeight (duoTask "" n 0 (-1)) = nice_to_weight n := by
    unfold effectiveWeight
    simp only [hroot, rootCgroup]
    have : Int.tdiv ((duoTask "" n 0 (-1)).weight * 1024) 1024 = nice_to_weight n := by
      simp [duoTask, Int.mul_tdiv_cancel]
    rw [this, if_neg (by omega), if_neg (by omega)]
  unfold duoDelta vruntimeDelta
  simp only [hew]
  have hnum : wrap64 ((Scheduler.new 1 q).quanta * NICE_0_LOAD) = q * 1024 :=
    wrap64_id (by show -(2 ^ 63) ≤ q * 1024; omega) hq2
  rw [hnum, Int.tdiv_eq_ediv (by omega) (by omega)]
  have hnn : 0 ≤ q * 1024 / nice_to_weight n := Int.ediv_nonneg (by omega) (by omega)
  split_ifs with h
  · exact (max_eq_left (by omega)).symm
  · exact (max_eq_right (by omega)).symm

theorem duoRun_second_bounded {id1 id2 : String} (hlt : MinHeap.strLt id1 id2 = true) :
    ∀ (k : Nat) (a b : Int), -(2 ^ 63) ≤ a → a ≤ INT64_MAX → -(2 ^ 63) ≤ b → b ≤ INT64_MAX →
      b + ((duoRun id1 id2 1 1 k (a, b)).1.count false : Int) ≤ INT64_MAX := by
  intro k
  induction k with
  | zero => intro a b _ _ _ hb; simpa [duoRun] using hb
  | succ k ih =>
    intro a b ha1 ha2 hb1 hb2
    unfold duoRun
    by_cases hl : duoLess id1 id2 a b = true
    · simp only [hl, if_true, List.count_cons_of_ne (by decide : true ≠ false)]
      exact ih _ b (wrap64_range _).1 (wrap64_range _).2 hb1 hb2
    · have hl' : duoLess id1 id2 a b = false := by simpa using hl
      have hba : b < a := by
        unfold duoLess at hl'
        split_ifs at hl' with h1
        · simp only [decide_eq_false_iff_not, not_lt] at hl'
          exact lt_of_le_of_ne hl' (Ne.symm h1)
        · rw [hlt] at hl'; cases hl'
      have hw : wrap64 (b + 1) = b + 1 := wrap64_id (by omega) (by omega)
      simp only [hl', Bool.false_eq_true, if_false, hw, List.count_cons_self]
      have := ih a (b + 1) ha1 ha2 (by omega) (by omega)
      push_cast
      omega

/-! ## C7: weight law -/

set_option maxRecDepth 1000000 in
/-- C7 as stated fails at quanta = 1, n1 = -20, n2 = 0.  Both deltas are floored to 1,
so the tasks alternate: in the first 20 ticks each is scheduled 10 times, whereas
W[-20]/W[0] = 88761/1024; and `|c1(N) * W[0] - c2(N) * W[-20]|` has no bound that is
independent of `N`. -/
theorem c7_weight_law_fails :
    ticksOf "A" (weightRun 1 "A" (-20) "B" 0 20) = 10 ∧
    ticksOf "B" (weightRun 1 "A" (-20) "B" 0 20) = 10 ∧
    ¬ ∃ K : Int, ∀ N : Nat,
      |(ticksOf "A" (weightRun 1 "A" (-20) "B" 0 N) : Int) * nice_to_weight 0 -
        (ticksOf "B" (weightRun 1 "A" (-20) "B" 0 N) : Int) * nice_to_weight (-20)| ≤ K := by
  refine ⟨by decide, by decide, ?_⟩
  rintro ⟨K, hK⟩
  have hfl := fun N => weightRun_flags 1 (-20) 0 (by decide : ("A" : String) ≠ "B")
    (by decide) (by decide) (by decide) (by decide) (by decide) (by decide) (by decide)
    (by decide) N
  have hd1 : duoDelta 1 (-20) = 1 := by decide
  have hd2 : duoDelta 1 0 = 1 := by decide
  have hw0 : nice_to_weight 0 = 1024 := by decide
  have hw20 : nice_to_weight (-20) = 88761 := by decide
  have hN := hK (K.toNat + 89785 * 2 ^ 63)
  have hf := hfl (K.toNat + 89785 * 2 ^ 63)
  rw [hd1, hd2] at hf
  obtain ⟨c1, c2⟩ := ticksOf_flags (by decide : ("A" : String) ≠ "B") _ _ hf
  have hsum := duoRun_count "A" "B" 1 1 (K.toNat + 89785 * 2 ^ 63) (0, 0)
  have hb := duoRun_second_bounded (by decide : MinHeap.strLt "A" "B" = true)
    (K.toNat + 89785 * 2 ^ 63) 0 0 (by norm_num) (by unfold INT64_MAX; norm_num)
    (by norm_num) (by unfold INT64_MAX; norm_num)
  rw [c1, c2, hw0, hw20, abs_le] at hN
  unfold INT64_MAX at hb
  have hsum' : ((List.count true (duoRun "A" "B" 1 1 (K.toNat + 89785 * 2 ^ 63) (0, 0)).1 : Nat) : Int) +
      ((List.count false (duoRun "A" "B" 1 1 (K.toNat + 89785 * 2 ^ 63) (0, 0)).1 : Nat) : Int) =
      ((K.toNat + 89785 * 2 ^ 63 : Nat) : Int) := by
    exact_mod_cast hsum
  push_cast at hsum'
  have hK0 : K ≤ (K.toNat : Int) := Int.self_le_toNat K
  omega

/-- C7, amended (weight law in terms of the deltas).  On a one-CPU scheduler, for every
quanta, two distinct task ids other than "" and "idle" and nice values `n1`, `n2` in
[-20, 19], with both tasks created in the first batch and all later batches empty:
for every `N` with `N * max d1 d2` within the signed 64-bit range, the run of `N`
ticks writes `N` records, exactly one of the two tasks is scheduled on each tick,
and `|c1(N) * d1 - c2(N) * d2| ≤ max d1 d2`, where `d1`, `d2` are the vruntime
deltas of the two tasks; for `quanta ≥ 1` with `quanta * 1024` within 64 bits these
are `max 1 (quanta * 1024 / W[n])`.  So `c1(N) / c2(N)` approaches `d2 / d1`. -/
theorem c7_weight_law_by_delta (q : Int) (id1 id2 : String) (n1 n2 : Int) (hne : id1 ≠ id2)
    (h10 : id1 ≠ "") (h1i : id1 ≠ "idle") (h20 : id2 ≠ "") (h2i : id2 ≠ "idle")
    (h11 : -20 ≤ n1) (h12 : n1 ≤ 19) (h21 : -20 ≤ n2) (h22 : n2 ≤ 19) (N : Nat)
    (hN : (N : Int) * max (duoDelta q n1) (duoDelta q n2) ≤ INT64_MAX) :
    (weightRun q id1 n1 id2 n2 N).length = N ∧
    ticksOf id1 (weightRun q id1 n1 id2 n2 N) + ticksOf id2 (weightRun q id1 n1 id2 n2 N) = N ∧
    |(ticksOf id1 (weightRun q id1 n1 id2 n2 N) : Int) * duoDelta q n1 -
      (ticksOf id2 (weightRun q id1 n1 id2 n2 N) : Int) * duoDelta q n2| ≤
        max (duoDelta q n1) (duoDelta q n2) ∧
    (1 ≤ q → q * 1024 ≤ INT64_MAX →
      duoDelta q n1 = max 1 (q * 1024 / nice_to_weight n1) ∧
      duoDelta q n2 = max 1 (q * 1024 / nice_to_weight n2)) := by
  have hf := weightRun_flags q n1 n2 hne h10 h1i h20 h2i h11 h12 h21 h22 N
  obtain ⟨c1, c2⟩ := ticksOf_flags hne _ _ hf
  have hlen : (weightRun q id1 n1 id2 n2 N).length = N := by
    have := congrArg List.length hf
    simpa [duoRun_length] using this
  have hsum := duoRun_count id1 id2 (duoDelta q n1) (duoDelta q n2) N (0, 0)
  have hbal := duoRun_balance id1 id2 (duoDelta_pos q n1) (duoDelta_pos q n2)
    (le_max_left (duoDelta q n1) (duoDelta q n2)) (le_max_right _ _) N 0 0 (le_refl _)
    (le_refl _) (by simpa using hN) (by simpa using hN)
    (by simp only [sub_self, abs_zero]; exact le_trans (by norm_num) (le_trans (duoDelta_pos q n1) (le_max_left _ _)))
  obtain ⟨e1, e2, e3⟩ := hbal
  refine ⟨hlen, by rw [c1, c2]; exact hsum, ?_, fun hq1 hq2 =>
    ⟨duoDelta_eq hq1 hq2 h11 h12, duoDelta_eq hq1 hq2 h21 h22⟩⟩
  rw [c1, c2]
  rw [e1, e2] at e3
  simpa using e3

set_option maxRecDepth 1000000 in
/-- C7 (amended) applied to quanta = 1024, the tasks "A" (nice -5) and "B" (nice 0) and
N = 12 ticks; the deltas are 335 and 1024. -/
theorem c7_weight_law_by_delta_witness :
    duoDelta 1024 (-5) = 335 ∧ duoDelta 1024 0 = 1024 ∧
    (weightRun 1024 "A" (-5) "B" 0 12).length = 12 ∧
    ticksOf "A" (weightRun 1024 "A" (-5) "B" 0 12) +
      ticksOf "B" (weightRun 1024 "A" (-5) "B" 0 12) = 12 ∧
    |(ticksOf "A" (weightRun 1024 "A" (-5) "B" 0 12) : Int) * duoDelta 1024 (-5) -
      (ticksOf "B" (weightRun 1024 "A" (-5) "B" 0 12) : Int) * duoDelta 1024 0| ≤
        max (duoDelta 1024 (-5)) (duoDelta 1024 0) :=
  have h := c7_weight_law_by_delta 1024 "A" "B" (-5) 0 (by decide) (by decide) (by decide)
    (by decide) (by decide) (by decide) (by decide) (by decide) (by decide) 12 (by decide)
  ⟨by decide, by decide, h.1, h.2.1, h.2.2.1⟩

end Scheduler

/-! ## The loop counters are never exhausted -/

namespace MinHeap

/-- More iterations than `i` change nothing for `siftUp(i)`: the loop has exited. -/
theorem siftUpLoop_fuel (tasks : String → Option Task) :
    ∀ (i fuel : Nat) (h : MinHeap), i ≤ fuel →
      siftUpLoop tasks fuel h i = siftUpLoop tasks i h i := by
  intro i
  induction i using Nat.strong_induction_on with
  | _ i ih =>
    intro fuel h hle
    cases i with
    | zero =>
      cases fuel with
      | zero => rfl
      | succ f => simp [siftUpLoop]
    | succ j =>
      cases fuel with
      | zero => omega
      | succ f =>
        have hp : (j + 1 - 1) / 2 < j + 1 := by omega
        have hpj : (j + 1 - 1) / 2 ≤ j := by omega
        have hpf : (j + 1 - 1) / 2 ≤ f := by omega
        unfold siftUpLoop
        simp only [gt_iff_lt, Nat.zero_lt_succ, if_true]
        split_ifs
        · rw [ih _ hp f _ hpf, ih _ hp j _ hpj]
        · rfl

/-- More iterations than `a.size() - i` change nothing for `siftDown(i)`. -/
theorem siftDownLoop_fuel (tasks : String → Option Task) :
    ∀ (m fuel : Nat) (h : MinHeap) (i : Nat), h.a.length - i ≤ m → m ≤ fuel →
      siftDownLoop tasks fuel h i = siftDownLoop tasks m h i := by
  intro m
  induction m with
  | zero =>
    intro fuel h i hm _
    have hs : smallestOf tasks h i = i := by
      rcases smallestOf_cases tasks h i with he | ⟨h1, h2⟩
      · exact he
      · omega
    cases fuel with
    | zero => rfl
    | succ f => simp [siftDownLoop, hs]
  | succ m ih =>
    intro fuel h i hm hle
    cases fuel with
    | zero => omega
    | succ f =>
      unfold siftDownLoop
      dsimp only
      split_ifs with hs
      · rcases smallestOf_cases tasks h i with he | ⟨h1, h2⟩
        · exact absurd he hs
        · exact ih f _ _ (by rw [swapAt_length]; omega) (by omega)
      · rfl

end MinHeap

namespace Scheduler

/-- More iterations than the runqueue has entries change nothing for the pick loop: on
a consistent state every iteration pops one id, and the loop exits on the empty
runqueue. -/
theorem pickLoop_fuel (cpu : Nat) : ∀ (m fuel : Nat) (s : Scheduler) (stashed : List String),
    s.Consistent → s.rq.a.length ≤ m → m ≤ fuel →
      pickLoop cpu fuel s stashed = pickLoop cpu m s stashed := by
  intro m
  induction m with
  | zero =>
    intro fuel s stashed _ hm _
    have hemp : s.rq.empty = true := by
      have : s.rq.a = [] := List.eq_nil_of_length_eq_zero (by omega)
      simp [MinHeap.empty, this]
    cases fuel with
    | zero => rfl
    | succ f => simp [pickLoop, hemp]
  | succ m ih =>
    intro fuel s stashed hC hm hle
    cases fuel with
    | zero => omega
    | succ f =>
      unfold pickLoop
      by_cases hemp : s.rq.empty = true
      · rw [if_pos hemp, if_pos hemp]
      · rw [if_neg hemp, if_neg hemp]
        have hemp' : s.rq.a.isEmpty = false := by simpa [MinHeap.empty] using hemp
        have hp := popMin_spec s.tasks hC.indexOk hemp'
        have hsub : ∀ x, (s.rq.popMin s.tasks).2.contains x = true →
            ∃ t, s.tasks x = some t := by
          intro x hx
          rw [hp.2.1 x] at hx
          simp only [Bool.and_eq_true] at hx
          exact hC.queued x hx.1
        have hC1 : ({ s with rq := (s.rq.popMin s.tasks).2 } : Scheduler).Consistent :=
          hC.withRq hp.1 hsub
        have hlen : (s.rq.popMin s.tasks).2.a.length ≤ m := by omega
        have hR1 : ({ s with rq := (s.rq.popMin s.tasks).2 } : Scheduler).HasRoot := hC.hasRoot
        have key : ∀ st, pickLoop cpu f { s with rq := (s.rq.popMin s.tasks).2 } st =
            pickLoop cpu m { s with rq := (s.rq.popMin s.tasks).2 } st :=
          fun st => ih f _ st hC1 hlen (by omega)
        dsimp only
        cases hT : s.tasks (s.rq.popMin s.tasks).1 with
        | none => exact key stashed
        | some t =>
          dsimp only
          rw [cgroupOrRoot_snd hR1, canTaskRunOnCPU_snd hR1]
          split_ifs
          · exact key _
          · exact key _
          · exact key _
          · rfl
          · exact key _

end Scheduler
end Alfs

namespace Alfs

namespace Scheduler

end Scheduler

end Alfs

namespace Alfs

namespace Scheduler

theorem taskCreate_change {s s' : Scheduler} {e : Json} (h : s.taskCreate e = some s') :
    Change s s' := by
  simp only [taskCreate, Option.bind_eq_some] at h
  obtain ⟨id, -, h⟩ := h
  split at h
  · cases h; exact Change.same
  · rename_i hex
    simp only [Option.bind_eq_some] at h
    obtain ⟨nice0, -, cg0, -, h⟩ := h
    cases h
    refine Change.create id _ ?_ rfl rfl ?_
    · simpa [taskExists] using hex
    · dsimp only
      cases hcg : s.cgroups cg0 with
      | none => left; simp
      | some cg => right; exact ⟨cg, by simp [hcg]⟩

theorem taskExit_change {s s' : Scheduler} {e : Json} (h : s.taskExit e = some s') :
    Change s s' := by
  simp only [taskExit, Option.bind_eq_some] at h
  obtain ⟨id, -, h⟩ := h
  split at h
  · cases h; exact Change.same
  · rename_i t ht
    cases h
    exact Change.leave id t TaskState.EXITED ht (by decide) (fun _ => rfl)

theorem taskBlock_change {s s' : Scheduler} {e : Json} (h : s.taskBlock e = some s') :
    Change s s' := by
  simp only [taskBlock, Option.bind_eq_some] at h
  obtain ⟨id, -, h⟩ := h
  split at h
  · cases h; exact Change.same
  · rename_i t ht
    by_cases c1 : t.state = TaskState.EXITED
    · rw [if_pos c1] at h; cases h; exact Change.same
    rw [if_neg c1] at h
    by_cases c2 : t.burstRemaining > 0
    · rw [if_pos c2] at h; cases h; exact Change.same
    rw [if_neg c2] at h
    cases h
    exact Change.leave id t TaskState.BLOCKED ht (by decide) (fun hx => absurd hx c1)

theorem ensureTaskMasks_static (s : Scheduler) (t : Task) :
    (s.ensureTaskMasks t).state = t.state ∧ (s.ensureTaskMasks t).cgroupId = t.cgroupId ∧
      (s.ensureTaskMasks t).lastCpu = t.lastCpu := by
  unfold ensureTaskMasks; split <;> exact ⟨rfl, rfl, rfl⟩

theorem taskUnblock_change {s s' : Scheduler} {e : Json} (h : s.taskUnblock e = some s') :
    Change s s' := by
  simp only [taskUnblock, Option.bind_eq_some] at h
  obtain ⟨id, -, h⟩ := h
  split at h
  · cases h; exact Change.same
  · rename_i t ht
    by_cases c1 : t.state = TaskState.EXITED
    · rw [if_pos c1] at h; cases h; exact Change.same
    rw [if_neg c1] at h
    cases h
    have hs := ensureTaskMasks_static s
      { t with vruntime := s.maxVruntime, state := TaskState.RUNNABLE }
    exact Change.wake id t _ ht c1 hs.1 hs.2.1 hs.2.2

theorem taskYield_change {s s' : Scheduler} {e : Json} (h : s.taskYield e = some s') :
    Change s s' := by
  simp only [taskYield, Option.bind_eq_some] at h
  obtain ⟨id, -, h⟩ := h
  split at h
  · cases h; exact Change.same
  · rename_i t ht
    by_cases c1 : t.state ≠ TaskState.RUNNABLE
    · rw [if_pos c1] at h; cases h; exact Change.same
    rw [if_neg c1] at h
    cases h
    have hst : t.state = TaskState.RUNNABLE := not_not.1 c1
    refine Change.modify id t _ _ ht (by rw [hst]; decide) rfl rfl (Or.inl rfl) ?_
    split
    · exact Or.inr rfl
    · exact Or.inl rfl

theorem taskSetnice_change {s s' : Scheduler} {e : Json} (h : s.taskSetnice e = some s') :
    Change s s' := by
  simp only [taskSetnice, Option.bind_eq_some] at h
  obtain ⟨id, -, nn, -, h⟩ := h
  split at h
  · cases h; exact Change.same
  · rename_i t ht
    by_cases c1 : t.state = TaskState.EXITED
    · rw [if_pos c1] at h; cases h; exact Change.same
    rw [if_neg c1] at h
    cases h
    refine Change.modify id t _ _ ht c1 rfl rfl (Or.inl rfl) ?_
    split
    · exact Or.inr rfl
    · exact Or.inl rfl

theorem taskSetAffinity_change {s s' : Scheduler} {e : Json}
    (h : s.taskSetAffinity e = some s') : Change s s' := by
  simp only [taskSetAffinity, Option.bind_eq_some] at h
  obtain ⟨id, -, h⟩ := h
  split at h
  · cases h; exact Change.same
  · rename_i t ht
    by_cases c1 : t.state = TaskState.EXITED
    · rw [if_pos c1] at h; cases h; exact Change.same
    rw [if_neg c1] at h
    simp only [Option.bind_eq_some] at h
    obtain ⟨arr, -, m, -, h⟩ := h
    cases h
    exact Change.modify id t _ s.rq ht c1 rfl rfl (Or.inl rfl) (Or.inl rfl)

theorem cgroupCreate_change {s s' : Scheduler} {e : Json} (h : s.cgroupCreate e = some s') :
    Change s s' := by
  simp only [cgroupCreate, Option.bind_eq_some] at h
  obtain ⟨id, -, a, -, b, -, c, -, m, -, h⟩ := h
  cases h
  exact Change.cgroup id _

theorem cgroupModify_change {s s' : Scheduler} {e : Json} (h : s.cgroupModify e = some s') :
    Change s s' := by
  simp only [cgroupModify, Option.bind_eq_some] at h
  obtain ⟨id, -, a, -, b, -, c, -, m, -, h⟩ := h
  cases h
  exact Change.cgroup id _

theorem cgroupDelete_change {s s' : Scheduler} {e : Json} (h : s.cgroupDelete e = some s') :
    Change s s' := by
  simp only [cgroupDelete, Option.bind_eq_some] at h
  obtain ⟨id, -, h⟩ := h
  by_cases c1 : id = "0"
  · rw [if_pos c1] at h; cases h; exact Change.same
  rw [if_neg c1] at h
  cases h
  exact Change.cgroupDel id c1

theorem taskMoveCgroup_change {s s' : Scheduler} {e : Json}
    (h : s.taskMoveCgroup e = some s') : Change s s' := by
  simp only [taskMoveCgroup, Option.bind_eq_some] at h
  obtain ⟨id, -, cg, -, h⟩ := h
  split at h
  · cases h; exact Change.same
  · rename_i t ht
    by_cases c1 : t.state = TaskState.EXITED
    · rw [if_pos c1] at h; cases h; exact Change.same
    rw [if_neg c1] at h
    cases h
    refine Change.modify id t _ s.rq ht c1 rfl rfl ?_ (Or.inl rfl)
    dsimp only
    cases hcg : s.cgroups cg with
    | none => right; left; simp
    | some g => right; right; exact ⟨g, by simp [hcg]⟩

theorem CpuBurst_change {s s' : Scheduler} {e : Json} (h : s.CpuBurst e = some s') :
    Change s s' := by
  simp only [CpuBurst, Option.bind_eq_some] at h
  obtain ⟨id, -, dur, -, h⟩ := h
  split at h
  · cases h; exact Change.same
  · rename_i t ht
    by_cases c1 : t.state = TaskState.EXITED
    · rw [if_pos c1] at h; cases h; exact Change.same
    rw [if_neg c1] at h
    cases h
    exact Change.modify id t _ s.rq ht c1 rfl rfl (Or.inl rfl) (Or.inl rfl)

/-- An applied event is the call of one handler, or does nothing. -/
theorem applyEvent_handler {s s' : Scheduler} {e : Json} (h : s.applyEvent e = some s') :
    s.taskCreate e = some s' ∨ s.taskExit e = some s' ∨ s.taskBlock e = some s' ∨
    s.taskUnblock e = some s' ∨ s.taskYield e = some s' ∨ s.taskSetnice e = some s' ∨
    s.taskSetAffinity e = some s' ∨ s.cgroupCreate e = some s' ∨ s.cgroupModify e = some s' ∨
    s.cgroupDelete e = some s' ∨ s.taskMoveCgroup e = some s' ∨ s.CpuBurst e = some s' ∨
    s' = s := by
  unfold applyEvent at h
  obtain ⟨action, -, h⟩ := Option.bind_eq_some.mp h
  by_cases c1 : action = "TASK_CREATE"
  · rw [if_pos c1] at h; tauto
  rw [if_neg c1] at h
  by_cases c2 : action = "TASK_EXIT"
  · rw [if_pos c2] at h; tauto
  rw [if_neg c2] at h
  by_cases c3 : action = "TASK_BLOCK"
  · rw [if_pos c3] at h; tauto
  rw [if_neg c3] at h
  by_cases c4 : action = "TASK_UNBLOCK"
  · rw [if_pos c4] at h; tauto
  rw [if_neg c4] at h
  by_cases c5 : action = "TASK_YIELD"
  · rw [if_pos c5] at h; tauto
  rw [if_neg c5] at h
  by_cases c6 : action = "TASK_SETNICE"
  · rw [if_pos c6] at h; tauto
  rw [if_neg c6] at h
  by_cases c7 : action = "TASK_SET_AFFINITY"
  · rw [if_pos c7] at h; tauto
  rw [if_neg c7] at h
  by_cases c8 : action = "CGROUP_CREATE"
  · rw [if_pos c8] at h; tauto
  rw [if_neg c8] at h
  by_cases c9 : action = "CGROUP_MODIFY"
  · rw [if_pos c9] at h; tauto
  rw [if_neg c9] at h
  by_cases c10 : action = "CGROUP_DELETE"
  · rw [if_pos c10] at h; tauto
  rw [if_neg c10] at h
  by_cases c11 : action = "TASK_MOVE_CGROUP"
  · rw [if_pos c11] at h; tauto
  rw [if_neg c11] at h
  by_cases c12 : action = "CPU_BURST"
  · rw [if_pos c12] at h; tauto
  rw [if_neg c12] at h
  cases h; tauto

theorem applyEvent_change {s s' : Scheduler} {e : Json} (h : s.applyEvent e = some s') :
    Change s s' := by
  rcases applyEvent_handler h with h | h | h | h | h | h | h | h | h | h | h | h | h
  · exact taskCreate_change h
  · exact taskExit_change h
  · exact taskBlock_change h
  · exact taskUnblock_change h
  · exact taskYield_change h
  · exact taskSetnice_change h
  · exact taskSetAffinity_change h
  · exact cgroupCreate_change h
  · exact cgroupModify_change h
  · exact cgroupDelete_change h
  · exact taskMoveCgroup_change h
  · exact CpuBurst_change h
  · rw [h]; exact Change.same

end Scheduler

end Alfs

namespace Alfs

namespace Scheduler

theorem Change.keeps_lifecycle {s s' : Scheduler} (hC : s.Consistent)
    (hQ : s.QueuedRunnable) (hL : s.LiveCgroupRefs) (hP : s.LastCpuOk) (hE : Change s s') :
    s'.QueuedRunnable ∧ s'.LiveCgroupRefs ∧ s'.LastCpuOk := by
  obtain ⟨root, hroot⟩ := hC.hasRoot
  cases hE with
  | same => exact ⟨hQ, hL, hP⟩
  | create id t1 hnew hst hlc hcg =>
    have hp := MinHeap.push_spec (Map.set s.tasks id t1) hC.indexOk id
    refine ⟨?_, ?_, ?_⟩
    · intro x hx
      by_cases hxi : x = id
      · exact ⟨t1, by simp [Map.set, hxi], hst⟩
      · rw [hp.2.1 x] at hx
        simp only [Bool.or_eq_true, decide_eq_true_eq, hxi, or_false] at hx
        obtain ⟨t, ht, hr⟩ := hQ x hx
        exact ⟨t, by simp [Map.set, hxi, ht], hr⟩
    · intro x t hx hne
      by_cases hxi : x = id
      · subst hxi
        simp only [Map.set_same, Option.some.injEq] at hx
        subst hx
        rcases hcg with h | h
        · exact ⟨root, by rw [h]; exact hroot⟩
        · exact h
      · simp only [Map.set_other _ _ hxi] at hx
        exact hL x t hx hne
    · intro x t hx
      by_cases hxi : x = id
      · subst hxi
        simp only [Map.set_same, Option.some.injEq] at hx
        subst hx
        rw [hlc]
      · simp only [Map.set_other _ _ hxi] at hx
        exact hP x t hx
  | leave id t st ht hst hex =>
    refine ⟨?_, ?_, ?_⟩
    · intro x hx
      have hx2 : s.rq.contains x = true ∧ x ≠ id := by
        dsimp only at hx
        by_cases hc : s.rq.contains id = true
        · rw [if_pos hc, (MinHeap.remove_spec s.tasks hC.indexOk id).2.1 x] at hx
          simpa using hx
        · rw [if_neg hc] at hx
          refine ⟨hx, fun h => hc (h ▸ hx)⟩
      obtain ⟨t0, ht0, hr⟩ := hQ x hx2.1
      exact ⟨t0, by simp [Map.set, hx2.2, ht0], hr⟩
    · intro x t0 hx hne
      by_cases hxi : x = id
      · subst hxi
        simp only [Map.set_same, Option.some.injEq] at hx
        subst hx
        exact hL x t ht (fun h => hne (hex h))
      · simp only [Map.set_other _ _ hxi] at hx
        exact hL x t0 hx hne
    · intro x t0 hx
      by_cases hxi : x = id
      · subst hxi
        simp only [Map.set_same, Option.some.injEq] at hx
        subst hx
        exact hP x t ht
      · simp only [Map.set_other _ _ hxi] at hx
        exact hP x t0 hx
  | wake id t t1 ht hne hst hcg hlc =>
    have hp := MinHeap.push_spec (Map.set s.tasks id t1) hC.indexOk id
    refine ⟨?_, ?_, ?_⟩
    · intro x hx
      by_cases hxi : x = id
      · exact ⟨t1, by simp [Map.set, hxi], hst⟩
      · rw [hp.2.1 x] at hx
        simp only [Bool.or_eq_true, decide_eq_true_eq, hxi, or_false] at hx
        obtain ⟨t0, ht0, hr⟩ := hQ x hx
        exact ⟨t0, by simp [Map.set, hxi, ht0], hr⟩
    · intro x t0 hx hne0
      by_cases hxi : x = id
      · subst hxi
        simp only [Map.set_same, Option.some.injEq] at hx
        subst hx
        rw [hcg]
        exact hL x t ht hne
      · simp only [Map.set_other _ _ hxi] at hx
        exact hL x t0 hx hne0
    · intro x t0 hx
      by_cases hxi : x = id
      · subst hxi
        simp only [Map.set_same, Option.some.injEq] at hx
        subst hx
        rw [hlc]
        exact hP x t ht
      · simp only [Map.set_other _ _ hxi] at hx
        exact hP x t0 hx
  | modify id t t1 rq1 ht hne hst hlc hcg hrq =>
    have hsub : ∀ x, rq1.contains x = true → s.rq.contains x = true := by
      intro x hx
      rcases hrq with h | h
      · rw [h] at hx; exact hx
      · rw [h, (MinHeap.Shuffle.fixKey (Map.set s.tasks id t1) hC.indexOk id).2.2 x] at hx
        exact hx
    refine ⟨?_, ?_, ?_⟩
    · intro x hx
      obtain ⟨t0, ht0, hr⟩ := hQ x (hsub x hx)
      by_cases hxi : x = id
      · subst hxi
        rw [ht] at ht0
        cases ht0
        exact ⟨t1, by simp [Map.set], hst.trans hr⟩
      · exact ⟨t0, by simp [Map.set, hxi, ht0], hr⟩
    · intro x t0 hx hne0
      by_cases hxi : x = id
      · subst hxi
        simp only [Map.set_same, Option.some.injEq] at hx
        subst hx
        rcases hcg with h | h | h
        · rw [h]; exact hL x t ht hne
        · exact ⟨root, by rw [h]; exact hroot⟩
        · exact h
      · simp only [Map.set_other _ _ hxi] at hx
        exact hL x t0 hx hne0
    · intro x t0 hx
      by_cases hxi : x = id
      · subst hxi
        simp only [Map.set_same, Option.some.injEq] at hx
        subst hx
        rw [hlc]
        exact hP x t ht
      · simp only [Map.set_other _ _ hxi] at hx
        exact hP x t0 hx
  | cgroup id cg =>
    refine ⟨hQ, ?_, hP⟩
    intro x t hx hne
    obtain ⟨g, hg⟩ := hL x t hx hne
    by_cases hc : t.cgroupId = id
    · exact ⟨cg, by simp [Map.set, hc]⟩
    · exact ⟨g, by simp [Map.set, hc, hg]⟩
  | cgroupDel id hne =>
    refine ⟨?_, ?_, ?_⟩
    · intro x hx
      obtain ⟨t, ht, hr⟩ := hQ x hx
      refine ⟨reparent id t, by simp [ht], ?_⟩
      unfold reparent; split <;> exact hr
    · intro x t hx hne0
      simp only [Option.map_eq_some'] at hx
      obtain ⟨t0, ht0, rfl⟩ := hx
      unfold reparent at hne0 ⊢
      by_cases hc : t0.cgroupId = id ∧ t0.state ≠ TaskState.EXITED
      · rw [if_pos hc]
        exact ⟨root, by simp [Map.erase, Ne.symm hne, hroot]⟩
      · rw [if_neg hc] at hne0 ⊢
        obtain ⟨g, hg⟩ := hL x t0 ht0 hne0
        have hci : t0.cgroupId ≠ id := fun h => hc ⟨h, hne0⟩
        exact ⟨g, by simp [Map.erase, hci, hg]⟩
    · intro x t hx
      simp only [Option.map_eq_some'] at hx
      obtain ⟨t0, ht0, rfl⟩ := hx
      have : (reparent id t0).lastCpu = t0.lastCpu := by unfold reparent; split <;> rfl
      rw [this]
      exact hP x t0 ht0

end Scheduler

end Alfs

namespace Alfs

namespace Scheduler

end Scheduler

end Alfs

namespace Alfs

namespace Scheduler

theorem PickFrom.keep_stashed {s : Scheduler} {rq1 : MinHeap} {cand : String}
    {stashed : List String} {r : String × Scheduler × List String}
    (hin : s.rq.contains cand = true)
    (hrq : ∀ x, rq1.contains x = (s.rq.contains x && !decide (x = cand)))
    (h : PickFrom { s with rq := rq1 } (stashed ++ [cand]) r) : PickFrom s stashed r := by
  obtain ⟨h1, h2⟩ := h
  have hpick : r.1 ≠ "" → s.rq.contains r.1 = true ∧ r.1 ≠ cand := by
    intro hne
    have := (h1 hne).1
    rw [show ({ s with rq := rq1 } : Scheduler).rq = rq1 from rfl, hrq] at this
    simpa using this
  refine ⟨fun hne => ⟨(hpick hne).1, (h1 hne).2⟩, ?_⟩
  intro x hx
  rcases h2 x hx with h | ⟨h, h'⟩
  · rcases List.mem_append.1 h with h | h
    · exact Or.inl h
    · rw [List.mem_singleton] at h
      subst h
      exact Or.inr ⟨hin, fun hne he => (hpick hne).2 he.symm⟩
  · rw [show ({ s with rq := rq1 } : Scheduler).rq = rq1 from rfl, hrq] at h
    simp only [Bool.and_eq_true] at h
    exact Or.inr ⟨h.1, h'⟩

theorem PickFrom.skip_dropped {s : Scheduler} {rq1 : MinHeap} {cand : String}
    {stashed : List String} {r : String × Scheduler × List String}
    (hrq : ∀ x, rq1.contains x = (s.rq.contains x && !decide (x = cand)))
    (h : PickFrom { s with rq := rq1 } stashed r) : PickFrom s stashed r := by
  obtain ⟨h1, h2⟩ := h
  have hsub : ∀ x, rq1.contains x = true → s.rq.contains x = true := by
    intro x hx
    rw [hrq] at hx
    simp only [Bool.and_eq_true] at hx
    exact hx.1
  refine ⟨fun hne => ⟨hsub _ (h1 hne).1, (h1 hne).2⟩, ?_⟩
  intro x hx
  rcases h2 x hx with h | ⟨h, h'⟩
  · exact Or.inl h
  · exact Or.inr ⟨hsub _ h, h'⟩

theorem pickLoop_from (cpu : Nat) : ∀ (fuel : Nat) (s : Scheduler) (stashed : List String),
    s.Consistent → PickFrom s stashed (pickLoop cpu fuel s stashed) := by
  intro fuel
  induction fuel with
  | zero =>
    intro s stashed _
    exact ⟨fun h => absurd rfl h, fun x hx => Or.inl hx⟩
  | succ f ih =>
    intro s stashed hC
    unfold pickLoop
    by_cases hemp : s.rq.empty = true
    · rw [if_pos hemp]
      exact ⟨fun h => absurd rfl h, fun x hx => Or.inl hx⟩
    · have hemp' : s.rq.a.isEmpty = false := by simpa [MinHeap.empty] using hemp
      rw [if_neg hemp]
      have hp := popMin_spec s.tasks hC.indexOk hemp'
      have hsub : ∀ x, (s.rq.popMin s.tasks).2.contains x = true → s.rq.contains x = true := by
        intro x hx
        rw [hp.2.1 x] at hx
        simp only [Bool.and_eq_true] at hx
        exact hx.1
      have hC1 : ({ s with rq := (s.rq.popMin s.tasks).2 } : Scheduler).Consistent :=
        hC.withRq hp.1 (fun x hx => hC.queued x (hsub x hx))
      have hR1 : ({ s with rq := (s.rq.popMin s.tasks).2 } : Scheduler).HasRoot := hC.hasRoot
      have kdrop := PickFrom.skip_dropped hp.2.1 (ih _ stashed hC1)
      have klift := PickFrom.keep_stashed hp.2.2.1 hp.2.1 (ih _ (stashed ++ [(s.rq.popMin s.tasks).1]) hC1)
      dsimp only
      cases hT : s.tasks (s.rq.popMin s.tasks).1 with
      | none => exact kdrop
      | some t =>
        dsimp only
        rw [cgroupOrRoot_snd hR1, canTaskRunOnCPU_snd hR1]
        split_ifs with c1 c2 c3 c4
        · exact kdrop
        · exact klift
        · exact klift
        · refine ⟨fun _ => ⟨hp.2.2.1, ?_⟩, fun x hx => Or.inl hx⟩
          show (s.rq.popMin s.tasks).2.contains _ = false
          rw [hp.2.1]
          simp
        · exact klift

theorem pushAll_contains : ∀ (ids : List String) (s : Scheduler), s.rq.IndexOk →
    (pushAll s ids).rq.IndexOk ∧
      ∀ x, (pushAll s ids).rq.contains x = (s.rq.contains x || decide (x ∈ ids)) := by
  intro ids
  induction ids with
  | nil => intro s hOk; exact ⟨hOk, fun x => by simp [pushAll]⟩
  | cons id rest ih =>
    intro s hOk
    unfold pushAll
    have hp := MinHeap.push_spec s.tasks hOk id
    have := ih { s with rq := s.rq.push s.tasks id } hp.1
    refine ⟨this.1, fun x => ?_⟩
    rw [this.2 x]
    show ((s.rq.push s.tasks id).contains x || _) = _
    rw [hp.2.1 x]
    by_cases hx : x = id
    · simp [hx]
    · simp [hx]

theorem selectCpu_from (s : Scheduler) (schedule : List String) (cpu : Nat)
    (hC : s.Consistent) : SelectFrom s schedule [cpu] (selectCpu (s, schedule) cpu) := by
  have hp := pickLoop_spec cpu s.rq.size s [] hC (fun x hx => by cases hx)
  have hf := pickLoop_from cpu s.rq.size s [] hC
  obtain ⟨h1, h2, h3, h4, h5⟩ := hp
  obtain ⟨f1, f2⟩ := hf
  have hpa := pushAll_contains (pickLoop cpu s.rq.size s []).2.2 _ h2
  have hsub : ∀ x, (selectCpu (s, schedule) cpu).1.rq.contains x = true →
      s.rq.contains x = true := by
    intro x hx
    unfold selectCpu at hx
    dsimp only at hx
    rw [hpa.2 x] at hx
    simp only [Bool.or_eq_true, decide_eq_true_eq] at hx
    rcases hx with h | h
    · exact h3 x h
    · rcases f2 x h with h' | h'
      · cases h'
      · exact h'.1
  have hnew : ∀ c t, (selectCpu (s, schedule) cpu).2[c]? = some t → t ≠ "idle" →
      schedule[c]? = some t ∨
        (c = cpu ∧ s.rq.contains t = true ∧
          (selectCpu (s, schedule) cpu).1.rq.contains t = false) := by
    intro c t hc hne
    unfold selectCpu at hc ⊢
    dsimp only at hc ⊢
    by_cases hcc : cpu = c
    · subst hcc
      right
      split_ifs at hc with hpk
      · rw [List.getElem?_set] at hc
        simp only [if_true] at hc
        split_ifs at hc
        cases hc
        refine ⟨rfl, (f1 hpk).1, ?_⟩
        rw [hpa.2]
        simp only [Bool.or_eq_false_iff, decide_eq_false_iff_not]
        refine ⟨(f1 hpk).2, fun hm => ?_⟩
        rcases f2 _ hm with h' | h'
        · cases h'
        · exact h'.2 hpk rfl
      · rw [List.getElem?_set] at hc
        simp only [if_true] at hc
        split_ifs at hc
        cases hc
        exact absurd rfl hne
    · left
      split_ifs at hc
      · rwa [List.getElem?_set_ne hcc] at hc
      · rwa [List.getElem?_set_ne hcc] at hc
  refine ⟨hsub, ?_, ?_⟩
  · intro c t hc hne
    rcases hnew c t hc hne with h | ⟨h, h'⟩
    · exact Or.inl h
    · exact Or.inr ⟨by rw [h]; exact List.mem_singleton_self _, h'⟩
  · intro c1 c2 t hne12 hc1 hc2 hne
    rcases hnew c1 t hc1 hne with h | ⟨h, -⟩
    · exact Or.inl h
    · rcases hnew c2 t hc2 hne with h' | ⟨h', -⟩
      · exact Or.inr h'
      · exact absurd (h.trans h'.symm) hne12

theorem selectLoop_from : ∀ (cpus : List Nat) (s : Scheduler) (schedule : List String),
    s.Consistent → SelectFrom s schedule cpus (selectLoop s schedule cpus) := by
  intro cpus
  induction cpus with
  | nil =>
    intro s schedule _
    exact ⟨fun x hx => hx, fun c t hc _ => Or.inl hc, fun c1 c2 t _ hc1 _ _ => Or.inl hc1⟩
  | cons cpu rest ih =>
    intro s schedule hC
    have h1 := selectCpu_from s schedule cpu hC
    have hC1 := (selectCpu_spec s schedule cpu hC).2.1
    have h2 := ih (selectCpu (s, schedule) cpu).1 (selectCpu (s, schedule) cpu).2 hC1
    have hfold : selectLoop s schedule (cpu :: rest) =
        selectLoop (selectCpu (s, schedule) cpu).1 (selectCpu (s, schedule) cpu).2 rest := rfl
    rw [hfold]
    obtain ⟨a1, a2, a3⟩ := h1
    obtain ⟨b1, b2, b3⟩ := h2
    have key : ∀ (c : Nat) (t : String), (selectCpu (s, schedule) cpu).2[c]? = some t → t ≠ "idle" →
        (selectCpu (s, schedule) cpu).1.rq.contains t = true → schedule[c]? = some t := by
      intro c t hc hne hin
      rcases a2 c t hc hne with h | ⟨-, -, h⟩
      · exact h
      · rw [hin] at h; cases h
    refine ⟨fun x hx => a1 x (b1 x hx), ?_, ?_⟩
    · intro c t hc hne
      rcases b2 c t hc hne with h | ⟨hm, hin, hout⟩
      · rcases a2 c t h hne with h' | ⟨hm, hin, hout⟩
        · exact Or.inl h'
        · rw [List.mem_singleton] at hm
          refine Or.inr ⟨by rw [hm]; exact List.mem_cons_self _ _, hin, ?_⟩
          cases hq : (selectLoop (selectCpu (s, schedule) cpu).1
              (selectCpu (s, schedule) cpu).2 rest).1.rq.contains t with
          | false => rfl
          | true => rw [b1 t hq] at hout; cases hout
      · exact Or.inr ⟨List.mem_cons_of_mem _ hm, a1 t hin, hout⟩
    · intro c1 c2 t hne12 hc1 hc2 hne
      rcases b2 c1 t hc1 hne with h1 | ⟨-, hin1, -⟩
      · rcases b2 c2 t hc2 hne with h2 | ⟨-, hin2, -⟩
        · exact a3 c1 c2 t hne12 h1 h2 hne
        · exact Or.inl (key c1 t h1 hne hin2)
      · rcases b2 c2 t hc2 hne with h2 | ⟨-, hin2, -⟩
        · exact Or.inr (key c2 t h2 hne hin1)
        · rcases b3 c1 c2 t hne12 hc1 hc2 hne with h | h
          · exact Or.inl (key c1 t h hne hin2)
          · exact Or.inr (key c2 t h hne hin1)

/-- The selection pass: the runqueue only loses ids, every entry other than "idle" was
queued before the pass, and no id is placed on two CPUs. -/
theorem selectAll_from (s : Scheduler) (hC : s.Consistent) :
    (∀ x, s.selectAll.1.rq.contains x = true → s.rq.contains x = true) ∧
    (∀ (c : Nat) (t : String), s.selectAll.2[c]? = some t → t ≠ "idle" →
      s.rq.contains t = true) ∧
    (∀ (c1 c2 : Nat) (t : String), c1 ≠ c2 → s.selectAll.2[c1]? = some t →
      s.selectAll.2[c2]? = some t → t = "idle") := by
  have h := selectLoop_from (List.range s.cpuCount) s (List.replicate s.cpuCount "idle") hC
  obtain ⟨h1, h2, h3⟩ := h
  have hrep : ∀ (c : Nat) (t : String),
      (List.replicate s.cpuCount "idle")[c]? = some t → t = "idle" := by
    intro c t hc
    rw [List.getElem?_replicate] at hc
    split_ifs at hc
    cases hc
    rfl
  refine ⟨h1, ?_, ?_⟩
  · intro c t hc hne
    rcases h2 c t hc hne with h | ⟨-, h, -⟩
    · exact absurd (hrep c t h) hne
    · exact h
  · intro c1 c2 t hne12 hc1 hc2
    by_contra hne
    rcases h3 c1 c2 t hne12 hc1 hc2 hne with h | h
    · exact hne (hrep _ _ h)
    · exact hne (hrep _ _ h)

end Scheduler

end Alfs

namespace Alfs

namespace Scheduler

theorem accountedTask_lastCpu (s : Scheduler) (cur : String) (cpu : Nat) :
    (s.accountedTask cur cpu).lastCpu = (cpu : Int) := by
  unfold accountedTask
  dsimp only
  split <;> rfl

theorem accountTask_lifecycle {s : Scheduler} (hC : s.Consistent) (hQ : s.QueuedRunnable)
    (hL : s.LiveCgroupRefs) (hP : s.LastCpuOk) (cur : String) (cpu : Nat) :
    (s.accountTask cur cpu).QueuedRunnable ∧ (s.accountTask cur cpu).LiveCgroupRefs ∧
      (s.accountTask cur cpu).LastCpuOk := by
  obtain ⟨root, hroot⟩ := hC.hasRoot
  have hst := accountedTask_static s cur cpu
  have hrq : ∀ x, (s.accountTask cur cpu).rq.contains x = true → x ≠ cur →
      s.rq.contains x = true := by
    intro x hx hne
    unfold accountTask at hx
    dsimp only at hx
    split_ifs at hx
    · have hp := MinHeap.push_spec (Map.set s.tasks cur (s.accountedTask cur cpu)) hC.indexOk cur
      have hf := MinHeap.Shuffle.fixKey (Map.set s.tasks cur (s.accountedTask cur cpu)) hp.1 cur
      rw [hf.2.2 x, hp.2.1 x] at hx
      simpa [hne] using hx
    · exact hx
  have hcur : (s.accountTask cur cpu).rq.contains cur = true →
      (s.accountedTask cur cpu).state = TaskState.RUNNABLE := by
    intro hx
    unfold accountTask at hx
    dsimp only at hx
    split_ifs at hx with h
    · exact h
    · obtain ⟨t, ht, hr⟩ := hQ cur hx
      rw [hst.2.2.2.2.1, taskAt, ht]
      exact hr
  refine ⟨?_, ?_, ?_⟩
  · intro x hx
    rw [accountTask_tasks]
    by_cases hxc : x = cur
    · subst hxc
      exact ⟨_, Map.set_same _ _ _, hcur hx⟩
    · obtain ⟨t, ht, hr⟩ := hQ x (hrq x hx hxc)
      exact ⟨t, by rw [Map.set_other _ _ hxc]; exact ht, hr⟩
  · intro x t hx hne
    rw [accountTask_tasks] at hx
    show ∃ cg, s.cgroups t.cgroupId = some cg
    by_cases hxc : x = cur
    · subst hxc
      rw [Map.set_same] at hx
      cases hx
      rw [hst.2.2.2.1]
      rw [hst.2.2.2.2.1] at hne
      unfold taskAt at hne ⊢
      cases hT : s.tasks x with
      | none => exact ⟨root, hroot⟩
      | some t0 =>
        rw [hT] at hne
        exact hL x t0 hT hne
    · rw [Map.set_other _ _ hxc] at hx
      exact hL x t hx hne
  · intro x t hx
    rw [accountTask_tasks] at hx
    by_cases hxc : x = cur
    · subst hxc
      rw [Map.set_same] at hx
      cases hx
      rw [accountedTask_lastCpu]
      omega
    · rw [Map.set_other _ _ hxc] at hx
      exact hP x t hx

theorem accountLoop_lifecycle (schedule : List String) : ∀ (cpus : List Nat) (ac : Acct),
    ac.s.Consistent → ac.s.QueuedRunnable → ac.s.LiveCgroupRefs → ac.s.LastCpuOk →
    (accountLoop schedule ac cpus).s.QueuedRunnable ∧
      (accountLoop schedule ac cpus).s.LiveCgroupRefs ∧
      (accountLoop schedule ac cpus).s.LastCpuOk := by
  intro cpus
  induction cpus with
  | nil => intro ac _ hQ hL hP; exact ⟨hQ, hL, hP⟩
  | cons cpu rest ih =>
    intro ac hC hQ hL hP
    have h1 := accountCpu_ok schedule hC cpu
    have h2 : (accountCpu schedule ac cpu).s.QueuedRunnable ∧
        (accountCpu schedule ac cpu).s.LiveCgroupRefs ∧
        (accountCpu schedule ac cpu).s.LastCpuOk := by
      rw [accountCpu_s]
      split_ifs
      · exact accountTask_lifecycle hC hQ hL hP _ _
      · exact ⟨hQ, hL, hP⟩
    exact ih (accountCpu schedule ac cpu) h1.1 h2.1 h2.2.1 h2.2.2

theorem dispatch_sound {s : Scheduler} (hS : s.Sound) (vtime : Int) :
    (s.dispatch vtime).1.Sound := by
  have hC := hS.consistent
  have hs := selectAll_spec s hC
  have hf := selectAll_from s hC
  have hQ1 : s.selectAll.1.QueuedRunnable := by
    intro x hx
    rw [hs.1]
    exact hS.queuedRunnable x (hf.1 x hx)
  have hL1 : s.selectAll.1.LiveCgroupRefs := by
    intro x t hx hne
    rw [hs.1] at hx ⊢
    exact hS.liveRefs x t hx hne
  have hP1 : s.selectAll.1.LastCpuOk := by
    intro x t hx
    rw [hs.1] at hx
    exact hS.lastCpuOk x t hx
  have h := accountLoop_lifecycle s.selectAll.2 (List.range s.selectAll.1.cpuCount)
    { s := s.selectAll.1, preemptions := 0, migrations := 0 } hs.2.1 hQ1 hL1 hP1
  exact ⟨dispatch_consistent hC vtime, h.1, h.2.1, h.2.2⟩

theorem new_sound (cpuCount : Nat) (quanta : Int) : (Scheduler.new cpuCount quanta).Sound where
  consistent := new_consistent cpuCount quanta
  queuedRunnable := by
    intro id h
    simp [Scheduler.new, MinHeap.contains, Map.empty] at h
  liveRefs := by
    intro id t h
    simp [Scheduler.new, Map.empty] at h
  lastCpuOk := by
    intro id t h
    simp [Scheduler.new, Map.empty] at h

theorem Reachable.sound {cpuCount : Nat} {quanta : Int} {s : Scheduler}
    (h : Reachable cpuCount quanta s) : s.Sound := by
  induction h with
  | init => exact new_sound cpuCount quanta
  | event e _ he ih =>
    have h := (applyEvent_change he).keeps_lifecycle ih.consistent ih.queuedRunnable
      ih.liveRefs ih.lastCpuOk
    exact ⟨(applyEvent_effect he).keeps_consistent ih.consistent, h.1, h.2.1, h.2.2⟩
  | tick vtime _ ih => exact dispatch_sound ih vtime

end Scheduler

end Alfs

namespace Alfs

namespace Scheduler

end Scheduler

end Alfs

namespace Alfs

namespace Scheduler

/-! ## C11: cgroup reference validity -/

set_option maxRecDepth 100000 in
/-- C11 (cgroup reference validity), the case in which it fails.  After CGROUP_CREATE
"g", TASK_CREATE "A" in "g", TASK_EXIT "A" and CGROUP_DELETE "g" the state is
reachable, the EXITED task "A" is in the task map with cgroupId "g", and "g" is
neither "0" nor a key of the cgroup map. -/
theorem c11_exited_task_keeps_deleted_cgroup :
    ∃ s, (Scheduler.new 1 1).applyEvents c11Events = some s ∧ Reachable 1 1 s ∧
      (s.tasks "A").map (fun t => (t.state, t.cgroupId)) = some (TaskState.EXITED, "g") ∧
      (s.cgroups "g").isSome = false ∧ "g" ≠ "0" := by
  have h : ((Scheduler.new 1 1).applyEvents c11Events).isSome = true := by decide
  obtain ⟨s, hs⟩ := Option.isSome_iff_exists.1 h
  have h1 : ((Scheduler.new 1 1).applyEvents c11Events).map
      (fun s => ((s.tasks "A").map (fun t => (t.state, t.cgroupId)), (s.cgroups "g").isSome))
      = some (some (TaskState.EXITED, "g"), false) := by decide
  rw [hs] at h1
  simp only [Option.map_some', Option.some.injEq, Prod.mk.injEq] at h1
  exact ⟨s, hs, Reachable.after_events _ Reachable.init hs, h1.1, h1.2, by decide⟩

/-- C11 (cgroup reference validity), for the tasks that are not EXITED.  In every
reachable state (so after every applied event and after every tick) every task of
the task map that is not EXITED has a cgroupId that is a key of the cgroup map, and
the root cgroup "0" is a key of the cgroup map. -/
theorem c11_live_cgroup_refs (cpuCount : Nat) (quanta : Int) (s : Scheduler)
    (hr : Reachable cpuCount quanta s) :
    (∀ id t, s.tasks id = some t → t.state ≠ TaskState.EXITED →
      ∃ cg, s.cgroups t.cgroupId = some cg) ∧
    (∃ root, s.cgroups "0" = some root) ∧
    (∀ e s1, s.applyEvent e = some s1 →
      (∀ id t, s1.tasks id = some t → t.state ≠ TaskState.EXITED →
        ∃ cg, s1.cgroups t.cgroupId = some cg) ∧ ∃ root, s1.cgroups "0" = some root) ∧
    (∀ vtime events s1 out, s.runTick vtime events = some (s1, out) →
      (∀ id t, s1.tasks id = some t → t.state ≠ TaskState.EXITED →
        ∃ cg, s1.cgroups t.cgroupId = some cg) ∧ ∃ root, s1.cgroups "0" = some root) := by
  refine ⟨hr.sound.liveRefs, hr.consistent.hasRoot, ?_, ?_⟩
  · intro e s1 h
    have h1 := Reachable.event e hr h
    exact ⟨h1.sound.liveRefs, h1.consistent.hasRoot⟩
  · intro vtime events s1 out h
    have h1 := hr.after_tick h
    exact ⟨h1.sound.liveRefs, h1.consistent.hasRoot⟩

/-- C11 applied to the sample state (one CPU, after the first tick that creates "A" and
"B"). -/
theorem c11_live_cgroup_refs_witness :
    (∀ id t, sampleState.tasks id = some t → t.state ≠ TaskState.EXITED →
      ∃ cg, sampleState.cgroups t.cgroupId = some cg) ∧
    (∃ root, sampleState.cgroups "0" = some root) ∧
    (∀ e s1, sampleState.applyEvent e = some s1 →
      (∀ id t, s1.tasks id = some t → t.state ≠ TaskState.EXITED →
        ∃ cg, s1.cgroups t.cgroupId = some cg) ∧ ∃ root, s1.cgroups "0" = some root) ∧
    (∀ vtime events s1 out, sampleState.runTick vtime events = some (s1, out) →
      (∀ id t, s1.tasks id = some t → t.state ≠ TaskState.EXITED →
        ∃ cg, s1.cgroups t.cgroupId = some cg) ∧ ∃ root, s1.cgroups "0" = some root) :=
  c11_live_cgroup_refs 1 1 sampleState sampleState_reachable

/-! ## C12: events on EXITED tasks -/

theorem applyEvent_exit (s : Scheduler) (e : Json)
    (h : strField e "action" = some "TASK_EXIT") : s.applyEvent e = s.taskExit e := by
  unfold applyEvent
  rw [h, Option.some_bind, if_neg (by decide), if_pos rfl]

theorem applyEvent_setnice (s : Scheduler) (e : Json)
    (h : strField e "action" = some "TASK_SETNICE") : s.applyEvent e = s.taskSetnice e := by
  unfold applyEvent
  rw [h, Option.some_bind, if_neg (by decide), if_neg (by decide), if_neg (by decide),
    if_neg (by decide), if_neg (by decide), if_pos rfl]

theorem applyEvent_setAffinity (s : Scheduler) (e : Json)
    (h : strField e "action" = some "TASK_SET_AFFINITY") :
    s.applyEvent e = s.taskSetAffinity e := by
  unfold applyEvent
  rw [h, Option.some_bind, if_neg (by decide), if_neg (by decide), if_neg (by decide),
    if_neg (by decide), if_neg (by decide), if_neg (by decide), if_pos rfl]

theorem applyEvent_moveCgroup (s : Scheduler) (e : Json)
    (h : strField e "action" = some "TASK_MOVE_CGROUP") :
    s.applyEvent e = s.taskMoveCgroup e := by
  unfold applyEvent
  rw [h, Option.some_bind, if_neg (by decide), if_neg (by decide), if_neg (by decide),
    if_neg (by decide), if_neg (by decide), if_neg (by decide), if_neg (by decide),
    if_neg (by decide), if_neg (by decide), if_neg (by decide), if_pos rfl]

theorem applyEvent_burst (s : Scheduler) (e : Json)
    (h : strField e "action" = some "CPU_BURST") : s.applyEvent e = s.CpuBurst e := by
  unfold applyEvent
  rw [h, Option.some_bind, if_neg (by decide), if_neg (by decide), if_neg (by decide),
    if_neg (by decide), if_neg (by decide), if_neg (by decide), if_neg (by decide),
    if_neg (by decide), if_neg (by decide), if_neg (by decide), if_neg (by decide), if_pos rfl]

/-- Writing back the record of an EXITED task with state EXITED changes nothing. -/
theorem exit_again {s : Scheduler} {id : String} {t : Task} (ht : s.tasks id = some t)
    (hex : t.state = TaskState.EXITED) (hq : s.rq.contains id = false) :
    ({ s with tasks := Map.set s.tasks id { t with state := TaskState.EXITED },
              rq := if s.rq.contains id then s.rq.remove s.tasks id else s.rq } : Scheduler)
      = s := by
  have h1 : ({ t with state := TaskState.EXITED } : Task) = t := by
    cases t
    simp only at hex
    simp [hex]
  have h2 : Map.set s.tasks id t = s.tasks := by
    funext x
    unfold Map.set
    split_ifs with h
    · rw [h, ht]
    · rfl
  rw [h1, h2, hq]
  rfl

/-- C12 (events on EXITED tasks are ignored).  In every reachable state, for every task
`t` of the task map whose state is EXITED and every event `e` whose action is one of
the nine task-targeted actions, whose `taskId` is the id of `t` and which carries the
fields its handler reads first: applying `e` returns and leaves the whole scheduler
state as it was, and `t` is not in the runqueue. -/
theorem c12_events_on_exited_ignored (cpuCount : Nat) (quanta : Int) (s : Scheduler)
    (hr : Reachable cpuCount quanta s) (e : Json) (action id : String) (t : Task)
    (hact : strField e "action" = some action) (hin : action ∈ taskActions)
    (hid : strField e "taskId" = some id) (hf : fieldsPresent action e)
    (ht : s.tasks id = some t) (hex : t.state = TaskState.EXITED) :
    s.applyEvent e = some s ∧ s.rq.contains id = false ∧
      ∃ t1, s.tasks id = some t1 ∧ t1.state = TaskState.EXITED := by
  have hq : s.rq.contains id = false := by
    cases hc : s.rq.contains id with
    | false => rfl
    | true =>
      obtain ⟨t0, ht0, hr0⟩ := hr.sound.queuedRunnable id hc
      rw [ht] at ht0
      cases ht0
      rw [hex] at hr0
      cases hr0
  refine ⟨?_, hq, t, ht, hex⟩
  simp only [taskActions, List.mem_cons, List.mem_singleton, List.not_mem_nil, or_false] at hin
  rcases hin with h | h | h | h | h | h | h | h | h
  · subst h
    rw [applyEvent_create s e hact]
    unfold taskCreate
    simp [hid, taskExists, ht]
  · subst h
    rw [applyEvent_exit s e hact]
    unfold taskExit
    simp only [hid, Option.some_bind, ht]
    rw [exit_again ht hex hq]
  · subst h
    rw [applyEvent_block s e hact]
    unfold taskBlock
    simp [hid, ht, hex]
  · subst h
    rw [applyEvent_unblock s e hact]
    unfold taskUnblock
    simp [hid, ht, hex]
  · subst h
    rw [applyEvent_yield s e hact]
    unfold taskYield
    simp [hid, ht, hex]
  · subst h
    obtain ⟨nn, hnn⟩ := Option.isSome_iff_exists.1 (hf.1 rfl)
    rw [applyEvent_setnice s e hact]
    unfold taskSetnice
    simp [hid, hnn, ht, hex]
  · subst h
    rw [applyEvent_setAffinity s e hact]
    unfold taskSetAffinity
    simp [hid, ht, hex]
  · subst h
    obtain ⟨cg, hcg⟩ := Option.isSome_iff_exists.1 (hf.2.1 rfl)
    rw [applyEvent_moveCgroup s e hact]
    unfold taskMoveCgroup
    simp [hid, hcg, ht, hex]
  · subst h
    obtain ⟨d, hd⟩ := Option.isSome_iff_exists.1 (hf.2.2 rfl)
    rw [applyEvent_burst s e hact]
    unfold CpuBurst
    simp [hid, hd, ht, hex]

theorem c12State_reachable : Reachable 1 1 c12State :=
  Reachable.event (evTask "TASK_EXIT" "A")
    (Reachable.event (evCreate "A") Reachable.init rfl) rfl

set_option maxRecDepth 100000 in
/-- C12 applied to TASK_UNBLOCK for the EXITED task "A" of a one-CPU scheduler: the event
changes nothing. -/
theorem c12_events_on_exited_ignored_witness :
    c12State.applyEvent (evTask "TASK_UNBLOCK" "A") = some c12State ∧
      c12State.rq.contains "A" = false ∧
      ∃ t1, c12State.tasks "A" = some t1 ∧ t1.state = TaskState.EXITED :=
  c12_events_on_exited_ignored 1 1 c12State c12State_reachable (evTask "TASK_UNBLOCK" "A")
    "TASK_UNBLOCK" "A"
    { id := "A", nice := 0, weight := 1024, cgroupId := "0", state := TaskState.EXITED,
      vruntime := 0, affinityMask := [true], lastCpu := -1, burstRemaining := 0 }
    (by decide) (by decide) (by decide)
    ⟨fun h => absurd h (by decide), fun h => absurd h (by decide),
      fun h => absurd h (by decide)⟩
    (by decide) rfl

end Scheduler

end Alfs

namespace Alfs

namespace Scheduler

end Scheduler

end Alfs

namespace Alfs

namespace Scheduler

/-! ## C15: weight and delta formulas -/

theorem floorOne_antitone (num a b : Int) (ha : 1 ≤ a) (hab : a ≤ b) :
    (if Int.tdiv num b ≤ 0 then 1 else Int.tdiv num b) ≤
      (if Int.tdiv num a ≤ 0 then 1 else Int.tdiv num a) := by
  by_cases hn : 0 ≤ num
  · rw [Int.tdiv_eq_ediv hn (by omega), Int.tdiv_eq_ediv hn (by omega)]
    have hb0 : 0 ≤ num / b := Int.ediv_nonneg hn (by omega)
    have h1 : num / b * a ≤ num / b * b := Int.mul_le_mul_of_nonneg_left hab hb0
    have h2 : num / b * b ≤ num := Int.ediv_mul_le num (by omega)
    have h3 : num / b ≤ num / a := (Int.le_ediv_iff_mul_le (by omega)).2 (le_trans h1 h2)
    split_ifs <;> omega
  · have key : ∀ c : Int, 1 ≤ c → Int.tdiv num c ≤ 0 := by
      intro c hc
      have h1 : num = -(-num) := by omega
      rw [h1, Int.neg_tdiv]
      have := Int.tdiv_nonneg (show 0 ≤ -num by omega) (show 0 ≤ c by omega)
      omega
    rw [if_pos (key b (by omega)), if_pos (key a ha)]

theorem effectiveWeight_eq (s : Scheduler) (t : Task) :
    s.effectiveWeight t =
      max 1 (min 2000000000 (Int.tdiv (t.weight * s.sharesOf t) 1024)) := by
  unfold effectiveWeight sharesOf
  dsimp only
  split_ifs with h1 h2 h2
  · omega
  · rw [min_eq_right (by omega), max_eq_left (by omega)]
  · rw [min_eq_left (by omega), max_eq_right (by omega)]
  · rw [min_eq_right (by omega), max_eq_right (by omega)]

theorem effectiveWeight_range (s : Scheduler) (t : Task) :
    1 ≤ s.effectiveWeight t ∧ s.effectiveWeight t ≤ 2000000000 := by
  unfold effectiveWeight
  dsimp only
  split_ifs <;> constructor <;> omega

/-- C15 (weight and delta formulas), the case in which the delta formula fails.  With
quanta 2^53 the product quanta * 1024 is 2^63, which leaves the `int64_t` range and
wraps to -2^63: for a task of weight 1024 in the root cgroup (effective weight 1024)
`vruntimeDelta` returns 1, not max(1, (quanta * 1024) / 1024) = 2^53, and the first
tick of a scheduler started with that quanta leaves the task it ran at vruntime 1. -/
theorem c15_delta_wraps :
    (Scheduler.new 1 (2 ^ 53)).effectiveWeight (duoTask "A" 0 0 (-1)) = 1024 ∧
    (Scheduler.new 1 (2 ^ 53)).vruntimeDelta (duoTask "A" 0 0 (-1)) = 1 ∧
    max 1 (Int.tdiv ((Scheduler.new 1 (2 ^ 53)).quanta * 1024)
      ((Scheduler.new 1 (2 ^ 53)).effectiveWeight (duoTask "A" 0 0 (-1)))) = 2 ^ 53 ∧
    ((Scheduler.new 1 (2 ^ 53)).runTick 0 [evCreate "A"]).map
      (fun r => ((r.1.tasks "A").map Task.vruntime, r.2.schedule)) = some (some 1, ["A"]) := by
  refine ⟨by decide, by decide, by decide, by decide⟩

/-- C15 (weight and delta formulas), with the bound under which the delta formula
holds.  For every task `t` and cgroup table: `effectiveWeight t` is
max(1, min(2000000000, (t.weight * shares) / 1024)) with truncating division, where
`shares` is the `cpuShares` of the cgroup of `t`, and 1024 when that cgroup is not
in the table; it lies in [1, 2000000000]; the product fits 64 bits for all 32-bit
factors; for 1 ≤ quanta with quanta * 1024 ≤ 2^63 - 1, `vruntimeDelta t` is
max(1, (quanta * 1024) / effectiveWeight t); and for every quanta it is at least 1
and does not grow when the effective weight grows. -/
theorem c15_weight_and_delta (s : Scheduler) (t : Task) :
    (∀ cg, s.cgroups t.cgroupId = some cg →
      s.effectiveWeight t =
        max 1 (min 2000000000 (Int.tdiv (t.weight * cg.cpuShares) 1024))) ∧
    (s.cgroups t.cgroupId = none →
      s.effectiveWeight t = max 1 (min 2000000000 (Int.tdiv (t.weight * 1024) 1024))) ∧
    (1 ≤ s.effectiveWeight t ∧ s.effectiveWeight t ≤ 2000000000) ∧
    (-(2 ^ 31) ≤ t.weight → t.weight < 2 ^ 31 → -(2 ^ 31) ≤ s.sharesOf t →
      s.sharesOf t < 2 ^ 31 → fits64 (t.weight * s.sharesOf t) = true) ∧
    (1 ≤ s.quanta → s.quanta * 1024 ≤ INT64_MAX →
      s.vruntimeDelta t = max 1 (Int.tdiv (s.quanta * 1024) (s.effectiveWeight t))) ∧
    1 ≤ s.vruntimeDelta t ∧
    (∀ t2, s.effectiveWeight t ≤ s.effectiveWeight t2 →
      s.vruntimeDelta t2 ≤ s.vruntimeDelta t) := by
  have hr := effectiveWeight_range s t
  refine ⟨?_, ?_, hr, ?_, ?_, vruntimeDelta_pos s t, ?_⟩
  · intro cg hcg
    rw [effectiveWeight_eq, sharesOf, hcg]
  · intro hcg
    rw [effectiveWeight_eq, sharesOf, hcg]
  · intro h1 h2 h3 h4
    unfold fits64 INT64_MAX
    rw [decide_eq_true_eq]
    constructor <;> nlinarith
  · intro hq1 hq2
    unfold vruntimeDelta
    dsimp only
    have hnum : wrap64 (s.quanta * NICE_0_LOAD) = s.quanta * 1024 :=
      wrap64_id (by show -(2 ^ 63) ≤ s.quanta * 1024; omega) hq2
    rw [hnum]
    have hnn : 0 ≤ Int.tdiv (s.quanta * 1024) (s.effectiveWeight t) :=
      Int.tdiv_nonneg (by omega) (by omega)
    split_ifs with h
    · exact (max_eq_left (by omega)).symm
    · exact (max_eq_right (by omega)).symm
  · intro t2 h
    unfold vruntimeDelta
    dsimp only
    exact floorOne_antitone _ _ _ hr.1 h

set_option maxRecDepth 100000 in
/-- C15 applied to the task "A" of the sample state (weight 1024, root cgroup with
shares 1024, quanta 1): effective weight 1024 and delta 1. -/
theorem c15_weight_and_delta_witness :
    sampleState.effectiveWeight (duoTask "A" 0 1 0) = 1024 ∧
      sampleState.vruntimeDelta (duoTask "A" 0 1 0) = 1 := by
  have h := c15_weight_and_delta sampleState (duoTask "A" 0 1 0)
  refine ⟨?_, ?_⟩
  · rw [h.1 (rootCgroup 1) (by decide)]
    decide
  · rw [h.2.2.2.2.1 (by decide) (by decide)]
    decide

end Scheduler

end Alfs

namespace Alfs

namespace MinHeap

end MinHeap

end Alfs

namespace Alfs

namespace Scheduler

/-! ## C17: the runqueue as an ordered heap -/

set_option maxRecDepth 100000 in
/-- C17 (runqueue stays a valid ordered heap), evaluated where it fails.  On two CPUs,
after a first tick that creates "A", "B" and "C" and the event TASK_UNBLOCK for the
queued task "C", the state is reachable and its runqueue array is ["C", "A", "B"]
with "A" and "C" both at vruntime 1: the slot 1 holds "A", which is less than its
parent "C" under `lessId`, so the heap property does not hold, and `popMin` returns
"C" although the queued "A" has the lesser (vruntime, id). -/
theorem c17_unblock_leaves_heap_unordered :
    ∃ s, c2State = some s ∧ Reachable 2 1 s ∧ s.rq.a = ["C", "A", "B"] ∧
      s.rq.contains "A" = true ∧ MinHeap.lessId s.tasks "A" "C" = true ∧
      ¬ s.rq.Ordered s.tasks ∧ (s.rq.popMin s.tasks).1 = "C" := by
  have h : c2State.isSome = true := by decide
  obtain ⟨s, hs⟩ := Option.isSome_iff_exists.1 h
  have h1 : c2State.map (fun s => (s.rq.a, s.rq.contains "A", MinHeap.lessId s.tasks "A" "C",
      MinHeap.lessId s.tasks (s.rq.slot 1) (s.rq.slot ((1 - 1) / 2)), (s.rq.popMin s.tasks).1))
      = some (["C", "A", "B"], true, true, true, "C") := by decide
  rw [hs] at h1
  simp only [Option.map_some', Option.some.injEq, Prod.mk.injEq] at h1
  obtain ⟨a1, a2, a3, a4, a5⟩ := h1
  have hreach : Reachable 2 1 s := by
    unfold c2State at hs
    obtain ⟨r, hr1, hr2⟩ := Option.bind_eq_some.mp hs
    exact Reachable.after_events _ (Reachable.after_tick Reachable.init hr1) hr2
  refine ⟨s, hs, hreach, a1, a2, a3, ?_, a5⟩
  intro hord
  have := hord 1 (by decide) (by rw [a1]; decide)
  rw [a4] at this
  cases this

/-! ## C19: idle only when nothing fits -/

set_option maxRecDepth 100000 in
/-- C19 (idle only when nothing fits), evaluated where it fails.  On one CPU, after the
event TASK_CREATE for the task with the empty id, that task is RUNNABLE, queued and
allowed on CPU 0 by its affinity mask and by the cpuMask of its cgroup, no CPU has a
lower index, and yet the tick reports CPU 0 idle; the same holds for a task whose id
is "idle".  The stash itself works as the claim says: with two CPUs, "A" restricted
to CPU 1 and "B" allowed on both, the tick puts "B" on CPU 0 and "A" on CPU 1. -/
theorem c19_idle_with_fitting_task :
    ((Scheduler.new 1 1).applyEvents [evCreate ""]).map
        (fun s => ((s.tasks "").map (fun t => (t.state, (s.canTaskRunOnCPU t 0).1)),
          s.rq.contains "", (s.dispatch 0).2.schedule))
      = some (some (TaskState.RUNNABLE, true), true, ["idle"]) ∧
    ((Scheduler.new 1 1).applyEvents [evCreate "idle"]).map
        (fun s => ((s.tasks "idle").map (fun t => (t.state, (s.canTaskRunOnCPU t 0).1)),
          s.rq.contains "idle", (s.dispatch 0).2.schedule))
      = some (some (TaskState.RUNNABLE, true), true, ["idle"]) ∧
    ((Scheduler.new 2 1).runTick 0
        [evCreate "A", evCreate "B", evAffinity "A" [1], evAffinity "B" [0, 1]]).map
        (fun r => r.2.schedule) = some ["B", "A"] := by
  refine ⟨by decide, by decide, by decide⟩

end Scheduler

end Alfs

namespace Alfs

namespace Scheduler

end Scheduler

end Alfs

namespace Alfs

namespace Scheduler

theorem accountedTask_congr {s s1 : Scheduler} {cur : String}
    (ht : s1.tasks cur = s.tasks cur) (hc : s1.cgroups = s.cgroups)
    (hq : s1.quanta = s.quanta) (cpu : Nat) :
    s1.accountedTask cur cpu = s.accountedTask cur cpu := by
  unfold accountedTask taskAt vruntimeDelta effectiveWeight
  rw [ht, hc, hq]

theorem accountCpu_frame (schedule : List String) (ac : Acct) (cpu : Nat) :
    (accountCpu schedule ac cpu).s.cgroups = ac.s.cgroups ∧
    (accountCpu schedule ac cpu).s.quanta = ac.s.quanta ∧
    (accountCpu schedule ac cpu).s.lastSchedule = ac.s.lastSchedule ∧
    (accountCpu schedule ac cpu).s.cpuCount = ac.s.cpuCount := by
  rw [accountCpu_s]
  split_ifs <;> exact ⟨rfl, rfl, rfl, rfl⟩

theorem accountCpu_tasks (schedule : List String) (ac : Acct) (cpu : Nat) :
    (accountCpu schedule ac cpu).s.tasks =
      if schedule.getD cpu "idle" ≠ "idle" then
        Map.set ac.s.tasks (schedule.getD cpu "idle")
          (ac.s.accountedTask (schedule.getD cpu "idle") cpu)
      else ac.s.tasks := by
  rw [accountCpu_s]
  split_ifs <;> rfl

theorem accountCpu_counts (schedule : List String) (ac : Acct) (cpu : Nat) :
    (accountCpu schedule ac cpu).preemptions =
      ac.preemptions + (if preemptedAt schedule ac.s.lastSchedule cpu then 1 else 0) ∧
    (accountCpu schedule ac cpu).migrations =
      ac.migrations + (if movedAt ac.s schedule cpu then 1 else 0) := by
  unfold accountCpu preemptedAt movedAt
  dsimp only
  simp only [decide_eq_true_eq]
  constructor
  · split_ifs <;> first | rfl | omega | (exfalso; tauto)
  · split_ifs <;> first | rfl | omega | (exfalso; tauto)

/-- What the accounting loop over the CPUs `cpus` does, when no task id is the entry of
two of them: a task that is no entry keeps its record, a task that is the entry of
`c` gets the record `accountedTask` computes from the one it had before the loop,
and the counters grow by the number of CPUs that pass the two tests. -/
theorem accountLoop_char (schedule : List String) : ∀ (cpus : List Nat) (ac : Acct),
    cpus.Nodup → DistinctOn schedule cpus →
    (accountLoop schedule ac cpus).s.cgroups = ac.s.cgroups ∧
    (accountLoop schedule ac cpus).s.quanta = ac.s.quanta ∧
    (accountLoop schedule ac cpus).s.lastSchedule = ac.s.lastSchedule ∧
    (accountLoop schedule ac cpus).s.cpuCount = ac.s.cpuCount ∧
    (∀ id, (∀ c ∈ cpus, schedule.getD c "idle" = id → id = "idle") →
      (accountLoop schedule ac cpus).s.tasks id = ac.s.tasks id) ∧
    (∀ c ∈ cpus, schedule.getD c "idle" ≠ "idle" →
      (accountLoop schedule ac cpus).s.tasks (schedule.getD c "idle") =
        some (ac.s.accountedTask (schedule.getD c "idle") c)) ∧
    (accountLoop schedule ac cpus).preemptions =
      ac.preemptions + (cpus.countP (preemptedAt schedule ac.s.lastSchedule) : Nat) ∧
    (accountLoop schedule ac cpus).migrations =
      ac.migrations + (cpus.countP (movedAt ac.s schedule) : Nat) := by
  intro cpus
  induction cpus with
  | nil =>
    intro ac _ _
    refine ⟨rfl, rfl, rfl, rfl, fun _ _ => rfl,
      fun c hc _ => absurd hc (List.not_mem_nil _), ?_, ?_⟩
    · simp [accountLoop]
    · simp [accountLoop]
  | cons cpu rest ih =>
    intro ac hnd hd
    rw [accountLoop_cons]
    have hnd' := List.nodup_cons.1 hnd
    have hd' : DistinctOn schedule rest := fun c1 h1 c2 h2 =>
      hd c1 (List.mem_cons_of_mem _ h1) c2 (List.mem_cons_of_mem _ h2)
    obtain ⟨i1, i2, i3, i4, i5, i6, i7, i8⟩ := ih (accountCpu schedule ac cpu) hnd'.2 hd'
    obtain ⟨f1, f2, f3, f4⟩ := accountCpu_frame schedule ac cpu
    obtain ⟨k1, k2⟩ := accountCpu_counts schedule ac cpu
    have hT := accountCpu_tasks schedule ac cpu
    -- a task that is not the entry of `cpu` keeps its record in the first step
    have hkeep : ∀ id, (schedule.getD cpu "idle" = id → id = "idle") →
        (accountCpu schedule ac cpu).s.tasks id = ac.s.tasks id := by
      intro id hid
      rw [hT]
      split_ifs with h
      · apply Map.set_other
        intro he
        exact h (he ▸ hid he.symm)
      · rfl
    -- an entry of a later CPU is not the entry of `cpu`
    have hlater : ∀ c ∈ rest, schedule.getD c "idle" ≠ "idle" →
        (schedule.getD cpu "idle" = schedule.getD c "idle" → schedule.getD c "idle" = "idle") := by
      intro c hc hne he
      have hcc : cpu ≠ c := fun h => hnd'.1 (h ▸ hc)
      have := hd cpu (List.mem_cons_self _ _) c (List.mem_cons_of_mem _ hc) hcc he
      rw [← he]; exact this
    refine ⟨i1.trans f1, i2.trans f2, i3.trans f3, i4.trans f4, ?_, ?_, ?_, ?_⟩
    · intro id hid
      rw [i5 id (fun c hc => hid c (List.mem_cons_of_mem _ hc))]
      exact hkeep id (hid cpu (List.mem_cons_self _ _))
    · intro c hc hne
      rcases List.mem_cons.1 hc with h | h
      · subst h
        rw [i5 _ (fun c' hc' he => ?_), hT, if_pos hne, Map.set_same]
        have hcc : c' ≠ c := fun h => hnd'.1 (h ▸ hc')
        exact he ▸ hd c' (List.mem_cons_of_mem _ hc') c (List.mem_cons_self _ _) hcc he
      · rw [i6 c h hne]
        congr 1
        exact accountedTask_congr (hkeep _ (hlater c h hne)) f1 f2 c
    · rw [i7, k1, f3, List.countP_cons]
      split_ifs <;> omega
    · rw [i8, k2, List.countP_cons]
      have hcongr : rest.countP (movedAt (accountCpu schedule ac cpu).s schedule) =
          rest.countP (movedAt ac.s schedule) := by
        apply List.countP_congr
        intro c hc
        unfold movedAt
        by_cases hne : schedule.getD c "idle" ≠ "idle"
        · have : (accountCpu schedule ac cpu).s.taskAt (schedule.getD c "idle") =
              ac.s.taskAt (schedule.getD c "idle") := by
            unfold taskAt
            rw [hkeep _ (hlater c hc hne)]
          rw [this]
        · simp only [decide_eq_true_eq]
          constructor <;> intro h <;> exact absurd h.1 hne
      rw [hcongr]
      split_ifs <;> omega

end Scheduler

end Alfs

namespace Alfs

namespace Scheduler

theorem getD_of_getElem? {l : List String} {c : Nat} {t : String} (h : l[c]? = some t)
    (d : String) : l.getD c d = t := by
  rw [List.getD_eq_getElem?_getD, h]
  rfl

theorem getElem?_getD_of_lt {l : List String} {c : Nat} (h : c < l.length) (d : String) :
    l[c]? = some (l.getD c d) := by
  rw [List.getD_eq_getElem?_getD, List.getElem?_eq_getElem h]
  rfl

theorem movedAt_congr {s s1 : Scheduler} (h : s1.tasks = s.tasks) (schedule : List String)
    (c : Nat) : movedAt s1 schedule c = movedAt s schedule c := by
  unfold movedAt taskAt
  rw [h]

/-- What the selection and accounting of one tick do from a consistent state `s`: the
schedule has one entry per CPU, no task id is the entry of two CPUs, a task that is
the entry of CPU `c` was queued, could run on `c` and gets the record `accountedTask`
computes from its record in `s`, every other task keeps its record, and the two
counters are the numbers of CPUs that pass the tests of the accounting loop. -/
theorem dispatch_char {s : Scheduler} (hC : s.Consistent) (vtime : Int) :
    (s.dispatch vtime).2.schedule.length = s.cpuCount ∧
    (∀ (c1 c2 : Nat) (t : String), c1 ≠ c2 → (s.dispatch vtime).2.schedule[c1]? = some t →
      (s.dispatch vtime).2.schedule[c2]? = some t → t = "idle") ∧
    (∀ (c : Nat) (t : String), (s.dispatch vtime).2.schedule[c]? = some t → t ≠ "idle" →
      c < s.cpuCount ∧ s.rq.contains t = true ∧
      (∃ task, s.tasks t = some task ∧ (s.canTaskRunOnCPU task c).1 = true) ∧
      (s.dispatch vtime).1.tasks t = some (s.accountedTask t c)) ∧
    (∀ id, (∀ c : Nat, (s.dispatch vtime).2.schedule[c]? = some id → id = "idle") →
      (s.dispatch vtime).1.tasks id = s.tasks id) ∧
    (s.dispatch vtime).2.preemptions =
      ((List.range s.cpuCount).countP
        (preemptedAt (s.dispatch vtime).2.schedule s.lastSchedule) : Nat) ∧
    (s.dispatch vtime).2.migrations =
      ((List.range s.cpuCount).countP (movedAt s (s.dispatch vtime).2.schedule) : Nat) ∧
    (s.dispatch vtime).1.lastSchedule = (s.dispatch vtime).2.schedule ∧
    (s.dispatch vtime).1.cgroups = s.cgroups ∧
    (s.dispatch vtime).2.vtime = vtime := by
  have hs := selectAll_spec s hC
  have hf := selectAll_from s hC
  have hcpu : s.selectAll.1.cpuCount = s.cpuCount := by rw [hs.1]
  have htasks : s.selectAll.1.tasks = s.tasks := by rw [hs.1]
  have hcg : s.selectAll.1.cgroups = s.cgroups := by rw [hs.1]
  have hq : s.selectAll.1.quanta = s.quanta := by rw [hs.1]
  have hlast : s.selectAll.1.lastSchedule = s.lastSchedule := by rw [hs.1]
  have hlen := hs.2.2.1
  have hdist : DistinctOn s.selectAll.2 (List.range s.cpuCount) := by
    intro c1 h1 c2 h2 hne he
    have l1 : c1 < s.selectAll.2.length := by rw [hlen]; exact List.mem_range.1 h1
    have l2 : c2 < s.selectAll.2.length := by rw [hlen]; exact List.mem_range.1 h2
    refine hf.2.2 c1 c2 _ hne (getElem?_getD_of_lt l1 "idle") ?_
    rw [he]
    exact getElem?_getD_of_lt l2 "idle"
  have hch := accountLoop_char s.selectAll.2 (List.range s.cpuCount)
    { s := s.selectAll.1, preemptions := 0, migrations := 0 } (List.nodup_range _) hdist
  obtain ⟨k1, k2, k3, k4, k5, k6, k7, k8⟩ := hch
  dsimp only at k1 k2 k3 k4 k5 k6 k7 k8
  have hd1 : (s.dispatch vtime).1.tasks =
      (accountLoop s.selectAll.2 { s := s.selectAll.1, preemptions := 0, migrations := 0 }
        (List.range s.cpuCount)).s.tasks := by
    simp only [dispatch, accountAll, hcpu]
  have hd2 : (s.dispatch vtime).2.schedule = s.selectAll.2 := rfl
  have hd3 : (s.dispatch vtime).2.preemptions =
      (accountLoop s.selectAll.2 { s := s.selectAll.1, preemptions := 0, migrations := 0 }
        (List.range s.cpuCount)).preemptions := by
    simp only [dispatch, accountAll, hcpu]
  have hd4 : (s.dispatch vtime).2.migrations =
      (accountLoop s.selectAll.2 { s := s.selectAll.1, preemptions := 0, migrations := 0 }
        (List.range s.cpuCount)).migrations := by
    simp only [dispatch, accountAll, hcpu]
  have hd5 : (s.dispatch vtime).1.cgroups =
      (accountLoop s.selectAll.2 { s := s.selectAll.1, preemptions := 0, migrations := 0 }
        (List.range s.cpuCount)).s.cgroups := by
    simp only [dispatch, accountAll, hcpu]
  rw [hd1, hd2, hd3, hd4, hd5]
  refine ⟨hlen, hf.2.2, ?_, ?_, ?_, ?_, rfl, k1.trans hcg, rfl⟩
  · intro c t hc hne
    obtain ⟨hlt, task, ht, hrun⟩ := hs.2.2.2 c t hc hne
    have hg := getD_of_getElem? hc "idle"
    have := k6 c (List.mem_range.2 hlt) (by rw [hg]; exact hne)
    rw [hg] at this
    refine ⟨hlt, hf.2.1 c t hc hne, ⟨task, ht, hrun⟩, ?_⟩
    rw [this]
    congr 1
    exact accountedTask_congr (by rw [htasks]) hcg hq c
  · intro id hid
    rw [k5 id, htasks]
    intro c hc he
    have l1 : c < s.selectAll.2.length := by rw [hlen]; exact List.mem_range.1 hc
    refine hid c ?_
    rw [← he]
    exact getElem?_getD_of_lt l1 "idle"
  · rw [k7, hlast]
    simp
  · rw [k8]
    simp only [zero_add]
    congr 1
    apply List.countP_congr
    intro c _
    rw [movedAt_congr htasks]

end Scheduler

end Alfs

namespace Alfs

namespace Scheduler

end Scheduler

end Alfs

namespace Alfs

namespace Scheduler

theorem EventFrame.same_state (s : Scheduler) : EventFrame s s :=
  ⟨rfl, rfl, rfl, fun _ t ht => ⟨t, ht, rfl⟩, fun id t1 h1 h2 => by rw [h1] at h2; cases h2⟩

theorem EventFrame.then {s s1 s2 : Scheduler} (h1 : EventFrame s s1) (h2 : EventFrame s1 s2) :
    EventFrame s s2 := by
  obtain ⟨a1, a2, a3, a4, a5⟩ := h1
  obtain ⟨b1, b2, b3, b4, b5⟩ := h2
  refine ⟨b1.trans a1, b2.trans a2, b3.trans a3, ?_, ?_⟩
  · intro id t ht
    obtain ⟨t1, ht1, hl1⟩ := a4 id t ht
    obtain ⟨t2, ht2, hl2⟩ := b4 id t1 ht1
    exact ⟨t2, ht2, hl2.trans hl1⟩
  · intro id t2 ht2 hnone
    cases h : s1.tasks id with
    | none => exact b5 id t2 ht2 h
    | some t1 =>
      obtain ⟨t2', ht2', hl⟩ := b4 id t1 h
      rw [ht2] at ht2'
      cases ht2'
      rw [hl]
      exact a5 id t1 h hnone

theorem Change.frame {s s1 : Scheduler} (hE : Change s s1) : EventFrame s s1 := by
  have hset : ∀ (id : String) (t : Task) (t1 : Task) (rq1 : MinHeap),
      s.tasks id = some t → t1.lastCpu = t.lastCpu →
      EventFrame s { s with tasks := Map.set s.tasks id t1, rq := rq1 } := by
    intro id t t1 rq1 ht hl
    refine ⟨rfl, rfl, rfl, ?_, ?_⟩
    · intro x t0 hx
      by_cases hxi : x = id
      · subst hxi
        rw [ht] at hx
        cases hx
        exact ⟨t1, Map.set_same _ _ _, hl⟩
      · exact ⟨t0, by simp only [Map.set_other _ _ hxi]; exact hx, rfl⟩
    · intro x t0 hx hnone
      by_cases hxi : x = id
      · subst hxi
        rw [ht] at hnone
        cases hnone
      · simp only [Map.set_other _ _ hxi] at hx
        rw [hx] at hnone
        cases hnone
  cases hE with
  | same => exact EventFrame.same_state s
  | create id t1 hnew hst hlc hcg =>
    refine ⟨rfl, rfl, rfl, ?_, ?_⟩
    · intro x t0 hx
      have hxi : x ≠ id := fun h => by rw [h, hnew] at hx; cases hx
      exact ⟨t0, by simp only [Map.set_other _ _ hxi]; exact hx, rfl⟩
    · intro x t0 hx hnone
      by_cases hxi : x = id
      · subst hxi
        simp only [Map.set_same, Option.some.injEq] at hx
        subst hx
        exact hlc
      · simp only [Map.set_other _ _ hxi] at hx
        rw [hx] at hnone
        cases hnone
  | leave id t st ht hst hex => exact hset id t _ _ ht rfl
  | wake id t t1 ht hne hst hcg hlc => exact hset id t t1 _ ht hlc
  | modify id t t1 rq1 ht hne hst hlc hcg hrq => exact hset id t t1 rq1 ht hlc
  | cgroup id cg =>
    exact ⟨rfl, rfl, rfl, fun _ t ht => ⟨t, ht, rfl⟩,
      fun id t1 h1 h2 => by rw [h1] at h2; cases h2⟩
  | cgroupDel id hne =>
    have hl : ∀ t, (reparent id t).lastCpu = t.lastCpu := by
      intro t; unfold reparent; split <;> rfl
    refine ⟨rfl, rfl, rfl, ?_, ?_⟩
    · intro x t0 hx
      exact ⟨reparent id t0, by simp [hx], hl t0⟩
    · intro x t0 hx hnone
      simp [hnone] at hx

theorem applyEvents_frame : ∀ (events : List Json) {s s1 : Scheduler},
    s.applyEvents events = some s1 → EventFrame s s1 := by
  intro events
  induction events with
  | nil =>
    intro s s1 h
    simp only [applyEvents, Option.some.injEq] at h
    rw [← h]
    exact EventFrame.same_state s
  | cons e rest ih =>
    intro s s1 h
    simp only [applyEvents, Option.bind_eq_some] at h
    obtain ⟨s2, h2, h3⟩ := h
    exact (applyEvent_change h2).frame.then (ih h3)

theorem dispatch_params {s : Scheduler} (hC : s.Consistent) (vtime : Int) :
    (s.dispatch vtime).1.cpuCount = s.cpuCount ∧ (s.dispatch vtime).1.quanta = s.quanta := by
  have hs := selectAll_spec s hC
  have h := accountLoop_ok s.selectAll.2 (List.range s.selectAll.1.cpuCount)
    { s := s.selectAll.1, preemptions := 0, migrations := 0 } hs.2.1
  obtain ⟨-, -, a3, a4, -⟩ := h
  have hcpu : s.selectAll.1.cpuCount = s.cpuCount := by rw [hs.1]
  have hq : s.selectAll.1.quanta = s.quanta := by rw [hs.1]
  exact ⟨a3.trans hcpu, a4.trans hq⟩

theorem Reachable.params {cpuCount : Nat} {quanta : Int} {s : Scheduler}
    (h : Reachable cpuCount quanta s) : s.cpuCount = cpuCount ∧ s.quanta = quanta := by
  induction h with
  | init => exact ⟨rfl, rfl⟩
  | event e _ he ih =>
    have := (applyEvent_change he).frame
    exact ⟨this.1.trans ih.1, this.2.1.trans ih.2⟩
  | tick vtime hr ih =>
    have := dispatch_params hr.consistent vtime
    exact ⟨this.1.trans ih.1, this.2.trans ih.2⟩

theorem runTick_of_events {s s2 : Scheduler} {events : List Json}
    (hev : s.applyEvents events = some s2) (vtime : Int) :
    s.runTick vtime events = some (s2.dispatch vtime) := by
  unfold runTick
  rw [hev]
  rfl

theorem accountedTask_eq {s : Scheduler} {id : String} {t : Task} (ht : s.tasks id = some t)
    (c : Nat) :
    s.accountedTask id c =
      { t with
        lastCpu := (c : Int)
        vruntime := wrap64 (t.vruntime + s.vruntimeDelta t)
        burstRemaining :=
          if t.burstRemaining > 0 then t.burstRemaining - 1 else t.burstRemaining } := by
  have hd : s.vruntimeDelta { t with lastCpu := (c : Int) } = s.vruntimeDelta t := rfl
  unfold accountedTask taskAt
  simp only [ht, Option.getD_some, hd]
  split_ifs <;> rfl

end Scheduler

end Alfs

namespace Alfs

namespace Scheduler

end Scheduler

end Alfs

namespace Alfs

namespace Scheduler

/-! ## C14: conservation -/

theorem nodup_nonIdle : ∀ (l : List String),
    (∀ (c1 c2 : Nat) (t : String), c1 ≠ c2 → l[c1]? = some t → l[c2]? = some t → t = "idle") →
    (l.filter (fun x => decide (x ≠ "idle"))).Nodup := by
  intro l
  induction l with
  | nil => intro _; exact List.nodup_nil
  | cons x xs ih =>
    intro h
    have hxs := ih (fun c1 c2 t hne h1 h2 =>
      h (c1 + 1) (c2 + 1) t (by omega) (by simpa using h1) (by simpa using h2))
    rw [List.filter_cons]
    split_ifs with hx
    · refine List.nodup_cons.2 ⟨fun hm => ?_, hxs⟩
      have hmem := (List.mem_filter.1 hm).1
      obtain ⟨j, hj⟩ := List.mem_iff_getElem?.1 hmem
      have := h 0 (j + 1) x (by omega) (by simp) (by simpa using hj)
      simp [this] at hx
    · exact hxs

theorem oneTaskState_events :
    (Scheduler.new 1 1).applyEvents [evCreateNice "A" 0] = some oneTaskState := by
  have h := taskCreate_nice (Scheduler.new 1 1) "A" 0 (by decide) (by decide)
    ⟨rootCgroup 1, by simp [Scheduler.new, Map.set]⟩ rfl rfl
  have hp0 : (Scheduler.new 1 1).rq = MinHeap.heap0 := rfl
  rw [hp0, MinHeap.push_heap0] at h
  simp only [applyEvents, h, Option.some_bind]
  rfl

theorem oneTaskState_feasible (id : String) : id ∈ ["A"] ↔ Feasible oneTaskState id := by
  constructor
  · intro h
    rw [List.mem_singleton] at h
    subst h
    exact ⟨duoTask "A" 0 0 (-1), by simp [oneTaskState, Map.set], rfl, 0, by decide, by decide,
      by decide⟩
  · rintro ⟨t, ht, -⟩
    rw [List.mem_singleton]
    by_contra hne
    simp [oneTaskState, Map.set, hne, Scheduler.new, Map.empty] at ht

/-- C14 (conservation).  From every reachable state, for every tick whose events are
applied without an exception (`s2` is the state after them): the tick returns, the
returned schedule has `cpuCount` entries, and for every duplicate-free list `L` that
holds exactly the ids of the tasks that are RUNNABLE after the events and allowed on
at least one CPU by both masks (so `L.length` is their number), the number of
entries other than "idle" is at most min(cpuCount, L.length). -/
theorem c14_conservation (cpuCount : Nat) (quanta : Int) (s : Scheduler)
    (hr : Reachable cpuCount quanta s) (vtime : Int) (events : List Json) (s2 : Scheduler)
    (hev : s.applyEvents events = some s2) :
    s.runTick vtime events = some (s2.dispatch vtime) ∧
    (s2.dispatch vtime).2.schedule.length = cpuCount ∧
    ∀ L : List String, L.Nodup → (∀ id, id ∈ L ↔ Feasible s2 id) →
      nonIdle (s2.dispatch vtime).2.schedule ≤ min cpuCount L.length := by
  have hr2 := Reachable.after_events events hr hev
  have hC := hr2.consistent
  obtain ⟨d1, d2, d3, -⟩ := dispatch_char hC vtime
  have hcpu := hr2.params.1
  refine ⟨runTick_of_events hev vtime, d1.trans hcpu, ?_⟩
  intro L _ hL
  have hnd := nodup_nonIdle _ d2
  have hsub : (s2.dispatch vtime).2.schedule.filter (fun x => decide (x ≠ "idle")) ⊆ L := by
    intro t ht
    obtain ⟨hmem, hne⟩ := List.mem_filter.1 ht
    have hne' : t ≠ "idle" := by simpa using hne
    obtain ⟨c, hc⟩ := List.mem_iff_getElem?.1 hmem
    obtain ⟨hlt, -, ⟨task, htask, hrun⟩, -⟩ := d3 c t hc hne'
    obtain ⟨r1, r2, r3⟩ := canTaskRunOnCPU_true hrun
    exact (hL t).2 ⟨task, htask, r1, c, hlt, r2, r3⟩
  have h1 : nonIdle (s2.dispatch vtime).2.schedule ≤ L.length := by
    unfold nonIdle
    rw [List.countP_eq_length_filter]
    exact (hnd.subperm hsub).length_le
  have h2 : nonIdle (s2.dispatch vtime).2.schedule ≤ cpuCount := by
    unfold nonIdle
    rw [← hcpu, ← d1]
    exact List.countP_le_length _
  exact le_min h2 h1

/-- C14 applied to the first tick of a one-CPU scheduler whose batch creates "A": the
feasible tasks are exactly ["A"], and at most one entry is not "idle". -/
theorem c14_conservation_witness :
    (Scheduler.new 1 1).runTick 0 [evCreateNice "A" 0] = some (oneTaskState.dispatch 0) ∧
    (oneTaskState.dispatch 0).2.schedule.length = 1 ∧
    nonIdle (oneTaskState.dispatch 0).2.schedule ≤ min 1 ["A"].length := by
  have h := c14_conservation 1 1 (Scheduler.new 1 1) Reachable.init 0 [evCreateNice "A" 0]
    oneTaskState oneTaskState_events
  exact ⟨h.1, h.2.1, h.2.2 ["A"] (by decide) oneTaskState_feasible⟩

end Scheduler

end Alfs

namespace Alfs

namespace Scheduler

end Scheduler

end Alfs

namespace Alfs

namespace Scheduler

/-! ## C16: preemption and migration counts -/

theorem preemptedAt_fresh (schedule : List String) (n c : Nat) :
    preemptedAt schedule (List.replicate n "idle") c = false := by
  unfold preemptedAt
  have : (List.replicate n "idle").getD c "idle" = "idle" := by
    rw [List.getD_eq_getElem?_getD, List.getElem?_replicate]
    split_ifs <;> rfl
  rw [this]
  simp

/-- C16 (preemption and migration counts).  From every reachable state `s`, for every
tick whose events are applied without an exception (`s2` is the state after them):
the tick returns; the reported preemptions are the number of CPUs `c` whose entry
differs from `lastSchedule[c]` of `s` with `lastSchedule[c] ≠ "idle"`; the reported
migrations are the number of CPUs `c` whose assigned task had `lastCpu ≥ 0` and
`lastCpu ≠ c` in `s`; afterwards every assigned task has `lastCpu` equal to its CPU
and `lastSchedule` is the returned schedule; and when `s` is the fresh scheduler
both counters are 0. -/
theorem c16_preemption_migration_counts (cpuCount : Nat) (quanta : Int) (s : Scheduler)
    (hr : Reachable cpuCount quanta s) (vtime : Int) (events : List Json) (s2 : Scheduler)
    (hev : s.applyEvents events = some s2) :
    s.runTick vtime events = some (s2.dispatch vtime) ∧
    (s2.dispatch vtime).2.preemptions =
      (preemptionCount (s2.dispatch vtime).2.schedule s.lastSchedule cpuCount : Nat) ∧
    (s2.dispatch vtime).2.migrations =
      (migrationCount s.tasks (s2.dispatch vtime).2.schedule cpuCount : Nat) ∧
    (∀ (c : Nat) (t : String), (s2.dispatch vtime).2.schedule[c]? = some t → t ≠ "idle" →
      ∃ task, (s2.dispatch vtime).1.tasks t = some task ∧ task.lastCpu = (c : Int)) ∧
    (s2.dispatch vtime).1.lastSchedule = (s2.dispatch vtime).2.schedule ∧
    (s = Scheduler.new cpuCount quanta →
      (s2.dispatch vtime).2.preemptions = 0 ∧ (s2.dispatch vtime).2.migrations = 0) := by
  have hr2 := Reachable.after_events events hr hev
  have hC := hr2.consistent
  obtain ⟨d1, d2, d3, d4, d5, d6, d7, d8, d9⟩ := dispatch_char hC vtime
  have hcpu := hr2.params.1
  obtain ⟨f1, f2, f3, f4, f5⟩ := applyEvents_frame events hev
  have hP := hr.sound.lastCpuOk
  have hpre : (s2.dispatch vtime).2.preemptions =
      (preemptionCount (s2.dispatch vtime).2.schedule s.lastSchedule cpuCount : Nat) := by
    rw [d5, f3, hcpu]
    rfl
  have hmig : (s2.dispatch vtime).2.migrations =
      (migrationCount s.tasks (s2.dispatch vtime).2.schedule cpuCount : Nat) := by
    rw [d6, hcpu]
    unfold migrationCount
    congr 1
    apply List.countP_congr
    intro c hc
    have hlt : c < (s2.dispatch vtime).2.schedule.length := by
      rw [d1, hcpu]; exact List.mem_range.1 hc
    unfold movedAt migratedAt
    by_cases hne : (s2.dispatch vtime).2.schedule.getD c "idle" ≠ "idle"
    · obtain ⟨-, -, ⟨task, htask, -⟩, -⟩ := d3 c _ (getElem?_getD_of_lt hlt "idle") hne
      have hat : s2.taskAt ((s2.dispatch vtime).2.schedule.getD c "idle") = task := by
        unfold taskAt; rw [htask]; rfl
      rw [hat]
      cases hs : s.tasks ((s2.dispatch vtime).2.schedule.getD c "idle") with
      | none =>
        have := f5 _ task htask hs
        simp [this]
      | some t =>
        obtain ⟨t1, ht1, hl⟩ := f4 _ t hs
        rw [htask] at ht1
        cases ht1
        have := hP _ t hs
        rw [hl]
        simp only [decide_eq_true_eq]
        constructor
        · rintro ⟨a, b, c'⟩; exact ⟨a, by omega, c'⟩
        · rintro ⟨a, b, c'⟩; exact ⟨a, by omega, c'⟩
    · have h1 : decide ((s2.dispatch vtime).2.schedule.getD c "idle" ≠ "idle" ∧
          (s2.taskAt ((s2.dispatch vtime).2.schedule.getD c "idle")).lastCpu ≠ -1 ∧
          (s2.taskAt ((s2.dispatch vtime).2.schedule.getD c "idle")).lastCpu ≠ (c : Int))
          = false := by
        rw [decide_eq_false_iff_not]
        exact fun h => hne h.1
      rw [h1]
      cases hs : s.tasks ((s2.dispatch vtime).2.schedule.getD c "idle") with
      | none => simp
      | some t =>
        simp only [Bool.false_eq_true, decide_eq_true_eq, false_iff]
        exact fun h => hne h.1
  refine ⟨runTick_of_events hev vtime, hpre, hmig, ?_, d7, ?_⟩
  · intro c t hc hne
    obtain ⟨-, -, -, hacc⟩ := d3 c t hc hne
    exact ⟨_, hacc, accountedTask_lastCpu s2 t c⟩
  · intro hnew
    rw [hpre, hmig, hnew]
    constructor
    · unfold preemptionCount
      have : (Scheduler.new cpuCount quanta).lastSchedule = List.replicate cpuCount "idle" := rfl
      rw [this, List.countP_eq_zero.2 (fun c _ => by rw [preemptedAt_fresh]; simp)]
      rfl
    · unfold migrationCount
      rw [List.countP_eq_zero.2 (fun c _ => by
        unfold migratedAt
        simp [Scheduler.new, Map.empty])]
      rfl

set_option maxRecDepth 100000 in
/-- C16 applied to the second tick of the sample state (one CPU, "A" ran on the first
tick): "B" replaces "A", one preemption and no migration. -/
theorem c16_preemption_migration_counts_witness :
    sampleState.runTick 1 [] = some (sampleState.dispatch 1) ∧
    (sampleState.dispatch 1).2.schedule = ["B"] ∧
    (sampleState.dispatch 1).2.preemptions = 1 ∧
    (sampleState.dispatch 1).2.migrations = 0 ∧
    (sampleState.dispatch 1).1.lastSchedule = ["B"] := by
  have h := c16_preemption_migration_counts 1 1 sampleState sampleState_reachable 1 []
    sampleState rfl
  have hs : (sampleState.dispatch 1).2.schedule = ["B"] := by decide
  refine ⟨h.1, hs, ?_, ?_, ?_⟩
  · rw [h.2.1, hs]; decide
  · rw [h.2.2.1, hs]; decide
  · rw [h.2.2.2.2.1, hs]

end Scheduler

end Alfs

namespace Alfs

namespace Scheduler

/-! ## C20: no double assignment -/

/-- C20 (no double assignment).  From every reachable state, for every tick whose events
are applied without an exception (`s2` is the state after them): the tick returns;
two different CPU indices hold the same entry only if it is "idle"; a task that is
no entry of the schedule keeps its record; and a task that is the entry of CPU `c`
had a record `t` after the events and has, after the tick, that record with
`vruntime` advanced once by its delta, `burstRemaining` counted down once when it
was positive, and `lastCpu = c`. -/
theorem c20_no_double_assignment (cpuCount : Nat) (quanta : Int) (s : Scheduler)
    (hr : Reachable cpuCount quanta s) (vtime : Int) (events : List Json) (s2 : Scheduler)
    (hev : s.applyEvents events = some s2) :
    s.runTick vtime events = some (s2.dispatch vtime) ∧
    (∀ (c1 c2 : Nat) (t : String), c1 ≠ c2 → (s2.dispatch vtime).2.schedule[c1]? = some t →
      (s2.dispatch vtime).2.schedule[c2]? = some t → t = "idle") ∧
    (∀ id, (∀ c : Nat, (s2.dispatch vtime).2.schedule[c]? = some id → id = "idle") →
      (s2.dispatch vtime).1.tasks id = s2.tasks id) ∧
    (∀ (c : Nat) (id : String), (s2.dispatch vtime).2.schedule[c]? = some id → id ≠ "idle" →
      ∃ t, s2.tasks id = some t ∧
        (s2.dispatch vtime).1.tasks id = some
          { t with
            lastCpu := (c : Int)
            vruntime := wrap64 (t.vruntime + s2.vruntimeDelta t)
            burstRemaining :=
              if t.burstRemaining > 0 then t.burstRemaining - 1 else t.burstRemaining }) := by
  have hr2 := Reachable.after_events events hr hev
  have hC := hr2.consistent
  obtain ⟨-, d2, d3, d4, -⟩ := dispatch_char hC vtime
  refine ⟨runTick_of_events hev vtime, d2, d4, ?_⟩
  intro c id hc hne
  obtain ⟨-, -, ⟨task, htask, -⟩, hacc⟩ := d3 c id hc hne
  exact ⟨task, htask, by rw [hacc, accountedTask_eq htask]⟩

set_option maxRecDepth 100000 in
/-- C20 applied to the first tick of a two-CPU scheduler whose batch creates "A": "A" is
on CPU 0 only, and its vruntime is advanced once, from 0 to 1. -/
theorem c20_no_double_assignment_witness :
    ∃ s2, (Scheduler.new 2 1).applyEvents [evCreate "A"] = some s2 ∧
      (s2.dispatch 0).2.schedule = ["A", "idle"] ∧
      ((s2.dispatch 0).1.tasks "A").map Task.vruntime = some 1 := by
  have hs : ((Scheduler.new 2 1).applyEvents [evCreate "A"]).isSome = true := by decide
  obtain ⟨s2, hs2⟩ := Option.isSome_iff_exists.1 hs
  have h := c20_no_double_assignment 2 1 (Scheduler.new 2 1) Reachable.init 0 [evCreate "A"]
    s2 hs2
  have h1 : ((Scheduler.new 2 1).applyEvents [evCreate "A"]).map
      (fun s2 => ((s2.dispatch 0).2.schedule, (s2.tasks "A").map Task.vruntime,
        (s2.tasks "A").map s2.vruntimeDelta)) = some (["A", "idle"], some 0, some 1) := by
    decide
  rw [hs2] at h1
  simp only [Option.map_some', Option.some.injEq, Prod.mk.injEq] at h1
  obtain ⟨a1, a2, a3⟩ := h1
  refine ⟨s2, hs2, a1, ?_⟩
  obtain ⟨t, ht, hacc⟩ := h.2.2.2 0 "A" (by rw [a1]; rfl) (by decide)
  rw [ht] at a2 a3
  simp only [Option.map_some', Option.some.injEq] at a2 a3
  rw [hacc]
  simp only [Option.map_some', a2, a3]
  rfl

end Scheduler

end Alfs

namespace Alfs

namespace Scheduler

end Scheduler

end Alfs

namespace Alfs

namespace Scheduler

/-! ## C13: two equal-weight tasks alternate -/

theorem taskCreate_default (s : Scheduler) (id : String)
    (hroot : ∃ cg, s.cgroups "0" = some cg) (hnew : s.tasks id = none)
    (hcpu : s.cpuCount = 1) :
    s.applyEvent (evCreate id) =
      some { s with tasks := Map.set s.tasks id (duoTask id 0 s.maxVruntime (-1)),
                    rq := s.rq.push (Map.set s.tasks id (duoTask id 0 s.maxVruntime (-1))) id } := by
  have ha : strField (evCreate id) "action" = some "TASK_CREATE" := rfl
  have hi : strField (evCreate id) "taskId" = some id := rfl
  have hn : optInt (evCreate id) "nice" 0 = some 0 := rfl
  have hc : optStr (evCreate id) "cgroupId" "0" = some "0" := rfl
  obtain ⟨cg, hcg⟩ := hroot
  have hex : s.taskExists id = false := by simp [taskExists, hnew]
  rw [applyEvent_create s _ ha]
  unfold taskCreate
  simp only [hi, Option.some_bind, hex, Bool.false_eq_true, if_false, hn, hc, hcg,
    Option.isNone_some, clamp_nice_small (show (-20 : Int) ≤ 0 by decide)
      (show (0 : Int) ≤ 19 by decide), hcpu]
  rfl

theorem AltInv.at_start (q : Int) :
    ∃ s, (Scheduler.new 1 q).applyEvents [evCreate "A", evCreate "B"] = some s ∧
      AltInv q 0 s := by
  have hne : "A" ≠ "B" := by decide
  have hr0 : (Scheduler.new 1 q).cgroups "0" = some (rootCgroup 1) := by
    simp [Scheduler.new, Map.set]
  have e1 := taskCreate_default (Scheduler.new 1 q) "A" ⟨_, hr0⟩ rfl rfl
  have hp0 : (Scheduler.new 1 q).rq = MinHeap.heap0 := rfl
  rw [hp0, MinHeap.push_heap0] at e1
  have e2 := taskCreate_default
    { Scheduler.new 1 q with
      tasks := Map.set (Scheduler.new 1 q).tasks "A"
        (duoTask "A" 0 (Scheduler.new 1 q).maxVruntime (-1)),
      rq := MinHeap.heap1 "A" } "B"
    ⟨_, hr0⟩
    (by simp [Scheduler.new, Map.set, Map.empty]) rfl
  dsimp only at e2
  rw [MinHeap.push_heap1 _ (Ne.symm hne)] at e2
  have hev : (Scheduler.new 1 q).applyEvents [evCreate "A", evCreate "B"] =
      some { Scheduler.new 1 q with
        tasks := Map.set (Map.set (Scheduler.new 1 q).tasks "A" (duoTask "A" 0 0 (-1))) "B"
          (duoTask "B" 0 0 (-1)),
        rq :=
          if MinHeap.lessId (Map.set (Map.set (Scheduler.new 1 q).tasks "A"
              (duoTask "A" 0 0 (-1))) "B" (duoTask "B" 0 0 (-1))) "B" "A" then
            MinHeap.heap2 "B" "A"
          else MinHeap.heap2 "A" "B" } := by
    simp only [applyEvents, e1, Option.some_bind, e2]
    rfl
  refine ⟨_, hev, ⟨rfl, rfl, hr0, ⟨-1, ?_⟩, ⟨-1, ?_⟩, ?_⟩, rfl, ?_⟩
  · simp [Map.set, Scheduler.new]
  · simp [Map.set, Scheduler.new]
  · dsimp only
    split_ifs with hl
    · exact Or.inr ⟨rfl, MinHeap.lessId_asymm _ hl⟩
    · exact Or.inl ⟨rfl, by simpa using hl⟩
  · intro id t ht
    left
    dsimp only at ht
    by_cases h2 : id = "B"
    · rw [h2, Map.set_same] at ht
      cases ht; rfl
    · rw [Map.set_other _ _ h2] at ht
      by_cases h1 : id = "A"
      · rw [h1, Map.set_same] at ht
        cases ht; rfl
      · rw [Map.set_other _ _ h1] at ht
        cases ht

theorem duoDelta_default {q : Int} (hq1 : 1 ≤ q) (hq2 : q * 1024 ≤ INT64_MAX) :
    duoDelta q 0 = q := by
  rw [duoDelta_eq hq1 hq2 (by decide) (by decide)]
  have : nice_to_weight 0 = 1024 := by decide
  rw [this, Int.mul_ediv_cancel _ (by decide)]
  exact max_eq_right hq1

/-- The record of a one-CPU tick from a two-task state whose schedule is `[x]`. -/
theorem duo_tick_out {s : Scheduler} (hC : s.Consistent) (hcpu : s.cpuCount = 1)
    {p x : String} (hlast : s.lastSchedule = [p])
    (hlc : ∀ id t, s.tasks id = some t → t.lastCpu = -1 ∨ t.lastCpu = 0) (vtime : Int)
    (hx : (s.dispatch vtime).2.schedule = [x]) :
    (s.dispatch vtime).2 =
      { vtime := vtime, schedule := [x],
        preemptions := if x ≠ p ∧ p ≠ "idle" then 1 else 0, migrations := 0 } ∧
    (s.dispatch vtime).1.lastSchedule = [x] ∧
    ∀ id t, (s.dispatch vtime).1.tasks id = some t → t.lastCpu = -1 ∨ t.lastCpu = 0 := by
  obtain ⟨d1, d2, d3, d4, d5, d6, d7, d8, d9⟩ := dispatch_char hC vtime
  have hpre : (s.dispatch vtime).2.preemptions = if x ≠ p ∧ p ≠ "idle" then 1 else 0 := by
    rw [d5, hcpu, hx, hlast]
    simp only [List.range_succ, List.range_zero, List.nil_append, List.countP_cons,
      List.countP_nil, preemptedAt, List.getD_cons_zero, decide_eq_true_eq]
    split_ifs <;> rfl
  have hmig : (s.dispatch vtime).2.migrations = 0 := by
    rw [d6, hcpu, hx]
    have : movedAt s [x] 0 = false := by
      unfold movedAt
      rw [decide_eq_false_iff_not]
      rintro ⟨-, h1, h2⟩
      simp only [List.getD_cons_zero] at h1 h2
      unfold taskAt at h1 h2
      cases ht : s.tasks x with
      | none =>
        rw [ht] at h1
        exact h1 rfl
      | some t =>
        rw [ht] at h1 h2
        rcases hlc x t ht with h | h
        · exact h1 h
        · exact h2 h
    simp [this]
  refine ⟨?_, d7.trans hx, ?_⟩
  · have heta : (s.dispatch vtime).2 =
        { vtime := (s.dispatch vtime).2.vtime, schedule := (s.dispatch vtime).2.schedule,
          preemptions := (s.dispatch vtime).2.preemptions,
          migrations := (s.dispatch vtime).2.migrations } := rfl
    rw [heta, d9, hx, hpre, hmig]
  · intro id t ht
    by_cases hsch : ∀ c : Nat, (s.dispatch vtime).2.schedule[c]? = some id → id = "idle"
    · rw [d4 id hsch] at ht
      exact hlc id t ht
    · push_neg at hsch
      obtain ⟨c, hc, hne⟩ := hsch
      obtain ⟨hlt, -, -, hacc⟩ := d3 c id hc hne
      rw [hacc] at ht
      cases ht
      right
      rw [accountedTask_lastCpu]
      rw [hcpu] at hlt
      have : c = 0 := by omega
      rw [this]
      rfl

theorem AltInv.tick {q : Int} {k : Nat} {s : Scheduler} (hr : Reachable 1 q s)
    (h : AltInv q k s) (hq1 : 1 ≤ q) (hq2 : q * 1024 ≤ INT64_MAX)
    (hb : (((k + 2) / 2 : Nat) : Int) * q ≤ INT64_MAX) (vtime : Int) :
    (s.dispatch vtime).2 = altOut k vtime ∧ AltInv q (k + 1) (s.dispatch vtime).1 := by
  obtain ⟨hduo, hlast, hlc⟩ := h
  have hstep := hduo.tick_step (by decide) (by decide) (by decide) (by decide) (by decide) vtime
  rw [duoDelta_default hq1 hq2] at hstep
  have hlt : MinHeap.strLt "A" "B" = true := by decide
  obtain ⟨m, hm | hm⟩ := Nat.even_or_odd' k
  · -- an even tick: both vruntimes are m * q, "A" runs
    have e1 : (k + 1) / 2 = m := by omega
    have e2 : k / 2 = m := by omega
    have e3 : (k + 2) / 2 = m + 1 := by omega
    have e4 : (k + 1 + 1) / 2 = m + 1 := by omega
    have e5 : k % 2 = 0 := by omega
    have e6 : (k + 1) % 2 = 1 := by omega
    rw [e1, e2] at hstep hduo
    rw [e3] at hb
    have hless : duoLess "A" "B" ((m : Int) * q) ((m : Int) * q) = true := by
      unfold duoLess
      rw [if_neg (by simp), hlt]
    obtain ⟨hsch, hnext⟩ := hstep.1 hless
    have hw : wrap64 ((m : Int) * q + q) = ((m + 1 : Nat) : Int) * q := by
      have hnn : (0 : Int) ≤ (m : Int) * q := by positivity
      rw [wrap64_id (by omega) (by push_cast at hb; linarith)]
      push_cast; ring
    rw [hw] at hnext
    obtain ⟨o1, o2, o3⟩ := duo_tick_out hr.consistent hr.params.1 hlast hlc vtime hsch
    refine ⟨?_, ⟨?_, ?_, o3⟩⟩
    · rw [o1]
      unfold altOut
      rw [e5, if_pos rfl]
      congr 1
      by_cases hk : k = 0
      · simp [hk]
      · have e7 : k % 2 ≠ 1 := by omega
        simp [hk, e7]
    · rw [e4, e1]
      exact hnext
    · rw [o2, if_neg (by omega), if_pos e6]
  · -- an odd tick: "A" is one run ahead, "B" runs
    have e1 : (k + 1) / 2 = m + 1 := by omega
    have e2 : k / 2 = m := by omega
    have e3 : (k + 2) / 2 = m + 1 := by omega
    have e4 : (k + 1 + 1) / 2 = m + 1 := by omega
    have e5 : k % 2 = 1 := by omega
    have e6 : (k + 1) % 2 = 0 := by omega
    rw [e1, e2] at hstep hduo
    rw [e3] at hb
    have hnn : (0 : Int) ≤ (m : Int) * q := by positivity
    have hless : duoLess "A" "B" (((m + 1 : Nat) : Int) * q) ((m : Int) * q) = false := by
      unfold duoLess
      have hne : ((m + 1 : Nat) : Int) * q ≠ (m : Int) * q := by
        push_cast; intro h; linarith
      rw [if_pos hne, decide_eq_false_iff_not]
      push_cast; linarith
    obtain ⟨hsch, hnext⟩ := hstep.2 hless
    have hw : wrap64 ((m : Int) * q + q) = ((m + 1 : Nat) : Int) * q := by
      rw [wrap64_id (by omega) (by push_cast at hb; linarith)]
      push_cast; ring
    rw [hw] at hnext
    have hk : k ≠ 0 := by omega
    rw [if_neg hk, if_pos e5] at hlast
    obtain ⟨o1, o2, o3⟩ := duo_tick_out hr.consistent hr.params.1 hlast hlc vtime hsch
    refine ⟨?_, ⟨?_, ?_, o3⟩⟩
    · rw [o1]
      unfold altOut
      simp [e5, hk]
    · rw [e4, show (k + 1) / 2 = m + 1 from e1]
      exact hnext
    · rw [o2, if_neg (by omega), if_neg (by omega)]

end Scheduler

end Alfs

namespace Alfs

namespace Scheduler

theorem runTicks_first {s s0 : Scheduler} {batch : List Json}
    (hev : s.applyEvents batch = some s0) (vtime : Int) (rest : List (List Json)) :
    s.runTicks vtime (batch :: rest) = s0.runTicks vtime ([] :: rest) := by
  simp only [runTicks, runTick_of_events hev, runTick_nil]

theorem runTicks_append : ∀ (xs : List (List Json)) (s : Scheduler) (vtime : Int)
    (ys : List (List Json)),
    s.runTicks vtime (xs ++ ys) =
      (s.runTicks vtime xs).bind fun r =>
        (r.1.runTicks (vtime + xs.length) ys).map fun r2 => (r2.1, r.2 ++ r2.2) := by
  intro xs
  induction xs with
  | nil =>
    intro s vtime ys
    simp only [List.nil_append, runTicks, Option.some_bind, List.length_nil, Nat.cast_zero,
      add_zero]
    cases s.runTicks vtime ys <;> rfl
  | cons x xs ih =>
    intro s vtime ys
    have e1 : s.runTicks vtime (x :: (xs ++ ys)) =
        (s.runTick vtime x).bind fun r =>
          (r.1.runTicks (vtime + 1) (xs ++ ys)).map fun q => (q.1, r.2 :: q.2) := rfl
    have e2 : s.runTicks vtime (x :: xs) =
        (s.runTick vtime x).bind fun r =>
          (r.1.runTicks (vtime + 1) xs).map fun q => (q.1, r.2 :: q.2) := rfl
    have hv : vtime + 1 + (xs.length : Int) = vtime + ((x :: xs).length : Int) := by
      simp only [List.length_cons]; push_cast; ring
    rw [List.cons_append, e1, e2]
    cases hx : s.runTick vtime x with
    | none => rfl
    | some r =>
      simp only [Option.some_bind]
      rw [ih, hv]
      cases r.1.runTicks (vtime + 1) xs with
      | none => rfl
      | some r1 =>
        simp only [Option.map_some', Option.some_bind]
        cases r1.1.runTicks (vtime + ((x :: xs).length : Int)) ys with
        | none => rfl
        | some r2 => rfl

theorem AltInv.ticks_run {q : Int} (hq1 : 1 ≤ q) (hq2 : q * 1024 ≤ INT64_MAX) :
    ∀ (n k : Nat) (s : Scheduler) (vtime : Int), Reachable 1 q s → AltInv q k s →
      (∀ j, k ≤ j → j < k + n → (((j + 2) / 2 : Nat) : Int) * q ≤ INT64_MAX) →
      ∃ s1 outs, s.runTicks vtime (List.replicate n []) = some (s1, outs) ∧
        Reachable 1 q s1 ∧ AltInv q (k + n) s1 ∧ outs.length = n ∧
        ∀ i, i < n → outs[i]? = some (altOut (k + i) (vtime + i)) := by
  intro n
  induction n with
  | zero =>
    intro k s vtime hr h _
    exact ⟨s, [], rfl, hr, h, rfl, fun i hi => absurd hi (Nat.not_lt_zero i)⟩
  | succ n ih =>
    intro k s vtime hr h hb
    obtain ⟨hout, hnext⟩ := h.tick hr hq1 hq2 (hb k (le_refl k) (by omega)) vtime
    obtain ⟨s1, outs, hrun, hr1, hinv, hlen, hget⟩ :=
      ih (k + 1) (s.dispatch vtime).1 (vtime + 1) (Reachable.tick vtime hr) hnext
        (fun j h1 h2 => hb j (by omega) (by omega))
    refine ⟨s1, (s.dispatch vtime).2 :: outs, ?_, hr1, ?_, ?_, ?_⟩
    · simp only [List.replicate_succ, runTicks, runTick_nil, Option.some_bind, hrun]
      rfl
    · rw [show k + (n + 1) = k + 1 + n by omega]
      exact hinv
    · simp [hlen]
    · intro i hi
      cases i with
      | zero =>
        simp only [List.getElem?_cons_zero, hout, Nat.add_zero, Nat.cast_zero, add_zero]
      | succ i =>
        simp only [List.getElem?_cons_succ]
        rw [hget i (by omega)]
        congr 2
        · omega
        · push_cast; ring

/-- The alternation run for `N` ticks from the fresh one-CPU scheduler. -/
theorem altBatches_run {q : Int} (hq1 : 1 ≤ q) (hq2 : q * 1024 ≤ INT64_MAX) (N : Nat)
    (hb : ∀ j, j < N → (((j + 2) / 2 : Nat) : Int) * q ≤ INT64_MAX) :
    ∃ s outs, (Scheduler.new 1 q).runTicks 0 (altBatches N) = some (s, outs) ∧
      outs.length = N ∧ (0 < N → Reachable 1 q s ∧ AltInv q N s) ∧
      ∀ k, k < N → outs[k]? = some (altOut k k) := by
  cases N with
  | zero =>
    exact ⟨_, [], rfl, rfl, fun h => absurd h (Nat.lt_irrefl 0),
      fun k hk => absurd hk (Nat.not_lt_zero k)⟩
  | succ n =>
    obtain ⟨s0, hev, hinv⟩ := AltInv.at_start q
    have hr0 : Reachable 1 q s0 := Reachable.after_events _ Reachable.init hev
    obtain ⟨s1, outs, hrun, hr1, hinv1, hlen, hget⟩ :=
      AltInv.ticks_run hq1 hq2 (n + 1) 0 s0 0 hr0 hinv (fun j _ h2 => hb j (by omega))
    refine ⟨s1, outs, ?_, hlen, fun _ => ⟨hr1, by simpa using hinv1⟩, ?_⟩
    · unfold altBatches
      rw [runTicks_first hev, ← List.replicate_succ]
      exact hrun
    · intro k hk
      rw [hget k hk]
      simp

end Scheduler

end Alfs

namespace Alfs

namespace Scheduler

set_option maxRecDepth 100000 in
/-- C13 (two equal-weight tasks alternate), the case in which it fails.  With quanta
2^52 each run adds 2^52 to a vruntime.  The run of "A" on the tick with index 4094
is its 2048th: its vruntime leaves the `int64_t` range and wraps to -2^63, below
that of "B", so the tick with the odd index 4095 schedules "A" again, not "B". -/
theorem c13_alternation_breaks_on_wrap :
    ∃ s outs, (Scheduler.new 1 (2 ^ 52)).runTicks 0 (altBatches 4096) = some (s, outs) ∧
      (outs.map TickOut.schedule)[4094]? = some ["A"] ∧
      (outs.map TickOut.schedule)[4095]? = some ["A"] ∧
      (s.tasks "A").map Task.vruntime = some (-(2 ^ 63) + 2 ^ 52) ∧
      (s.tasks "B").map Task.vruntime = some (2047 * 2 ^ 52) := by
  have hq1 : (1 : Int) ≤ 2 ^ 52 := by decide
  have hq2 : (2 : Int) ^ 52 * 1024 ≤ INT64_MAX := by decide
  obtain ⟨s0, hev, hinv⟩ := AltInv.at_start (2 ^ 52)
  have hr0 : Reachable 1 (2 ^ 52) s0 := Reachable.after_events _ Reachable.init hev
  obtain ⟨s1, outs1, hrun1, -, hinv1, hlen1, -⟩ :=
    AltInv.ticks_run hq1 hq2 4094 0 s0 0 hr0 hinv (by
      intro j _ hj
      have h1 : (j + 2) / 2 ≤ 2047 := by omega
      have h2 : (((j + 2) / 2 : Nat) : Int) ≤ 2047 := by exact_mod_cast h1
      have h3 : (((j + 2) / 2 : Nat) : Int) * 2 ^ 52 ≤ 2047 * 2 ^ 52 :=
        Int.mul_le_mul_of_nonneg_right h2 (by decide)
      exact le_trans h3 (by decide))
  obtain ⟨s2, outs2, hrun2, hmap2, hduo2⟩ :=
    Duo.run_ticks (show "A" ≠ "B" by decide) (by decide) (by decide) (by decide) (by decide)
      2 _ _ s1 (0 + ((List.replicate 4094 ([] : List Json)).length : Int)) hinv1.1
  rw [duoDelta_default hq1 hq2] at hmap2 hduo2
  have hrun : (Scheduler.new 1 (2 ^ 52)).runTicks 0 (altBatches 4096) =
      some (s2, outs1 ++ outs2) := by
    have h4096 : altBatches 4096 =
        [evCreate "A", evCreate "B"] :: List.replicate 4095 [] := rfl
    rw [h4096, runTicks_first hev, ← List.replicate_succ,
      show (4095 + 1 : Nat) = 4094 + 2 from rfl, List.replicate_add, runTicks_append, hrun1,
      Option.some_bind, hrun2]
    rfl
  have hflags : (duoRun "A" "B" (2 ^ 52) (2 ^ 52) 2
      ((((0 + 4094 + 1) / 2 : Nat) : Int) * 2 ^ 52, (((0 + 4094) / 2 : Nat) : Int) * 2 ^ 52))
      = ([true, true], (-(2 ^ 63) + 2 ^ 52, 2047 * 2 ^ 52)) := by decide
  rw [hflags] at hmap2 hduo2
  have hsched : (outs1 ++ outs2).map TickOut.schedule =
      outs1.map TickOut.schedule ++ [["A"], ["A"]] := by
    rw [List.map_append, hmap2]
    rfl
  have hlenm : (outs1.map TickOut.schedule).length = 4094 := by rw [List.length_map, hlen1]
  refine ⟨s2, outs1 ++ outs2, hrun, ?_, ?_, ?_, ?_⟩
  · rw [hsched, List.getElem?_append_right (by rw [hlenm]), hlenm]
    rfl
  · rw [hsched, List.getElem?_append_right (by rw [hlenm]; decide), hlenm]
    rfl
  · obtain ⟨lc, h⟩ := hduo2.first
    rw [h]; rfl
  · obtain ⟨lc, h⟩ := hduo2.second
    rw [h]; rfl

/-- C13 (two equal-weight tasks alternate), within the range of the vruntimes.  For
every quanta with 1 ≤ quanta and quanta * 1024 ≤ 2^63 - 1 and every number of ticks
`N` with ((N + 1) / 2) * quanta ≤ 2^63 - 1: on a fresh one-CPU scheduler whose first
batch creates "A" then "B" (default nice, root cgroup) and whose later batches are
empty, the `N` ticks return, and the tick with index `k < N` reports the schedule
["A"] when `k` is even and ["B"] when `k` is odd, 0 preemptions for `k = 0` and 1 for
every later tick, and 0 migrations. -/
theorem c13_two_tasks_alternate (q : Int) (N : Nat) (hq1 : 1 ≤ q)
    (hq2 : q * 1024 ≤ INT64_MAX) (hN : (((N + 1) / 2 : Nat) : Int) * q ≤ INT64_MAX) :
    ∃ s outs, (Scheduler.new 1 q).runTicks 0 (altBatches N) = some (s, outs) ∧
      outs.length = N ∧
      ∀ k, k < N → outs[k]? = some
        { vtime := (k : Int), schedule := [if k % 2 = 0 then "A" else "B"],
          preemptions := if k = 0 then 0 else 1, migrations := 0 } := by
  obtain ⟨s, outs, hrun, hlen, -, hget⟩ := altBatches_run hq1 hq2 N (by
    intro j hj
    have h1 : (j + 2) / 2 ≤ (N + 1) / 2 := Nat.div_le_div_right (by omega)
    have h2 : (((j + 2) / 2 : Nat) : Int) ≤ (((N + 1) / 2 : Nat) : Int) := by
      exact_mod_cast h1
    exact le_trans (Int.mul_le_mul_of_nonneg_right h2 (by omega)) hN)
  exact ⟨s, outs, hrun, hlen, hget⟩

/-- C13 applied to quanta 1 and four ticks: A, B, A, B with preemptions 0, 1, 1, 1. -/
theorem c13_two_tasks_alternate_witness :
    ∃ s outs, (Scheduler.new 1 1).runTicks 0 (altBatches 4) = some (s, outs) ∧
      outs.length = 4 ∧
      ∀ k, k < 4 → outs[k]? = some
        { vtime := (k : Int), schedule := [if k % 2 = 0 then "A" else "B"],
          preemptions := if k = 0 then 0 else 1, migrations := 0 } :=
  c13_two_tasks_alternate 1 4 (by decide) (by decide) (by decide)

end Scheduler

end Alfs

namespace Alfs

namespace MinHeap

end MinHeap

end Alfs

namespace Alfs

namespace MinHeap

/-! ## Heap order -/

theorem lessId_iff_key (tasks : String → Option Task) (x y : String) :
    lessId tasks x y = true ↔ key tasks x < key tasks y := by
  unfold lessId key strLt
  rw [Prod.Lex.lt_iff]
  simp only [ofLex_toLex]
  split_ifs with h
  · rw [decide_eq_true_eq]
    constructor
    · exact fun hlt => Or.inl hlt
    · rintro (hlt | ⟨he, -⟩)
      · exact hlt
      · exact absurd he h
  · rw [decide_eq_true_eq]
    rw [not_not] at h
    constructor
    · exact fun hlt => Or.inr ⟨h, hlt⟩
    · rintro (hlt | ⟨-, hlt⟩)
      · rw [h] at hlt; exact absurd hlt (lt_irrefl _)
      · exact hlt

theorem lessId_false_iff (tasks : String → Option Task) (x y : String) :
    lessId tasks x y = false ↔ key tasks y ≤ key tasks x := by
  rw [← not_lt, ← lessId_iff_key]
  cases lessId tasks x y <;> simp

theorem ordered_iff (tasks : String → Option Task) (h : MinHeap) :
    h.Ordered tasks ↔
      ∀ j, 0 < j → j < h.a.length → keyAt tasks h ((j - 1) / 2) ≤ keyAt tasks h j := by
  unfold Ordered keyAt
  constructor
  · intro ho j h1 h2
    exact (lessId_false_iff tasks _ _).1 (ho j h1 h2)
  · intro ho j h1 h2
    exact (lessId_false_iff tasks _ _).2 (ho j h1 h2)

theorem swapAt_slot (h : MinHeap) {i j : Nat} (hi : i < h.a.length) (hj : j < h.a.length)
    (k : Nat) :
    (h.swapAt i j).slot k = if k = j then h.slot i else if k = i then h.slot j else h.slot k := by
  have := swapAt_getElem? h hi hj k
  unfold slot at this ⊢
  rw [List.getD_eq_getElem?_getD, this]
  split_ifs
  · rfl
  · rfl
  · rw [List.getD_eq_getElem?_getD]

theorem swapAt_keyAt (tasks : String → Option Task) (h : MinHeap) {i j : Nat}
    (hi : i < h.a.length) (hj : j < h.a.length) (k : Nat) :
    keyAt tasks (h.swapAt i j) k =
      if k = j then keyAt tasks h i else if k = i then keyAt tasks h j else keyAt tasks h k := by
  unfold keyAt
  rw [swapAt_slot h hi hj]
  split_ifs <;> rfl

end MinHeap

end Alfs

namespace Alfs

namespace MinHeap

theorem UpInv.swap_up (tasks : String → Option Task) {h : MinHeap} {i : Nat}
    (hi : i < h.a.length) (hi0 : 0 < i)
    (hlt : keyAt tasks h i < keyAt tasks h ((i - 1) / 2)) (hU : UpInv tasks h i) :
    UpInv tasks (h.swapAt i ((i - 1) / 2)) ((i - 1) / 2) := by
  have hpi : (i - 1) / 2 < i := by omega
  unfold UpInv at hU ⊢
  generalize hp : (i - 1) / 2 = p at *
  have hpn : p < h.a.length := lt_trans hpi hi
  obtain ⟨u1, u2⟩ := hU
  have hk := swapAt_keyAt tasks h hi hpn
  constructor
  · intro j hj0 hjn hjp
    rw [swapAt_length] at hjn
    rw [hk, hk]
    by_cases hji : j = i
    · have e1 : (j - 1) / 2 = p := by omega
      rw [if_pos e1, if_neg hjp, if_pos hji]
      exact le_of_lt hlt
    · rw [if_neg hjp, if_neg hji]
      by_cases e1 : (j - 1) / 2 = p
      · rw [if_pos e1]
        have := u1 j hj0 hjn hji
        rw [e1] at this
        exact le_trans (le_of_lt hlt) this
      · rw [if_neg e1]
        by_cases e2 : (j - 1) / 2 = i
        · rw [if_pos e2]
          exact u2 j hj0 hjn e2 hi0
        · rw [if_neg e2]
          exact u1 j hj0 hjn hji
  · intro j hj0 hjn hjpar hp0
    rw [swapAt_length] at hjn
    rw [hk, hk]
    have e1 : (p - 1) / 2 ≠ p := by omega
    have e2 : (p - 1) / 2 ≠ i := by omega
    have e3 : j ≠ p := by omega
    rw [if_neg e1, if_neg e2, if_neg e3]
    have hpp := u1 p hp0 hpn (by omega)
    by_cases hji : j = i
    · rw [if_pos hji]
      exact hpp
    · rw [if_neg hji]
      have := u1 j hj0 hjn hji
      rw [hjpar] at this
      exact le_trans hpp this

theorem siftUpLoop_ordered (tasks : String → Option Task) :
    ∀ (fuel : Nat) (h : MinHeap) (i : Nat), i ≤ fuel → i < h.a.length → UpInv tasks h i →
      (siftUpLoop tasks fuel h i).Ordered tasks ∧
        (siftUpLoop tasks fuel h i).a.length = h.a.length := by
  intro fuel
  induction fuel with
  | zero =>
    intro h i hle _ hU
    refine ⟨?_, rfl⟩
    rw [ordered_iff]
    intro j hj0 hjn
    exact hU.1 j hj0 hjn (by omega)
  | succ f ih =>
    intro h i hle hi hU
    unfold siftUpLoop
    dsimp only
    by_cases hi0 : i > 0
    · rw [if_pos hi0]
      by_cases hless : lessId tasks (h.slot i) (h.slot ((i - 1) / 2)) = true
      · rw [if_pos hless]
        have hlt : keyAt tasks h i < keyAt tasks h ((i - 1) / 2) :=
          (lessId_iff_key tasks _ _).1 hless
        have hstep := UpInv.swap_up tasks hi hi0 hlt hU
        have := ih (h.swapAt i ((i - 1) / 2)) ((i - 1) / 2) (by omega)
          (by rw [swapAt_length]; omega) hstep
        exact ⟨this.1, this.2.trans (swapAt_length h _ _)⟩
      · rw [if_neg hless]
        refine ⟨?_, rfl⟩
        rw [ordered_iff]
        intro j hj0 hjn
        by_cases hji : j = i
        · subst hji
          have hf : lessId tasks (h.slot j) (h.slot ((j - 1) / 2)) = false := by
            simpa using hless
          exact (lessId_false_iff tasks _ _).1 hf
        · exact hU.1 j hj0 hjn hji
    · rw [if_neg hi0]
      refine ⟨?_, rfl⟩
      rw [ordered_iff]
      intro j hj0 hjn
      exact hU.1 j hj0 hjn (by omega)

theorem smallestOf_spec (tasks : String → Option Task) (h : MinHeap) (i : Nat) :
    (smallestOf tasks h i = i ∨
      (i < smallestOf tasks h i ∧ smallestOf tasks h i < h.a.length ∧
        (smallestOf tasks h i - 1) / 2 = i ∧
        keyAt tasks h (smallestOf tasks h i) < keyAt tasks h i)) ∧
    (∀ j, 0 < j → j < h.a.length → (j - 1) / 2 = i →
      keyAt tasks h (smallestOf tasks h i) ≤ keyAt tasks h j) := by
  have hchild : ∀ j, 0 < j → (j - 1) / 2 = i → j = 2 * i + 1 ∨ j = 2 * i + 2 := by
    intro j h1 h2; omega
  unfold smallestOf keyAt
  dsimp only
  split_ifs with h1 h2 h3
  · -- the right child is less than the left child, which is less than slot i
    have l1 := (lessId_iff_key tasks _ _).1 h1.2
    have l2 := (lessId_iff_key tasks _ _).1 h2.2
    refine ⟨Or.inr ⟨by omega, h2.1, by omega, lt_trans l2 l1⟩, ?_⟩
    intro j hj0 hjn hjp
    rcases hchild j hj0 hjp with e | e
    · rw [e]; exact le_of_lt l2
    · rw [e]
  · -- the left child is less than slot i, the right child is not less than the left
    have l1 := (lessId_iff_key tasks _ _).1 h1.2
    refine ⟨Or.inr ⟨by omega, h1.1, by omega, l1⟩, ?_⟩
    intro j hj0 hjn hjp
    rcases hchild j hj0 hjp with e | e
    · rw [e]
    · rw [e]
      have hr : 2 * i + 2 < h.a.length := by omega
      have hf : lessId tasks (h.slot (2 * i + 2)) (h.slot (2 * i + 1)) = false := by
        cases hc : lessId tasks (h.slot (2 * i + 2)) (h.slot (2 * i + 1)) with
        | false => rfl
        | true => exact absurd ⟨hr, hc⟩ h2
      exact (lessId_false_iff tasks _ _).1 hf
  · -- the left child is not less than slot i, the right child is
    have l3 := (lessId_iff_key tasks _ _).1 h3.2
    refine ⟨Or.inr ⟨by omega, h3.1, by omega, l3⟩, ?_⟩
    intro j hj0 hjn hjp
    rcases hchild j hj0 hjp with e | e
    · rw [e]
      have hl : 2 * i + 1 < h.a.length := by omega
      have hf : lessId tasks (h.slot (2 * i + 1)) (h.slot i) = false := by
        cases hc : lessId tasks (h.slot (2 * i + 1)) (h.slot i) with
        | false => rfl
        | true => exact absurd ⟨hl, hc⟩ h1
      exact le_trans (le_of_lt l3) ((lessId_false_iff tasks _ _).1 hf)
    · rw [e]
  · -- neither child is less than slot i
    refine ⟨Or.inl rfl, ?_⟩
    intro j hj0 hjn hjp
    rcases hchild j hj0 hjp with e | e
    · rw [e]
      have hl : 2 * i + 1 < h.a.length := by omega
      have hf : lessId tasks (h.slot (2 * i + 1)) (h.slot i) = false := by
        cases hc : lessId tasks (h.slot (2 * i + 1)) (h.slot i) with
        | false => rfl
        | true => exact absurd ⟨hl, hc⟩ h1
      exact (lessId_false_iff tasks _ _).1 hf
    · rw [e]
      have hr : 2 * i + 2 < h.a.length := by omega
      have hf : lessId tasks (h.slot (2 * i + 2)) (h.slot i) = false := by
        cases hc : lessId tasks (h.slot (2 * i + 2)) (h.slot i) with
        | false => rfl
        | true => exact absurd ⟨hr, hc⟩ h3
      exact (lessId_false_iff tasks _ _).1 hf

end MinHeap

end Alfs

namespace Alfs

namespace MinHeap

theorem DownInv.swap_down (tasks : String → Option Task) {h : MinHeap} {i c : Nat}
    (hic : i < c) (hcn : c < h.a.length) (hpar : (c - 1) / 2 = i)
    (hlt : keyAt tasks h c < keyAt tasks h i)
    (hmin : ∀ j, 0 < j → j < h.a.length → (j - 1) / 2 = i → keyAt tasks h c ≤ keyAt tasks h j)
    (hD : DownInv tasks h i) : DownInv tasks (h.swapAt i c) c := by
  have hin : i < h.a.length := lt_trans hic hcn
  obtain ⟨d1, d2⟩ := hD
  have hk := swapAt_keyAt tasks h hin hcn
  have hne : i ≠ c := Nat.ne_of_lt hic
  constructor
  · intro j hj0 hjn hjp
    rw [swapAt_length] at hjn
    rw [hk, hk, if_neg hjp]
    by_cases hjc : j = c
    · rw [if_pos (by rw [hjc]; exact hpar), if_pos hjc]
      exact le_of_lt hlt
    · rw [if_neg hjc]
      by_cases hji : j = i
      · have e1 : (j - 1) / 2 ≠ i := by omega
        rw [if_neg e1, if_pos hji]
        have := d2 c (by omega) hcn hpar (by omega)
        rw [hji]
        exact this
      · rw [if_neg hji]
        by_cases e1 : (j - 1) / 2 = i
        · rw [if_pos e1]
          exact hmin j hj0 hjn e1
        · rw [if_neg e1]
          exact d1 j hj0 hjn e1
  · intro j hj0 hjn hjpar hc0
    rw [swapAt_length] at hjn
    rw [hk, hk]
    have e1 : (c - 1) / 2 ≠ c := by omega
    have e3 : j ≠ c := by omega
    have e4 : j ≠ i := by omega
    rw [if_neg e1, if_pos hpar, if_neg e3, if_neg e4]
    have := d1 j hj0 hjn (by omega)
    rw [hjpar] at this
    exact this

theorem siftDownLoop_ordered (tasks : String → Option Task) :
    ∀ (fuel : Nat) (h : MinHeap) (i : Nat), h.a.length - i ≤ fuel → i < h.a.length →
      DownInv tasks h i →
      (siftDownLoop tasks fuel h i).Ordered tasks ∧
        (siftDownLoop tasks fuel h i).a.length = h.a.length := by
  intro fuel
  induction fuel with
  | zero =>
    intro h i hle hi _
    omega
  | succ f ih =>
    intro h i hle hi hD
    unfold siftDownLoop
    dsimp only
    obtain ⟨hcase, hmin⟩ := smallestOf_spec tasks h i
    by_cases hne : smallestOf tasks h i ≠ i
    · rw [if_pos hne]
      rcases hcase with he | ⟨c1, c2, c3, c4⟩
      · exact absurd he hne
      · have hstep := DownInv.swap_down tasks c1 c2 c3 c4 hmin hD
        have := ih (h.swapAt i (smallestOf tasks h i)) (smallestOf tasks h i)
          (by rw [swapAt_length]; omega) (by rw [swapAt_length]; exact c2) hstep
        exact ⟨this.1, this.2.trans (swapAt_length h _ _)⟩
    · rw [if_neg hne]
      have he : smallestOf tasks h i = i := not_not.1 hne
      rw [he] at hmin
      refine ⟨?_, rfl⟩
      rw [ordered_iff]
      intro j hj0 hjn
      by_cases e1 : (j - 1) / 2 = i
      · rw [e1]
        exact hmin j hj0 hjn e1
      · exact hD.1 j hj0 hjn e1

theorem siftUp_stays (tasks : String → Option Task) (h : MinHeap) (i : Nat)
    (hs : i = 0 ∨ lessId tasks (h.slot i) (h.slot ((i - 1) / 2)) = false) :
    h.siftUp tasks i = h := by
  unfold siftUp
  cases i with
  | zero => rfl
  | succ k =>
    rcases hs with hs | hs
    · omega
    · unfold siftUpLoop
      dsimp only
      rw [if_pos (by omega), if_neg (by rw [hs]; decide)]

/-- The calls `siftUp(i); siftDown(i)` restore the heap order when it holds everywhere
but at slot `i`. -/
theorem sift_fix (tasks : String → Option Task) (h : MinHeap) (i : Nat)
    (hi : i < h.a.length)
    (h1 : ∀ j, 0 < j → j < h.a.length → j ≠ i → (j - 1) / 2 ≠ i →
      keyAt tasks h ((j - 1) / 2) ≤ keyAt tasks h j)
    (h2 : ∀ j, 0 < j → j < h.a.length → (j - 1) / 2 = i → 0 < i →
      keyAt tasks h ((i - 1) / 2) ≤ keyAt tasks h j) :
    ((h.siftUp tasks i).siftDown tasks i).Ordered tasks ∧
      ((h.siftUp tasks i).siftDown tasks i).a.length = h.a.length := by
  by_cases hs : i = 0 ∨ lessId tasks (h.slot i) (h.slot ((i - 1) / 2)) = false
  · rw [siftUp_stays tasks h i hs]
    have hD : DownInv tasks h i := by
      refine ⟨fun j hj0 hjn hjp => ?_, h2⟩
      by_cases hji : j = i
      · rcases hs with hs | hs
        · omega
        · rw [hji]
          exact (lessId_false_iff tasks _ _).1 hs
      · exact h1 j hj0 hjn hji hjp
    exact siftDownLoop_ordered tasks _ h i (by omega) hi hD
  · push_neg at hs
    obtain ⟨hi0, hless⟩ := hs
    have hless' : lessId tasks (h.slot i) (h.slot ((i - 1) / 2)) = true := by
      simpa using hless
    have hlt : keyAt tasks h i < keyAt tasks h ((i - 1) / 2) :=
      (lessId_iff_key tasks _ _).1 hless'
    have hU : UpInv tasks h i := by
      refine ⟨fun j hj0 hjn hji => ?_, h2⟩
      by_cases hjp : (j - 1) / 2 = i
      · rw [hjp]
        exact le_trans (le_of_lt hlt) (h2 j hj0 hjn hjp (by omega))
      · exact h1 j hj0 hjn hji hjp
    obtain ⟨o1, o2⟩ := siftUpLoop_ordered tasks i h i (le_refl i) hi hU
    have o1' : ∀ j, 0 < j → j < (h.siftUp tasks i).a.length →
        keyAt tasks (h.siftUp tasks i) ((j - 1) / 2) ≤ keyAt tasks (h.siftUp tasks i) j :=
      (ordered_iff tasks _).1 o1
    have o2' : (h.siftUp tasks i).a.length = h.a.length := o2
    have hD : DownInv tasks (h.siftUp tasks i) i := by
      refine ⟨fun j hj0 hjn _ => o1' j hj0 hjn, fun j hj0 hjn hjp hpos => ?_⟩
      have a := o1' j hj0 hjn
      have b := o1' i hpos (by rw [o2']; exact hi)
      rw [hjp] at a
      exact le_trans b a
    have := siftDownLoop_ordered tasks (h.siftUp tasks i).a.length (h.siftUp tasks i) i
      (Nat.sub_le _ _) (by rw [o2']; exact hi) hD
    exact ⟨this.1, this.2.trans o2'⟩

/-- In an ordered heap the root is least. -/
theorem Ordered.root_le {tasks : String → Option Task} {h : MinHeap} (ho : h.Ordered tasks) :
    ∀ j, j < h.a.length → keyAt tasks h 0 ≤ keyAt tasks h j := by
  have ho' := (ordered_iff tasks h).1 ho
  intro j
  induction j using Nat.strong_induction_on with
  | _ j ih =>
    intro hj
    by_cases hj0 : j = 0
    · rw [hj0]
    · have hp : (j - 1) / 2 < j := by omega
      exact le_trans (ih _ hp (lt_trans hp hj)) (ho' j (by omega) hj)

theorem IndexOk.nodup {h : MinHeap} (hOk : h.IndexOk) : h.a.Nodup := by
  rw [List.nodup_iff_getElem?_ne_getElem?]
  intro i j hij hj he
  have hi : i < h.a.length := lt_trans hij hj
  have h1 := (hOk (h.slot i) i).2 (slot_eq_of_lt h hi)
  have h2 := (hOk (h.slot i) j).2 (by rw [← he]; exact slot_eq_of_lt h hi)
  rw [h1] at h2
  cases h2
  exact absurd rfl (Nat.ne_of_lt hij)

end MinHeap

end Alfs

namespace Alfs

namespace MinHeap

theorem push_ordered (tasks : String → Option Task) {h : MinHeap} (ho : h.Ordered tasks)
    {id : String} (hc : h.contains id = false) : (h.push tasks id).Ordered tasks := by
  have ho' := (ordered_iff tasks h).1 ho
  unfold push
  rw [if_neg (by rw [hc]; decide)]
  dsimp only
  have hlen : (h.a ++ [id]).length - 1 = h.a.length := by simp
  rw [hlen]
  have hk : ∀ j, j < h.a.length →
      keyAt tasks { a := h.a ++ [id], pos := Map.set h.pos id h.a.length } j = keyAt tasks h j := by
    intro j hj
    unfold keyAt slot
    simp only [List.getD_eq_getElem?_getD, List.getElem?_append_left hj]
  have hU : UpInv tasks { a := h.a ++ [id], pos := Map.set h.pos id h.a.length } h.a.length := by
    constructor
    · intro j hj0 hjn hne
      have hjn' : j < h.a.length := by
        simp only [List.length_append, List.length_singleton] at hjn
        omega
      rw [hk j hjn', hk _ (by omega)]
      exact ho' j hj0 hjn'
    · intro j hj0 hjn hpar _
      simp only [List.length_append, List.length_singleton] at hjn
      omega
  exact (siftUpLoop_ordered tasks h.a.length _ h.a.length (le_refl _) (by simp) hU).1

theorem remove_ordered (tasks : String → Option Task) {h : MinHeap} (ho : h.Ordered tasks)
    (hOk : h.IndexOk) (id : String) : (h.remove tasks id).Ordered tasks := by
  have ho' := (ordered_iff tasks h).1 ho
  unfold remove
  split
  · exact ho
  · rename_i i hp
    have hi := hOk.lt hp
    dsimp only
    by_cases hlast : i + 1 = h.a.length
    · rw [if_pos hlast]
      rw [ordered_iff]
      intro j hj0 hjn
      simp only [List.length_dropLast] at hjn
      have hk : ∀ k, k < h.a.length - 1 →
          keyAt tasks { a := h.a.dropLast, pos := Map.erase h.pos id } k = keyAt tasks h k := by
        intro k hk
        unfold keyAt slot
        simp only [List.getD_eq_getElem?_getD, List.getElem?_dropLast, if_pos hk]
      rw [hk j hjn, hk _ (by omega)]
      exact ho' j hj0 (by omega)
    · rw [if_neg hlast]
      have hi2 : i < h.a.length - 1 := by omega
      have hk : ∀ k, k < h.a.length - 1 →
          keyAt tasks
            { a := (h.a.set i (h.slot (h.a.length - 1))).dropLast,
              pos := Map.set (Map.erase h.pos id)
                (((h.a.set i (h.slot (h.a.length - 1))).dropLast).getD i "") i } k =
            if k = i then keyAt tasks h (h.a.length - 1) else keyAt tasks h k := by
        intro k hk
        unfold keyAt slot
        simp only [List.getD_eq_getElem?_getD, List.getElem?_dropLast, List.length_set,
          if_pos hk, List.getElem?_set]
        by_cases hki : k = i
        · subst hki
          simp [hi]
        · rw [if_neg (Ne.symm hki), if_neg hki]
      refine (sift_fix tasks _ i (by simp only [List.length_dropLast, List.length_set]; exact hi2)
        ?_ ?_).1
      · intro j hj0 hjn hji hjp
        simp only [List.length_dropLast, List.length_set] at hjn
        rw [hk j hjn, hk _ (by omega), if_neg hji, if_neg hjp]
        exact ho' j hj0 (by omega)
      · intro j hj0 hjn hjp hi0
        simp only [List.length_dropLast, List.length_set] at hjn
        rw [hk j hjn, hk _ (by omega), if_neg (by omega), if_neg (by omega)]
        have a := ho' j hj0 (by omega)
        have b := ho' i hi0 hi
        rw [hjp] at a
        exact le_trans b a

theorem WellFormed.push_ok {tasks : String → Option Task} {h : MinHeap}
    (hW : h.WellFormed tasks) {id : String} (ht : ∃ t, tasks id = some t)
    (hc : h.contains id = false) :
    (h.push tasks id).WellFormed tasks ∧
      ∀ x, (h.push tasks id).contains x = (h.contains x || decide (x = id)) := by
  obtain ⟨w1, w2, -, w4⟩ := hW
  have hp := push_spec tasks w2 id
  refine ⟨⟨push_ordered tasks w1 hc, hp.1, hp.1.nodup, ?_⟩, hp.2.1⟩
  intro x hx
  rw [hp.2.1 x] at hx
  simp only [Bool.or_eq_true, decide_eq_true_eq] at hx
  rcases hx with hx | hx
  · exact w4 x hx
  · rw [hx]; exact ht

theorem WellFormed.remove_ok {tasks : String → Option Task} {h : MinHeap}
    (hW : h.WellFormed tasks) (id : String) :
    (h.remove tasks id).WellFormed tasks ∧
      ∀ x, (h.remove tasks id).contains x = (h.contains x && !decide (x = id)) := by
  obtain ⟨w1, w2, -, w4⟩ := hW
  have hp := remove_spec tasks w2 id
  refine ⟨⟨remove_ordered tasks w1 w2 id, hp.1, hp.1.nodup, ?_⟩, hp.2.1⟩
  intro x hx
  rw [hp.2.1 x] at hx
  simp only [Bool.and_eq_true] at hx
  exact w4 x hx.1

end MinHeap

end Alfs

namespace Alfs

namespace MinHeap

/-! ## C18: heap operations for fixed keys -/

/-- C18 (heap operations are correct for fixed keys).  For every task map `tasks`, every
runqueue `h` that is well-formed over it (min-heap order under `lessId`, consistent
position index, no id twice, a task record for every queued id) and every id:
`push` of an absent id that has a task record yields a well-formed heap holding the
old ids and `id`, and `push` of a present id changes nothing; `remove` yields a
well-formed heap holding the old ids without `id`, and changes nothing when `id` is
absent; `popMin` on a non-empty heap returns a queued id that no queued id is less
than, and leaves a well-formed heap holding the old ids without it; and the loops of
`siftUp` and `siftDown` terminate: `i` iterations suffice for `siftUp(i)` and
`a.size()` for `siftDown`, more give the same result. -/
theorem c18_heap_operations (tasks : String → Option Task) (h : MinHeap) (id : String)
    (hW : h.WellFormed tasks) :
    ((∃ t, tasks id = some t) → h.contains id = false →
      (h.push tasks id).WellFormed tasks ∧
        ∀ x, (h.push tasks id).contains x = (h.contains x || decide (x = id))) ∧
    (h.contains id = true → h.push tasks id = h) ∧
    ((h.remove tasks id).WellFormed tasks ∧
      ∀ x, (h.remove tasks id).contains x = (h.contains x && !decide (x = id))) ∧
    (h.contains id = false → h.remove tasks id = h) ∧
    (h.a.isEmpty = false →
      h.contains (h.popMin tasks).1 = true ∧
      (∀ x, h.contains x = true → lessId tasks x (h.popMin tasks).1 = false) ∧
      (h.popMin tasks).2.WellFormed tasks ∧
      ∀ x, (h.popMin tasks).2.contains x =
        (h.contains x && !decide (x = (h.popMin tasks).1))) ∧
    (∀ i fuel, i ≤ fuel → siftUpLoop tasks fuel h i = h.siftUp tasks i) ∧
    (∀ i fuel, h.a.length ≤ fuel → siftDownLoop tasks fuel h i = h.siftDown tasks i) := by
  refine ⟨fun ht hc => hW.push_ok ht hc, ?_, hW.remove_ok id, ?_, ?_, ?_, ?_⟩
  · intro hc
    unfold push
    rw [if_pos hc]
  · intro hc
    unfold remove
    have : h.pos id = none := by
      unfold contains at hc
      cases hp : h.pos id with
      | none => rfl
      | some i => rw [hp] at hc; cases hc
    rw [this]
  · intro hne
    have hlen : 0 < h.a.length := by
      cases hh : h.a with
      | nil => simp [hh] at hne
      | cons x xs => simp
    have hpop : h.popMin tasks = (h.slot 0, h.remove tasks (h.slot 0)) := by
      unfold popMin
      rw [if_neg (by rw [hne]; decide)]
    rw [hpop]
    have hr := hW.remove_ok (h.slot 0)
    refine ⟨?_, ?_, hr.1, hr.2⟩
    · simp [contains, hW.2.1.pos_slot hlen]
    · intro x hx
      unfold contains at hx
      cases hp : h.pos x with
      | none => rw [hp] at hx; cases hx
      | some j =>
        have hj := hW.2.1.lt hp
        have hs : h.slot j = x := by
          have h1 := (hW.2.1 x j).1 hp
          rw [slot_eq_of_lt h hj] at h1
          cases h1
          rfl
        have := hW.1.root_le j hj
        unfold keyAt at this
        rw [hs] at this
        exact (lessId_false_iff tasks _ _).2 this
  · intro i fuel hle
    exact siftUpLoop_fuel tasks i fuel h hle
  · intro i fuel hle
    exact siftDownLoop_fuel tasks h.a.length fuel h i (Nat.sub_le _ _) hle

end MinHeap

namespace Scheduler

theorem sampleState_wellFormed : sampleState.rq.WellFormed sampleState.tasks := by
  have hC := sampleState_reachable.consistent
  refine ⟨?_, hC.indexOk, hC.indexOk.nodup, hC.queued⟩
  intro i hi0 hin
  have hlen : sampleState.rq.a.length = 2 := by decide
  rw [hlen] at hin
  have : i = 1 := by omega
  subst this
  decide

end Scheduler

namespace MinHeap

set_option maxRecDepth 100000 in
/-- C18 applied to the runqueue of the sample state (it holds "B" at vruntime 0 and "A"
at vruntime 1) and the id "A": `popMin` returns "B", `push` of the queued "A" changes
nothing, and the heap without "A" is well-formed. -/
theorem c18_heap_operations_witness :
    (Scheduler.sampleState.rq.popMin Scheduler.sampleState.tasks).1 = "B" ∧
    MinHeap.lessId Scheduler.sampleState.tasks "A" "B" = false ∧
    Scheduler.sampleState.rq.push Scheduler.sampleState.tasks "A" = Scheduler.sampleState.rq ∧
    (Scheduler.sampleState.rq.remove Scheduler.sampleState.tasks "A").WellFormed
      Scheduler.sampleState.tasks := by
  have h := c18_heap_operations Scheduler.sampleState.tasks Scheduler.sampleState.rq "A"
    Scheduler.sampleState_wellFormed
  have hp : (Scheduler.sampleState.rq.popMin Scheduler.sampleState.tasks).1 = "B" := by decide
  refine ⟨hp, ?_, h.2.1 (by decide), h.2.2.1.1⟩
  have := (h.2.2.2.2.1 (by decide)).2.1 "A" (by decide)
  rw [hp] at this
  exact this

end MinHeap

end Alfs

namespace Alfs

namespace Scheduler

end Scheduler

end Alfs

namespace Alfs

namespace Scheduler

/-! ## Two competitors in any cgroups -/

theorem pickLoop_pair {s : Scheduler} {x y : String} {tx : Task} {cg : Cgroup}
    (hrq : s.rq = MinHeap.heap2 x y)
    (hxy : x ≠ y) (htx : s.tasks x = some tx) (hst : tx.state = TaskState.RUNNABLE)
    (haff : tx.affinityMask = [true]) (hcg : s.cgroups tx.cgroupId = some cg)
    (hmask : cg.cpuMask = [true]) :
    pickLoop 0 2 s [] = (x, { s with rq := MinHeap.heap1 y }, []) := by
  have hne : s.rq.empty = false := by rw [hrq]; rfl
  have hpop : s.rq.popMin s.tasks = (x, MinHeap.heap1 y) := by
    rw [hrq]; exact MinHeap.popMin_heap2 s.tasks hxy
  unfold pickLoop
  simp only [hne, Bool.false_eq_true, if_false, hpop, htx, hst, ne_eq, not_true_eq_false, haff,
    isAnyCpuAvailable, List.any_cons, List.any_nil, Bool.or_false, Bool.not_true, hcg,
    cgroupOrRoot, hmask, canTaskRunOnCPU, isCpuAllowed,
    List.length_cons, List.length_nil, List.getD_cons_zero]
  simp

theorem selectAll_pair {s : Scheduler} {x y : String} {tx : Task} {cg : Cgroup}
    (hcpu : s.cpuCount = 1) (hrq : s.rq = MinHeap.heap2 x y)
    (hxy : x ≠ y) (hx0 : x ≠ "") (htx : s.tasks x = some tx)
    (hst : tx.state = TaskState.RUNNABLE)
    (haff : tx.affinityMask = [true]) (hcg : s.cgroups tx.cgroupId = some cg)
    (hmask : cg.cpuMask = [true]) :
    s.selectAll = ({ s with rq := MinHeap.heap1 y }, [x]) := by
  have hsz : s.rq.size = 2 := by rw [hrq]; rfl
  unfold selectAll selectLoop
  rw [hcpu]
  simp only [List.range_succ, List.range_zero, List.nil_append, List.foldl_cons, List.foldl_nil,
    selectCpu, hsz, pickLoop_pair hrq hxy htx hst haff hcg hmask, pushAll, ne_eq, hx0,
    not_false_eq_true, if_true, List.replicate, List.set_cons_zero]
  rw [hcpu]

theorem dispatch_pair {s : Scheduler} {x y : String} {tx : Task} {cg : Cgroup}
    (hcpu : s.cpuCount = 1) (hrq : s.rq = MinHeap.heap2 x y)
    (hxy : x ≠ y) (hx0 : x ≠ "") (hxi : x ≠ "idle") (htx : s.tasks x = some tx)
    (hst : tx.state = TaskState.RUNNABLE)
    (haff : tx.affinityMask = [true]) (hcg : s.cgroups tx.cgroupId = some cg)
    (hmask : cg.cpuMask = [true]) (hb : tx.burstRemaining = 0) (vtime : Int) :
    (s.dispatch vtime).2.schedule = [x] ∧
    (s.dispatch vtime).1 =
      { s with
        tasks := Map.set s.tasks x
          { tx with lastCpu := 0, vruntime := wrap64 (tx.vruntime + s.vruntimeDelta tx) }
        maxVruntime :=
          if wrap64 (tx.vruntime + s.vruntimeDelta tx) > s.maxVruntime then
            wrap64 (tx.vruntime + s.vruntimeDelta tx)
          else s.maxVruntime
        rq :=
          if MinHeap.lessId (Map.set s.tasks x
              { tx with lastCpu := 0, vruntime := wrap64 (tx.vruntime + s.vruntimeDelta tx) })
              x y then MinHeap.heap2 x y
          else MinHeap.heap2 y x
        lastSchedule := [x] } := by
  have hsel := selectAll_pair hcpu hrq hxy hx0 htx hst haff hcg hmask
  have hacc := @accountAll_heap1 { s with rq := MinHeap.heap1 y } x y tx hcpu rfl hxy hxi htx
    hst hb
  unfold dispatch
  simp only [hsel]
  exact ⟨trivial, hacc⟩

theorem Pair.flip {id1 id2 : String} {d1 d2 a b : Int} {s : Scheduler}
    (h : Pair id1 id2 d1 d2 a b s) : Pair id2 id1 d2 d1 b a s :=
  ⟨h.cpu, h.second, h.first, h.rq.symm⟩

theorem Pair.root_runs {x y : String} {dx dy a b : Int} {s : Scheduler}
    (h : Pair x y dx dy a b s) (hrq : s.rq = MinHeap.heap2 x y) (hxy : x ≠ y)
    (hx0 : x ≠ "") (hxi : x ≠ "idle") (vtime : Int) :
    (s.dispatch vtime).2.schedule = [x] ∧
      Pair x y dx dy (wrap64 (a + dx)) b (s.dispatch vtime).1 := by
  obtain ⟨tx, h1, x1, x2, x3, x4, x5, cgx, x6, x7⟩ := h.first
  obtain ⟨ty, h2, y1, y2, y3, y4, y5, cgy, y6, y7⟩ := h.second
  have hd := dispatch_pair h.cpu hrq hxy hx0 hxi h1 x1 x2 x6 x7 x3 vtime
  rw [x4, x5] at hd
  refine ⟨hd.1, ?_⟩
  rw [hd.2]
  have hy : (Map.set s.tasks x { tx with lastCpu := 0, vruntime := wrap64 (a + dx) }) y
      = some ty := by
    rw [Map.set_other _ _ (Ne.symm hxy)]; exact h2
  refine ⟨h.cpu, ⟨_, Map.set_same _ _ _, x1, x2, x3, rfl, x5, cgx, x6, x7⟩,
    ⟨ty, hy, y1, y2, y3, y4, y5, cgy, y6, y7⟩, ?_⟩
  dsimp only
  split_ifs with hl
  · exact Or.inl ⟨rfl, MinHeap.lessId_asymm _ hl⟩
  · exact Or.inr ⟨rfl, by simpa using hl⟩

theorem Pair.one_tick {id1 id2 : String} {d1 d2 a b : Int} {s : Scheduler}
    (h : Pair id1 id2 d1 d2 a b s) (hne : id1 ≠ id2)
    (h10 : id1 ≠ "") (h1i : id1 ≠ "idle") (h20 : id2 ≠ "") (h2i : id2 ≠ "idle")
    (vtime : Int) :
    (duoLess id1 id2 a b = true →
      (s.dispatch vtime).2.schedule = [id1] ∧
        Pair id1 id2 d1 d2 (wrap64 (a + d1)) b (s.dispatch vtime).1) ∧
    (duoLess id1 id2 a b = false →
      (s.dispatch vtime).2.schedule = [id2] ∧
        Pair id1 id2 d1 d2 a (wrap64 (b + d2)) (s.dispatch vtime).1) := by
  obtain ⟨t1, h1, -, -, -, v1, -⟩ := h.first
  obtain ⟨t2, h2, -, -, -, v2, -⟩ := h.second
  have hl12 : MinHeap.lessId s.tasks id1 id2 = duoLess id1 id2 a b := by
    rw [duo_lessId h1 h2, v1, v2]
  rcases h.rq with ⟨hrq, hord⟩ | ⟨hrq, hord⟩
  · have ht : duoLess id1 id2 a b = true := by
      rw [← hl12]; exact MinHeap.lessId_total _ (Ne.symm hne) hord
    refine ⟨fun _ => h.root_runs hrq hne h10 h1i vtime, fun hf => ?_⟩
    rw [ht] at hf; cases hf
  · have hf : duoLess id1 id2 a b = false := by rw [← hl12]; exact hord
    refine ⟨fun ht => ?_, fun _ => ?_⟩
    · rw [hf] at ht; cases ht
    · have := h.flip.root_runs hrq (Ne.symm hne) h20 h2i vtime
      exact ⟨this.1, this.2.flip⟩

theorem Pair.many_ticks {id1 id2 : String} {d1 d2 : Int} (hne : id1 ≠ id2)
    (h10 : id1 ≠ "") (h1i : id1 ≠ "idle") (h20 : id2 ≠ "") (h2i : id2 ≠ "idle") :
    ∀ (k : Nat) (a b : Int) (s : Scheduler) (vtime : Int), Pair id1 id2 d1 d2 a b s →
      ∃ s1 outs, s.runTicks vtime (List.replicate k []) = some (s1, outs) ∧
        outs.map TickOut.schedule =
          (duoRun id1 id2 d1 d2 k (a, b)).1.map (duoSchedule id1 id2) ∧
        Pair id1 id2 d1 d2 (duoRun id1 id2 d1 d2 k (a, b)).2.1
          (duoRun id1 id2 d1 d2 k (a, b)).2.2 s1 := by
  intro k
  induction k with
  | zero =>
    intro a b s vtime h
    exact ⟨s, [], rfl, rfl, h⟩
  | succ k ih =>
    intro a b s vtime h
    have hstep := h.one_tick hne h10 h1i h20 h2i vtime
    simp only [List.replicate_succ, runTicks, runTick_nil, Option.some_bind]
    unfold duoRun
    by_cases hl : duoLess id1 id2 a b = true
    · obtain ⟨hsch, hduo⟩ := hstep.1 hl
      obtain ⟨s1, outs, hrun, hmap, hfin⟩ := ih _ _ _ (vtime + 1) hduo
      refine ⟨s1, (s.dispatch vtime).2 :: outs, ?_, ?_, ?_⟩
      · rw [hrun]; rfl
      · simp only [hl, if_true, List.map_cons, hmap, hsch, duoSchedule]
      · simp only [hl, if_true]; exact hfin
    · have hl' : duoLess id1 id2 a b = false := by simpa using hl
      obtain ⟨hsch, hduo⟩ := hstep.2 hl'
      obtain ⟨s1, outs, hrun, hmap, hfin⟩ := ih _ _ _ (vtime + 1) hduo
      refine ⟨s1, (s.dispatch vtime).2 :: outs, ?_, ?_, ?_⟩
      · rw [hrun]; rfl
      · simp only [hl', Bool.false_eq_true, if_false, List.map_cons, hmap, hsch, duoSchedule]
      · simp only [hl', Bool.false_eq_true, if_false]; exact hfin

end Scheduler

end Alfs

namespace Alfs

namespace Scheduler

end Scheduler

end Alfs

namespace Alfs

namespace Scheduler

theorem applyEvents_cons_of {s s1 s2 : Scheduler} {e : Json} {rest : List Json}
    (h1 : s.applyEvent e = some s1) (h2 : s1.applyEvents rest = some s2) :
    s.applyEvents (e :: rest) = some s2 := by
  simp only [applyEvents, h1, Option.some_bind, h2]

theorem applyEvents_one_of {s s1 : Scheduler} {e : Json} (h1 : s.applyEvent e = some s1) :
    s.applyEvents [e] = some s1 := by
  simp only [applyEvents, h1, Option.some_bind]

theorem applyEvent_cgroupShares (s : Scheduler) (g : String) (sh : Int) :
    s.applyEvent (evCgroupShares g sh) =
      some { s with cgroups := Map.set s.cgroups g (createdCgroup s.cpuCount g sh) } := by
  have ha : strField (evCgroupShares g sh) "action" = some "CGROUP_CREATE" := rfl
  have hi : strField (evCgroupShares g sh) "cgroupId" = some g := rfl
  have h1 : optInt (evCgroupShares g sh) "cpuShares" 1024 = some (wrap32 sh) := rfl
  have h2 : optInt (evCgroupShares g sh) "cpuQuotaUs" (-1) = some (-1) := rfl
  have h3 : optInt (evCgroupShares g sh) "cpuPeriodUs" 100000 = some 100000 := rfl
  have h4 : optMask s.cpuCount (evCgroupShares g sh) (maskAll s.cpuCount) =
      some (maskAll s.cpuCount) := rfl
  unfold applyEvent
  rw [ha, Option.some_bind, if_neg (by decide), if_neg (by decide), if_neg (by decide),
    if_neg (by decide), if_neg (by decide), if_neg (by decide), if_neg (by decide),
    if_pos rfl]
  unfold cgroupCreate
  simp only [hi, h1, h2, h3, h4, Option.some_bind]
  rfl

theorem applyEvent_createFull (s : Scheduler) (id : String) (n : Int) (g : String)
    (hnew : s.tasks id = none) (hg : ∃ cg, s.cgroups g = some cg) :
    s.applyEvent (evCreateFull id n g) =
      some { s with tasks := Map.set s.tasks id (s.createdTask id n g),
                    rq := s.rq.push (Map.set s.tasks id (s.createdTask id n g)) id } := by
  have ha : strField (evCreateFull id n g) "action" = some "TASK_CREATE" := rfl
  have hi : strField (evCreateFull id n g) "taskId" = some id := rfl
  have hn : optInt (evCreateFull id n g) "nice" 0 = some (wrap32 n) := rfl
  have hc : optStr (evCreateFull id n g) "cgroupId" "0" = some g := rfl
  obtain ⟨cg, hcg⟩ := hg
  have hex : s.taskExists id = false := by simp [taskExists, hnew]
  rw [applyEvent_create s _ ha]
  unfold taskCreate
  simp only [hi, Option.some_bind, hex, Bool.false_eq_true, if_false, hn, hc, hcg,
    Option.isNone_some]
  rfl

/-- The state after the first batch of the two-competitor run: both tasks are queued at
vruntime 0, each with the delta it has in that state. -/
theorem Pair.after_batch (q : Int) (g1 : String) (sh1 : Int) (g2 : String) (sh2 : Int)
    {id1 id2 : String} (n1 n2 : Int) (hne : id1 ≠ id2) :
    ∃ s0, (Scheduler.new 1 q).applyEvents (lagBatch g1 sh1 g2 sh2 id1 n1 id2 n2) = some s0 ∧
      Pair id1 id2 (s0.vruntimeDelta (s0.taskAt id1)) (s0.vruntimeDelta (s0.taskAt id2)) 0 0
        s0 := by
  have hmask : ∀ g cg, lagCgroups q g1 sh1 g2 sh2 g = some cg → cg.cpuMask = [true] := by
    intro g cg h
    unfold lagCgroups Map.set at h
    split_ifs at h
    · cases h; rfl
    · cases h; rfl
    · simp only [Scheduler.new, Map.set, Map.empty] at h
      split_ifs at h
      cases h; rfl
  have hg1 : ∃ cg, lagCgroups q g1 sh1 g2 sh2 g1 = some cg := by
    unfold lagCgroups
    by_cases h : g1 = g2
    · exact ⟨_, by rw [h, Map.set_same]⟩
    · exact ⟨_, by rw [Map.set_other _ _ h, Map.set_same]⟩
  have hg2 : ∃ cg, lagCgroups q g1 sh1 g2 sh2 g2 = some cg :=
    ⟨_, by unfold lagCgroups; rw [Map.set_same]⟩
  -- the four events
  have c1 := applyEvent_cgroupShares (Scheduler.new 1 q) g1 sh1
  have c2 : ({ Scheduler.new 1 q with
      cgroups := Map.set (Scheduler.new 1 q).cgroups g1
        (createdCgroup (Scheduler.new 1 q).cpuCount g1 sh1) } : Scheduler).applyEvent
      (evCgroupShares g2 sh2) = some (lagStateA q g1 sh1 g2 sh2) :=
    applyEvent_cgroupShares _ g2 sh2
  have t1 := applyEvent_createFull (lagStateA q g1 sh1 g2 sh2) id1 n1 g1 rfl hg1
  have hp0 : (lagStateA q g1 sh1 g2 sh2).rq = MinHeap.heap0 := rfl
  rw [hp0, MinHeap.push_heap0] at t1
  have t1' : (lagStateA q g1 sh1 g2 sh2).applyEvent (evCreateFull id1 n1 g1) =
      some (lagStateB q g1 sh1 g2 sh2 id1 n1) := t1
  have t2 := applyEvent_createFull (lagStateB q g1 sh1 g2 sh2 id1 n1) id2 n2 g2
    (by simp [lagStateB, lagStateA, Map.set, Scheduler.new, Map.empty, Ne.symm hne]) hg2
  have hpB : (lagStateB q g1 sh1 g2 sh2 id1 n1).rq = MinHeap.heap1 id1 := rfl
  rw [hpB, MinHeap.push_heap1 _ (Ne.symm hne)] at t2
  have hev := applyEvents_cons_of c1 (applyEvents_cons_of c2 (applyEvents_cons_of t1'
    (applyEvents_one_of t2)))
  refine ⟨_, hev, ?_⟩
  obtain ⟨sB, hsB⟩ : ∃ sB, sB = lagStateB q g1 sh1 g2 sh2 id1 n1 := ⟨_, rfl⟩
  rw [← hsB]
  have hT1 : (Map.set sB.tasks id2 (sB.createdTask id2 n2 g2)) id1 =
      some ((lagStateA q g1 sh1 g2 sh2).createdTask id1 n1 g1) := by
    rw [Map.set_other _ _ hne, hsB]
    exact Map.set_same _ _ _
  have hT2 : (Map.set sB.tasks id2 (sB.createdTask id2 n2 g2)) id2 =
      some (sB.createdTask id2 n2 g2) := Map.set_same _ _ _
  have hcgB : sB.cgroups = lagCgroups q g1 sh1 g2 sh2 := by rw [hsB]; rfl
  have hcpuB : sB.cpuCount = 1 := by rw [hsB]; rfl
  have hvB : sB.maxVruntime = 0 := by rw [hsB]; rfl
  obtain ⟨cg1, hcg1⟩ := hg1
  obtain ⟨cg2, hcg2⟩ := hg2
  refine ⟨hcpuB, ?_, ?_, ?_⟩
  · refine ⟨(lagStateA q g1 sh1 g2 sh2).createdTask id1 n1 g1, hT1, rfl, rfl, rfl, rfl, ?_,
      cg1, ?_, hmask _ _ hcg1⟩
    · unfold taskAt
      dsimp only
      rw [hT1]
      rfl
    · show sB.cgroups g1 = some cg1
      rw [hcgB]; exact hcg1
  · refine ⟨sB.createdTask id2 n2 g2, hT2, rfl, ?_, rfl, hvB, ?_, cg2, ?_, hmask _ _ hcg2⟩
    · show maskAll sB.cpuCount = [true]
      rw [hcpuB]; rfl
    · unfold taskAt
      dsimp only
      rw [hT2]
      rfl
    · show sB.cgroups g2 = some cg2
      rw [hcgB]; exact hcg2
  · dsimp only
    split_ifs with hl
    · exact Or.inr ⟨rfl, MinHeap.lessId_asymm _ hl⟩
    · exact Or.inl ⟨rfl, by simpa using hl⟩

end Scheduler

end Alfs

namespace Alfs

namespace Scheduler

theorem duoRun_succ (id1 id2 : String) (d1 d2 : Int) (k : Nat) (st : Int × Int) :
    duoRun id1 id2 d1 d2 (k + 1) st =
      if duoLess id1 id2 st.1 st.2 then
        (true :: (duoRun id1 id2 d1 d2 k (wrap64 (st.1 + d1), st.2)).1,
          (duoRun id1 id2 d1 d2 k (wrap64 (st.1 + d1), st.2)).2)
      else
        (false :: (duoRun id1 id2 d1 d2 k (st.1, wrap64 (st.2 + d2))).1,
          (duoRun id1 id2 d1 d2 k (st.1, wrap64 (st.2 + d2))).2) := by
  rw [duoRun]

theorem duoRun_split (id1 id2 : String) (d1 d2 : Int) : ∀ (i j : Nat) (st : Int × Int),
    duoRun id1 id2 d1 d2 (i + j) st =
      ((duoRun id1 id2 d1 d2 i st).1 ++
          (duoRun id1 id2 d1 d2 j (duoRun id1 id2 d1 d2 i st).2).1,
        (duoRun id1 id2 d1 d2 j (duoRun id1 id2 d1 d2 i st).2).2) := by
  intro i
  induction i with
  | zero => intro j st; simp [duoRun]
  | succ i ih =>
    intro j st
    have e : i + 1 + j = (i + j) + 1 := by omega
    rw [e, duoRun_succ id1 id2 d1 d2 (i + j), duoRun_succ id1 id2 d1 d2 i]
    split_ifs
    · simp only [ih, List.cons_append]
    · simp only [ih, List.cons_append]

/-- A window of the abstract run: the flag of the tick `i + t` of a run of at least
`i + j` ticks is the flag of the tick `t` of the run of `j` ticks that starts from the
state after `i` ticks. -/
theorem duoRun_window (id1 id2 : String) (d1 d2 : Int) (i j r t : Nat) (st : Int × Int)
    (ht : t < j) :
    (duoRun id1 id2 d1 d2 (i + j + r) st).1[i + t]? =
      (duoRun id1 id2 d1 d2 j (duoRun id1 id2 d1 d2 i st).2).1[t]? := by
  have e : i + j + r = i + (j + r) := by omega
  rw [e, duoRun_split id1 id2 d1 d2 i (j + r) st]
  have hlen := duoRun_length id1 id2 d1 d2 i st
  have hlen2 := duoRun_length id1 id2 d1 d2 j (duoRun id1 id2 d1 d2 i st).2
  dsimp only
  rw [List.getElem?_append_right (by omega), hlen, Nat.add_sub_cancel_left,
    duoRun_split id1 id2 d1 d2 j r]
  dsimp only
  rw [List.getElem?_append_left (by omega)]

/-- A streak of the first task ends: if the second task is less than `j` deltas of the
first ahead, the second task runs on one of the next `j + 1` ticks. -/
theorem duoRun_second_runs (id1 id2 : String) {d1 : Int} (d2 : Int) (hd1 : 1 ≤ d1) :
    ∀ (j : Nat) (a b : Int), 0 ≤ a → a + ((j + 1 : Nat) : Int) * d1 ≤ INT64_MAX →
      b < a + (j : Int) * d1 →
      ∃ t, t ≤ j ∧ (duoRun id1 id2 d1 d2 (j + 1) (a, b)).1[t]? = some false := by
  intro j
  induction j with
  | zero =>
    intro a b _ _ hb
    refine ⟨0, le_refl _, ?_⟩
    have hl : duoLess id1 id2 a b = false := by
      by_contra h
      have := duoLess_true_le (by simpa using h : duoLess id1 id2 a b = true)
      simp at hb
      omega
    rw [duoRun_succ]
    simp [hl]
  | succ j ih =>
    intro a b ha hA hb
    by_cases hl : duoLess id1 id2 a b = true
    · have hk : ((j + 1 + 1 : Nat) : Int) * d1 = ((j + 1 : Nat) : Int) * d1 + d1 := by
        push_cast; ring
      have hj : 0 ≤ ((j + 1 : Nat) : Int) * d1 :=
        mul_nonneg (Int.natCast_nonneg _) (by omega)
      have hw : wrap64 (a + d1) = a + d1 :=
        wrap64_id (by omega) (by unfold INT64_MAX at hA ⊢; omega)
      obtain ⟨t, ht, hft⟩ := ih (a + d1) b (by omega) (by rw [hk] at hA; omega)
        (by push_cast at hb ⊢; linarith)
      refine ⟨t + 1, by omega, ?_⟩
      rw [duoRun_succ]
      simp only [hl, if_true, hw, List.getElem?_cons_succ]
      exact hft
    · have hl' : duoLess id1 id2 a b = false := by simpa using hl
      refine ⟨0, by omega, ?_⟩
      rw [duoRun_succ]
      simp [hl']

/-- A streak of the second task ends: if the first task is less than `j` deltas of the
second ahead, the first task runs on one of the next `j + 1` ticks. -/
theorem duoRun_first_runs (id1 id2 : String) (d1 : Int) {d2 : Int} (hd2 : 1 ≤ d2) :
    ∀ (j : Nat) (a b : Int), 0 ≤ b → b + ((j + 1 : Nat) : Int) * d2 ≤ INT64_MAX →
      a < b + (j : Int) * d2 →
      ∃ t, t ≤ j ∧ (duoRun id1 id2 d1 d2 (j + 1) (a, b)).1[t]? = some true := by
  intro j
  induction j with
  | zero =>
    intro a b _ _ hb
    refine ⟨0, le_refl _, ?_⟩
    have hl : duoLess id1 id2 a b = true := by
      by_contra h
      have := duoLess_false_le (by simpa using h : duoLess id1 id2 a b = false)
      simp at hb
      omega
    rw [duoRun_succ]
    simp [hl]
  | succ j ih =>
    intro a b ha hA hb
    by_cases hl : duoLess id1 id2 a b = true
    · refine ⟨0, by omega, ?_⟩
      rw [duoRun_succ]
      simp [hl]
    · have hl' : duoLess id1 id2 a b = false := by simpa using hl
      have hk : ((j + 1 + 1 : Nat) : Int) * d2 = ((j + 1 : Nat) : Int) * d2 + d2 := by
        push_cast; ring
      have hj : 0 ≤ ((j + 1 : Nat) : Int) * d2 :=
        mul_nonneg (Int.natCast_nonneg _) (by omega)
      have hw : wrap64 (b + d2) = b + d2 :=
        wrap64_id (by omega) (by unfold INT64_MAX at hA ⊢; omega)
      obtain ⟨t, ht, hft⟩ := ih a (b + d2) (by omega) (by rw [hk] at hA; omega)
        (by push_cast at hb ⊢; linarith)
      refine ⟨t + 1, by omega, ?_⟩
      rw [duoRun_succ]
      simp only [hl', Bool.false_eq_true, if_false, hw, List.getElem?_cons_succ]
      exact hft

end Scheduler

end Alfs

namespace Alfs

namespace Scheduler

theorem ceil_ratio_bound {D m : Int} (hm : 1 ≤ m) (hD : m ≤ D) :
    D < ((⌈(D : ℚ) / (m : ℚ)⌉.toNat + 1 : Nat) : Int) * m := by
  have hmq : (0 : ℚ) < (m : ℚ) := by exact_mod_cast (by omega : (0 : Int) < m)
  have h1 : (D : ℚ) / (m : ℚ) ≤ ((⌈(D : ℚ) / (m : ℚ)⌉ : Int) : ℚ) := Int.le_ceil _
  have h2 : (D : ℚ) ≤ ((⌈(D : ℚ) / (m : ℚ)⌉ : Int) : ℚ) * (m : ℚ) := (div_le_iff₀ hmq).mp h1
  have h3 : D ≤ ⌈(D : ℚ) / (m : ℚ)⌉ * m := by exact_mod_cast h2
  have h4 : 0 ≤ ⌈(D : ℚ) / (m : ℚ)⌉ := by
    apply Int.ceil_nonneg
    apply div_nonneg
    · exact_mod_cast (by omega : (0 : Int) ≤ D)
    · exact le_of_lt hmq
  have h5 : ((⌈(D : ℚ) / (m : ℚ)⌉.toNat + 1 : Nat) : Int) = ⌈(D : ℚ) / (m : ℚ)⌉ + 1 := by
    push_cast
    rw [Int.toNat_of_nonneg h4]
  rw [h5]
  linarith

/-- Neither task of the abstract run from `(0, 0)` is passed over on `K + 1` ticks in a
row when `max d1 d2 < K * min d1 d2`, as long as no addition can wrap. -/
theorem duoRun_no_long_skip (id1 id2 : String) {d1 d2 : Int} (hd1 : 1 ≤ d1) (hd2 : 1 ≤ d2)
    (N K i : Nat) (hN : (N : Int) * max d1 d2 ≤ INT64_MAX)
    (hK : max d1 d2 < (K : Int) * min d1 d2) (hi : i + K < N) :
    (∃ j, i ≤ j ∧ j ≤ i + K ∧ (duoRun id1 id2 d1 d2 N (0, 0)).1[j]? = some true) ∧
    (∃ j, i ≤ j ∧ j ≤ i + K ∧ (duoRun id1 id2 d1 d2 N (0, 0)).1[j]? = some false) := by
  have hD1 : d1 ≤ max d1 d2 := le_max_left _ _
  have hD2 : d2 ≤ max d1 d2 := le_max_right _ _
  have hm1 : min d1 d2 ≤ d1 := min_le_left _ _
  have hm2 : min d1 d2 ≤ d2 := min_le_right _ _
  have hD0 : 0 ≤ max d1 d2 := by omega
  have hK0 : (0 : Int) ≤ (K : Int) := Int.natCast_nonneg K
  have hKd1 : (K : Int) * min d1 d2 ≤ (K : Int) * d1 := Int.mul_le_mul_of_nonneg_left hm1 hK0
  have hKd2 : (K : Int) * min d1 d2 ≤ (K : Int) * d2 := Int.mul_le_mul_of_nonneg_left hm2 hK0
  have hKD1 : (K : Int) * d1 ≤ (K : Int) * max d1 d2 := Int.mul_le_mul_of_nonneg_left hD1 hK0
  have hKD2 : (K : Int) * d2 ≤ (K : Int) * max d1 d2 := Int.mul_le_mul_of_nonneg_left hD2 hK0
  have hiN : ((i : Int) + (K : Int) + 1) * max d1 d2 ≤ (N : Int) * max d1 d2 :=
    Int.mul_le_mul_of_nonneg_right (by exact_mod_cast (by omega : i + K + 1 ≤ N)) hD0
  have hiD : (i : Int) * max d1 d2 ≤ INT64_MAX := by
    have : (i : Int) * max d1 d2 ≤ ((i : Int) + (K : Int) + 1) * max d1 d2 :=
      Int.mul_le_mul_of_nonneg_right (by omega) hD0
    omega
  obtain ⟨ea, eb, hab⟩ := duoRun_balance id1 id2 hd1 hd2 hD1 hD2 i 0 0 (le_refl _) (le_refl _)
    (by simpa using hiD) (by simpa using hiD) (by simpa using hD0)
  have hcnt := duoRun_count id1 id2 d1 d2 i (0, 0)
  obtain ⟨a, ha⟩ : ∃ a, a = (duoRun id1 id2 d1 d2 i (0, 0)).2.1 := ⟨_, rfl⟩
  obtain ⟨b, hb⟩ : ∃ b, b = (duoRun id1 id2 d1 d2 i (0, 0)).2.2 := ⟨_, rfl⟩
  obtain ⟨ct, hct⟩ : ∃ ct, ct = (duoRun id1 id2 d1 d2 i (0, 0)).1.count true := ⟨_, rfl⟩
  obtain ⟨cf, hcf⟩ : ∃ cf, cf = (duoRun id1 id2 d1 d2 i (0, 0)).1.count false := ⟨_, rfl⟩
  rw [← ha, ← hct, zero_add] at ea
  rw [← hb, ← hcf, zero_add] at eb
  rw [← ha, ← hb] at hab
  rw [← hct, ← hcf] at hcnt
  rw [abs_le] at hab
  have hst : (duoRun id1 id2 d1 d2 i (0, 0)).2 = (a, b) := by rw [ha, hb]
  have hct0 : (0 : Int) ≤ (ct : Int) := Int.natCast_nonneg ct
  have hcf0 : (0 : Int) ≤ (cf : Int) := Int.natCast_nonneg cf
  have hcti : (ct : Int) ≤ (i : Int) := by exact_mod_cast (by omega : ct ≤ i)
  have hcfi : (cf : Int) ≤ (i : Int) := by exact_mod_cast (by omega : cf ≤ i)
  have ha0 : 0 ≤ a := by rw [ea]; exact mul_nonneg hct0 (by omega)
  have hb0 : 0 ≤ b := by rw [eb]; exact mul_nonneg hcf0 (by omega)
  have haD : a ≤ (i : Int) * max d1 d2 := by
    rw [ea]
    exact le_trans (Int.mul_le_mul_of_nonneg_left hD1 hct0)
      (Int.mul_le_mul_of_nonneg_right hcti hD0)
  have hbD : b ≤ (i : Int) * max d1 d2 := by
    rw [eb]
    exact le_trans (Int.mul_le_mul_of_nonneg_left hD2 hcf0)
      (Int.mul_le_mul_of_nonneg_right hcfi hD0)
  have hexp : ((i : Int) + (K : Int) + 1) * max d1 d2 =
      (i : Int) * max d1 d2 + (K : Int) * max d1 d2 + max d1 d2 := by ring
  have hK1 : ∀ d : Int, ((K + 1 : Nat) : Int) * d = (K : Int) * d + d := by
    intro d; push_cast; ring
  have hN2 : N = i + (K + 1) + (N - (i + (K + 1))) := by omega
  constructor
  · obtain ⟨t, ht, hft⟩ := duoRun_first_runs id1 id2 d1 hd2 K a b hb0
      (by rw [hK1]; omega) (by omega)
    refine ⟨i + t, by omega, by omega, ?_⟩
    rw [hN2, duoRun_window id1 id2 d1 d2 i (K + 1) _ t (0, 0) (by omega), hst]
    exact hft
  · obtain ⟨t, ht, hft⟩ := duoRun_second_runs id1 id2 d2 hd1 K a b ha0
      (by rw [hK1]; omega) (by omega)
    refine ⟨i + t, by omega, by omega, ?_⟩
    rw [hN2, duoRun_window id1 id2 d1 d2 i (K + 1) _ t (0, 0) (by omega), hst]
    exact hft

end Scheduler

end Alfs

namespace Alfs

namespace Scheduler

set_option maxRecDepth 100000 in
/-- C21 (bounded vruntime lag between two competitors), the case in which it fails.
With quanta 2^52 and the two tasks "A" and "B" in a cgroup of shares 1 both deltas are
2^62, so the bound on the lag is 2^62 and the bound on the skipped ticks is 2.  The
second run of "A", on the tick with index 2, takes its vruntime out of the `int64_t`
range: it wraps to -2^63, which is 3 * 2^62 below the vruntime 2^62 of "B" at the end
of that tick, and "A" is scheduled on the ticks with index 2, 3, 4 and 5 while "B"
waits. -/
theorem c21_lag_unbounded_on_wrap :
    startDelta (2 ^ 52) (lagBatch "g" 1 "g" 1 "A" 0 "B" 0) "A" = 2 ^ 62 ∧
    startDelta (2 ^ 52) (lagBatch "g" 1 "g" 1 "A" 0 "B" 0) "B" = 2 ^ 62 ∧
    ((Scheduler.new 1 (2 ^ 52)).runTicks 0
        (lagBatch "g" 1 "g" 1 "A" 0 "B" 0 :: List.replicate 2 [])).map
      (fun r => ((r.1.tasks "A").map Task.vruntime, (r.1.tasks "B").map Task.vruntime)) =
      some (some (-(2 ^ 63)), some (2 ^ 62)) ∧
    max (2 ^ 62 : Int) (2 ^ 62) < |(-(2 ^ 63) : Int) - 2 ^ 62| ∧
    ((Scheduler.new 1 (2 ^ 52)).runTicks 0
        (lagBatch "g" 1 "g" 1 "A" 0 "B" 0 :: List.replicate 5 [])).map
      (fun r => r.2.map TickOut.schedule) =
      some [["A"], ["B"], ["A"], ["A"], ["A"], ["A"]] := by
  refine ⟨?_, ?_, ?_, ?_, ?_⟩ <;> decide

/-- C21 (bounded vruntime lag between two competitors), within the range of the
vruntimes.  For every quanta, every two cgroups with any shares, every two distinct
task ids other than "" and "idle" with any nice values, and every number `k + 1` of
ticks with (k + 1) * max(d1, d2) ≤ 2^63 - 1, where d1 and d2 are the vruntime deltas of
the two tasks after the first batch: on a fresh one-CPU scheduler whose first batch
creates the two cgroups and then the two tasks, one in each, and whose later batches
are empty, the `k + 1` ticks return; every tick schedules exactly one of the two
tasks; in the state after them the two tasks still have the deltas d1 and d2 and their
vruntimes differ by at most max(d1, d2); and among any ceil(max(d1,d2)/min(d1,d2)) + 2
consecutive ticks each of the two tasks is scheduled at least once, so neither is
skipped for more than ceil(max(d1,d2)/min(d1,d2)) + 1 ticks in a row. -/
theorem c21_bounded_lag (q : Int) (g1 : String) (sh1 : Int) (g2 : String) (sh2 : Int)
    (id1 id2 : String) (n1 n2 : Int) (d1 d2 : Int) (k : Nat)
    (hne : id1 ≠ id2) (h10 : id1 ≠ "") (h1i : id1 ≠ "idle") (h20 : id2 ≠ "")
    (h2i : id2 ≠ "idle")
    (hd1 : startDelta q (lagBatch g1 sh1 g2 sh2 id1 n1 id2 n2) id1 = d1)
    (hd2 : startDelta q (lagBatch g1 sh1 g2 sh2 id1 n1 id2 n2) id2 = d2)
    (hN : ((k + 1 : Nat) : Int) * max d1 d2 ≤ INT64_MAX) :
    ∃ s outs t1 t2,
      (Scheduler.new 1 q).runTicks 0
        (lagBatch g1 sh1 g2 sh2 id1 n1 id2 n2 :: List.replicate k []) = some (s, outs) ∧
      outs.length = k + 1 ∧
      (∀ o ∈ outs, o.schedule = [id1] ∨ o.schedule = [id2]) ∧
      s.tasks id1 = some t1 ∧ s.tasks id2 = some t2 ∧
      s.vruntimeDelta t1 = d1 ∧ s.vruntimeDelta t2 = d2 ∧
      |t1.vruntime - t2.vruntime| ≤ max d1 d2 ∧
      ∀ i : Nat, i + (⌈((max d1 d2 : Int) : ℚ) / ((min d1 d2 : Int) : ℚ)⌉.toNat + 1) < k + 1 →
        (∃ j, i ≤ j ∧ j ≤ i + (⌈((max d1 d2 : Int) : ℚ) / ((min d1 d2 : Int) : ℚ)⌉.toNat + 1) ∧
          (outs.map TickOut.schedule)[j]? = some [id1]) ∧
        (∃ j, i ≤ j ∧ j ≤ i + (⌈((max d1 d2 : Int) : ℚ) / ((min d1 d2 : Int) : ℚ)⌉.toNat + 1) ∧
          (outs.map TickOut.schedule)[j]? = some [id2]) := by
  obtain ⟨s0, hev, hpair⟩ := Pair.after_batch q g1 sh1 g2 sh2 n1 n2 hne
  have e1 : s0.vruntimeDelta (s0.taskAt id1) = d1 := by
    rw [← hd1]; simp only [startDelta, hev]
  have e2 : s0.vruntimeDelta (s0.taskAt id2) = d2 := by
    rw [← hd2]; simp only [startDelta, hev]
  rw [e1, e2] at hpair
  have p1 : 1 ≤ d1 := by rw [← e1]; exact vruntimeDelta_pos _ _
  have p2 : 1 ≤ d2 := by rw [← e2]; exact vruntimeDelta_pos _ _
  obtain ⟨s1, outs, hrun, hmap, hend⟩ :=
    Pair.many_ticks hne h10 h1i h20 h2i (k + 1) 0 0 s0 0 hpair
  have hD1 : d1 ≤ max d1 d2 := le_max_left _ _
  have hD2 : d2 ≤ max d1 d2 := le_max_right _ _
  obtain ⟨-, -, hlag⟩ := duoRun_balance id1 id2 p1 p2 hD1 hD2 (k + 1) 0 0 (le_refl _)
    (le_refl _) (by simpa using hN) (by simpa using hN)
    (by simp only [sub_self, abs_zero]; omega)
  obtain ⟨t1, ht1, -, -, -, hv1, hdl1, -⟩ := hend.first
  obtain ⟨t2, ht2, -, -, -, hv2, hdl2, -⟩ := hend.second
  have hlen : outs.length = k + 1 := by
    have := congrArg List.length hmap
    rw [List.length_map, List.length_map, duoRun_length] at this
    exact this
  refine ⟨s1, outs, t1, t2, ?_, hlen, ?_, ht1, ht2, hdl1, hdl2, ?_, ?_⟩
  · rw [runTicks_first hev 0 (List.replicate k [])]
    exact hrun
  · intro o ho
    have hmem : o.schedule ∈ outs.map TickOut.schedule := List.mem_map_of_mem _ ho
    rw [hmap, List.mem_map] at hmem
    obtain ⟨f, -, hf⟩ := hmem
    cases f with
    | true => exact Or.inl hf.symm
    | false => exact Or.inr hf.symm
  · rw [hv1, hv2]
    exact hlag
  · intro i hi
    have hmin : 1 ≤ min d1 d2 := le_min p1 p2
    have hK := ceil_ratio_bound hmin (le_trans (min_le_left d1 d2) hD1)
    obtain ⟨⟨j1, a1, b1, c1⟩, ⟨j2, a2, b2, c2⟩⟩ :=
      duoRun_no_long_skip id1 id2 p1 p2 (k + 1) _ i hN hK hi
    refine ⟨⟨j1, a1, b1, ?_⟩, ⟨j2, a2, b2, ?_⟩⟩
    · rw [hmap, List.getElem?_map, c1]; rfl
    · rw [hmap, List.getElem?_map, c2]; rfl

set_option maxRecDepth 100000 in
/-- C21 applied to quanta 1, the task "A" in a cgroup of shares 512 (delta 2) and the
task "B" in a cgroup of shares 2048 (delta 1), and six ticks. -/
theorem c21_bounded_lag_witness :
    ∃ s outs t1 t2,
      (Scheduler.new 1 1).runTicks 0
        (lagBatch "g1" 512 "g2" 2048 "A" 0 "B" 0 :: List.replicate 5 []) = some (s, outs) ∧
      outs.length = 5 + 1 ∧
      (∀ o ∈ outs, o.schedule = ["A"] ∨ o.schedule = ["B"]) ∧
      s.tasks "A" = some t1 ∧ s.tasks "B" = some t2 ∧
      s.vruntimeDelta t1 = 2 ∧ s.vruntimeDelta t2 = 1 ∧
      |t1.vruntime - t2.vruntime| ≤ max 2 1 ∧
      ∀ i : Nat, i + (⌈((max 2 1 : Int) : ℚ) / ((min 2 1 : Int) : ℚ)⌉.toNat + 1) < 5 + 1 →
        (∃ j, i ≤ j ∧ j ≤ i + (⌈((max 2 1 : Int) : ℚ) / ((min 2 1 : Int) : ℚ)⌉.toNat + 1) ∧
          (outs.map TickOut.schedule)[j]? = some ["A"]) ∧
        (∃ j, i ≤ j ∧ j ≤ i + (⌈((max 2 1 : Int) : ℚ) / ((min 2 1 : Int) : ℚ)⌉.toNat + 1) ∧
          (outs.map TickOut.schedule)[j]? = some ["B"]) :=
  c21_bounded_lag 1 "g1" 512 "g2" 2048 "A" "B" 0 0 2 1 5 (by decide) (by decide) (by decide)
    (by decide) (by decide) (by decide) (by decide) (by decide)

end Scheduler

end Alfs

namespace Alfs

namespace Scheduler

end Scheduler

end Alfs

namespace Alfs

namespace Scheduler

set_option maxRecDepth 100000 in
/-- C8 (wake and yield placement), evaluated where it fails.  On one CPU the first tick
creates "A", "B" and "C" and runs "A"; "B" and "C" stay queued at vruntime 0 and
`maxVruntime` is 1.  TASK_UNBLOCK for the queued, RUNNABLE task "B" gives the reachable
state `s`: "B" has vruntime 1 = `maxVruntime`, and the runqueue array is still
["B", "C", "A"], "B" at the root, because `push` does nothing for a queued id and the
handler does not re-sort.  "C" is still queued, RUNNABLE and allowed on CPU 0, and
("C") with vruntime 0 comes before ("B") with vruntime 1 in the runqueue order, so
"B" is placed earlier than a queued task, and the immediately following dispatch
selects "B" ahead of "C". -/
theorem c8_unblock_queued_selected_first :
    ∃ s0 s, c8Queued = some s0 ∧ s0.applyEvent (evTask "TASK_UNBLOCK" "B") = some s ∧
      Reachable 1 1 s0 ∧ Reachable 1 1 s ∧
      s0.rq.contains "B" = true ∧ s0.rq.contains "C" = true ∧
      (s0.tasks "B").map Task.state = some TaskState.RUNNABLE ∧
      (s.tasks "B").map Task.vruntime = some s.maxVruntime ∧ s.maxVruntime = 1 ∧
      (s.tasks "C").map Task.vruntime = some 0 ∧
      s.rq.contains "C" = true ∧ (s.canTaskRunOnCPU (s.taskAt "C") 0).1 = true ∧
      MinHeap.lessId s.tasks "C" "B" = true ∧
      s.rq.a = ["B", "C", "A"] ∧ (s.dispatch 1).2.schedule = ["B"] := by
  have h0 : c8Queued.isSome = true := by decide
  obtain ⟨s0, hs0⟩ := Option.isSome_iff_exists.1 h0
  have h1 : c8Woken.isSome = true := by decide
  obtain ⟨s, hs⟩ := Option.isSome_iff_exists.1 h1
  have hev : s0.applyEvent (evTask "TASK_UNBLOCK" "B") = some s := by
    unfold c8Woken at hs
    rw [hs0] at hs
    exact hs
  have hr0 : Reachable 1 1 s0 := by
    unfold c8Queued at hs0
    obtain ⟨r, hr1, hr2⟩ := Option.map_eq_some'.mp hs0
    rw [← hr2]
    exact Reachable.after_tick Reachable.init hr1
  have e0 : c8Queued.map (fun s0 => (s0.rq.contains "B", s0.rq.contains "C",
      (s0.tasks "B").map Task.state)) = some (true, true, some TaskState.RUNNABLE) := by
    decide
  have e1 : c8Woken.map (fun s => ((s.tasks "B").map Task.vruntime, s.maxVruntime,
      (s.tasks "C").map Task.vruntime, s.rq.contains "C")) =
      some (some 1, 1, some 0, true) := by decide
  have e2 : c8Woken.map (fun s => ((s.canTaskRunOnCPU (s.taskAt "C") 0).1,
      MinHeap.lessId s.tasks "C" "B", s.rq.a, (s.dispatch 1).2.schedule)) =
      some (true, true, ["B", "C", "A"], ["B"]) := by decide
  rw [hs0] at e0
  rw [hs] at e1 e2
  simp only [Option.map_some', Option.some.injEq, Prod.mk.injEq] at e0 e1 e2
  obtain ⟨a1, a2, a3⟩ := e0
  obtain ⟨b1, b2, b3, b4⟩ := e1
  obtain ⟨b5, b6, b7, b8⟩ := e2
  exact ⟨s0, s, hs0, hev, hr0, Reachable.event _ hr0 hev, a1, a2, a3, by rw [b1, b2], b2,
    b3, b4, b5, b6, b7, b8⟩

end Scheduler

end Alfs
